import Mathlib

/-!
# Decision-tree learner (Homework8/main.go)

A shallow embedding of the ID3 learner, its reduced-error pruner, the stratified
sampler and the evaluator, followed by the properties established about them.

Conventions of the embedding.

* A Go `map[string]T` is an association list kept in first-insertion order with
  distinct keys.  A `for k, v := range m` loop visits the entries in an order chosen
  by the runtime; that order is the parameter `MapIter`.
* `float64` arithmetic that involves logarithms, products with a ratio and rounding is
  kept abstract: the functions are generic in a record `FloatOps F` of the primitive
  operations, so every statement proved for all `F` holds for IEEE-754 doubles.
* `accuracy` divides two example counts.  The quotient is represented by the exact
  rational `correct / total`; IEEE division is correctly rounded and monotone, and two
  such quotients over the same total below `2^53` compare exactly like the rationals.
* `*rand.Rand` is a state `σ` with a record `Rand σ` giving the permutation that
  `Shuffle` applies to `n` positions.
* A run-time panic (index out of range, division by zero) is the result `none`.

The definitions of three further programs of the repository, the sliding puzzle, the
ordered crossover and the tic-tac-toe search, follow in namespaces of their own; the
properties of all four programs come after the definitions.
-/

namespace ID3

/-! ## Data model -/

/-- An example maps attribute names to categorical values (`map[string]string`). -/
abbrev Example := List (String × String)

/-- Map indexing `ex[a]`: a key that is absent reads as the empty string. -/
def Example.get (ex : Example) (a : String) : String :=
  (List.lookup a ex).getD ""

/-- The struct `Dataset`. -/
structure Dataset where
  Attrs : List String
  ClassAttr : String
  Data : List Example
  AttrVals : List (String × List String)
deriving DecidableEq

mutual
/-- The struct `Node`; `Children` is the map from attribute value to subtree. -/
inductive Node where
  | mk (IsLeaf : Bool) (ClassLabel : String) (Attr : String) (Children : ChildMap)
      (MajorityClass : String) (Depth : Int)
/-- The map `map[string]*Node`, entries in first-insertion order. -/
inductive ChildMap where
  | nil
  | cons (value : String) (child : Node) (rest : ChildMap)
end

namespace Node

/-- Field `IsLeaf`. -/
def IsLeaf : Node → Bool
  | mk b _ _ _ _ _ => b

/-- Field `ClassLabel`. -/
def ClassLabel : Node → String
  | mk _ c _ _ _ _ => c

/-- Field `Attr`. -/
def Attr : Node → String
  | mk _ _ a _ _ _ => a

/-- Field `Children`. -/
def Children : Node → ChildMap
  | mk _ _ _ ch _ _ => ch

/-- Field `MajorityClass`. -/
def MajorityClass : Node → String
  | mk _ _ _ _ m _ => m

/-- Field `Depth`. -/
def Depth : Node → Int
  | mk _ _ _ _ _ d => d

/-- The literal `&Node{IsLeaf: true, ClassLabel: label, MajorityClass: maj, Depth: depth}`. -/
def leaf (label maj : String) (depth : Int) : Node :=
  mk true label "" ChildMap.nil maj depth

end Node

deriving instance DecidableEq for Node

/-- Map lookup `children[v]` with the comma-ok result. -/
def ChildMap.find : ChildMap → String → Option Node
  | .nil, _ => none
  | .cons k c rest, v => if k = v then some c else ChildMap.find rest v

/-- The keys of a child map. -/
def ChildMap.keys : ChildMap → List String
  | .nil => []
  | .cons k _ rest => k :: ChildMap.keys rest

/-- The primitive `float64` operations the program uses. -/
structure FloatOps (F : Type) where
  /-- Conversion `float64(n)` and integer-valued literals such as `-1.0`. -/
  ofInt : Int → F
  add : F → F → F
  sub : F → F → F
  mul : F → F → F
  div : F → F → F
  /-- The library function `math.Log`. -/
  log : F → F
  /-- The library function `math.Round`. -/
  round : F → F
  /-- Conversion `int(x)`. -/
  toInt : F → Int
  /-- The comparison `x < y`. -/
  lt : F → F → Bool

/-- The order in which a `range` loop visits the entries of a map. -/
structure MapIter where
  order : {α : Type} → List (String × α) → List (String × α)
  perm : ∀ {α : Type} (m : List (String × α)), (order m).Perm m

/-- Iteration in insertion order. -/
def MapIter.insertion : MapIter :=
  ⟨fun m => m, fun m => List.Perm.refl m⟩

/-- Iteration in reverse insertion order. -/
def MapIter.reversed : MapIter :=
  ⟨fun m => m.reverse, fun m => List.reverse_perm m⟩

/-- The struct `PrePrune`. -/
structure PrePrune (F : Type) where
  UseN : Bool
  N : Int
  UseK : Bool
  K : Int
  UseG : Bool
  G : F

/-- The struct `Config`. -/
structure Config (F : Type) where
  Mode : String
  Pre : PrePrune F
  UsePostE : Bool
  Seed : Int
  TrainRatio : F
  ValRatioInTrain : F
  Folds : Int
  MissingPolicy : String

/-! ## Map-building helpers -/

/-- The statement `counts[k]++`. -/
def incr : List (String × Nat) → String → List (String × Nat)
  | [], k => [(k, 1)]
  | (k', n) :: rest, k => if k' = k then (k', n + 1) :: rest else (k', n) :: incr rest k

/-- The statement `out[k] = append(out[k], x)`. -/
def appendTo {α : Type} : List (String × List α) → String → α → List (String × List α)
  | [], k, x => [(k, [x])]
  | (k', xs) :: rest, k, x =>
    if k' = k then (k', xs ++ [x]) :: rest else (k', xs) :: appendTo rest k x

/-- The loop `for _, ex := range data { counts[ex[classAttr]]++ }`. -/
def classCounts (data : List Example) (classAttr : String) : List (String × Nat) :=
  data.foldl (fun counts ex => incr counts (ex.get classAttr)) []

/-! ## Splitting criterion and tree builder -/

/-- The function `groupByValue`: the examples grouped by their value of `attr`. -/
def groupByValue (data : List Example) (attr : String) : List (String × List Example) :=
  data.foldl (fun out ex => appendTo out (ex.get attr) ex) []

/-- The function `isPure`: an empty list is pure, otherwise every example must carry the
class label of the first one. -/
def isPure (data : List Example) (classAttr : String) : Bool :=
  match data with
  | [] => true
  | first :: rest => rest.all (fun ex => ex.get classAttr == first.get classAttr)

/-- The function `majorityClass`: the running pair `(best, bestN)` starts at `("", -1)`
and is replaced by an entry with a strictly greater count, in map iteration order. -/
def majorityClass (mi : MapIter) (data : List Example) (classAttr : String) : String :=
  ((mi.order (classCounts data classAttr)).foldl
    (fun (acc : String × Int) (kv : String × Nat) =>
      if (kv.2 : Int) > acc.2 then (kv.1, (kv.2 : Int)) else acc)
    ("", -1)).1

/-- The function `log2`. -/
def log2 {F : Type} (fo : FloatOps F) (x : F) : F :=
  fo.div (fo.log x) (fo.log (fo.ofInt 2))

/-- The function `entropy`. -/
def entropy {F : Type} (fo : FloatOps F) (mi : MapIter) (data : List Example)
    (classAttr : String) : F :=
  let n := fo.ofInt data.length
  (mi.order (classCounts data classAttr)).foldl
    (fun h kc =>
      let p := fo.div (fo.ofInt kc.2) n
      if fo.lt (fo.ofInt 0) p then fo.sub h (fo.mul p (log2 fo p)) else h)
    (fo.ofInt 0)

/-- The function `condEntropy`. -/
def condEntropy {F : Type} (fo : FloatOps F) (mi : MapIter) (data : List Example)
    (attr : String) (classAttr : String) : F :=
  let n := fo.ofInt data.length
  (mi.order (groupByValue data attr)).foldl
    (fun sum vs =>
      if vs.2.length = 0 then sum
      else
        let w := fo.div (fo.ofInt vs.2.length) n
        fo.add sum (fo.mul w (entropy fo mi vs.2 classAttr)))
    (fo.ofInt 0)

/-- The attribute-selection loop of `buildID3`: the pair `(bestAttr, bestIG)`. -/
def bestSplit {F : Type} (fo : FloatOps F) (mi : MapIter) (ds : Dataset) : String × F :=
  let baseH := entropy fo mi ds.Data ds.ClassAttr
  ds.Attrs.foldl
    (fun (best : String × F) a =>
      let ig := fo.sub baseH (condEntropy fo mi ds.Data a ds.ClassAttr)
      if fo.lt best.2 ig then (a, ig) else best)
    ("", fo.ofInt (-1))

/-- The loop that fills `children`: one entry per group, a fallback leaf for an empty
group and a recursive call `build` otherwise. -/
def buildChildren (build : List Example → Option Node) (maj : String) (depth : Int) :
    List (String × List Example) → Option ChildMap
  | [] => some ChildMap.nil
  | (v, subset) :: rest =>
    match (if subset.length = 0 then some (Node.leaf maj maj (depth + 1)) else build subset),
        buildChildren build maj depth rest with
    | some c, some r => some (ChildMap.cons v c r)
    | _, _ => none

/-- The body of `buildID3`, with `recur` standing for the recursive call. -/
def buildID3Step {F : Type} (fo : FloatOps F) (mi : MapIter)
    (recur : Dataset → Config F → Int → Option Node) (ds : Dataset) (cfg : Config F)
    (depth : Int) : Option Node :=
  let maj := majorityClass mi ds.Data ds.ClassAttr
  if isPure ds.Data ds.ClassAttr then
    match ds.Data with
    | [] => none
    | ex :: _ => some (Node.leaf (ex.get ds.ClassAttr) maj depth)
  else if ((cfg.Mode == "0" || cfg.Mode == "2")
      && (cfg.Pre.UseN || cfg.Pre.UseK || cfg.Pre.UseG))
      && ((cfg.Pre.UseN && decide (depth ≥ cfg.Pre.N))
        || (cfg.Pre.UseK && decide ((ds.Data.length : Int) < cfg.Pre.K))) then
    some (Node.leaf maj maj depth)
  else if ds.Attrs.length = 0 then
    some (Node.leaf maj maj depth)
  else
    let best := bestSplit fo mi ds
    if best.1 = "" then
      some (Node.leaf maj maj depth)
    else if (cfg.Mode == "0" || cfg.Mode == "2") && cfg.Pre.UseG && fo.lt best.2 cfg.Pre.G then
      some (Node.leaf maj maj depth)
    else
      let rem := ds.Attrs.filter (fun a => a != best.1)
      match buildChildren
          (fun subset => recur { ds with Attrs := rem, Data := subset } cfg (depth + 1))
          maj depth (groupByValue ds.Data best.1) with
      | some children => some (Node.mk false "" best.1 children maj depth)
      | none => none

/-- The recursion of `buildID3` unrolled `fuel + 1` levels deep. -/
def buildID3Aux {F : Type} (fo : FloatOps F) (mi : MapIter) :
    Nat → Dataset → Config F → Int → Option Node
  | 0 => buildID3Step fo mi (fun _ _ _ => none)
  | fuel + 1 => buildID3Step fo mi (buildID3Aux fo mi fuel)

/-- The function `buildID3`: every recursive call removes the chosen attribute, so the
number of active attributes bounds the nesting (`buildID3_unfold` below). -/
def buildID3 {F : Type} (fo : FloatOps F) (mi : MapIter) (ds : Dataset) (cfg : Config F)
    (depth : Int) : Option Node :=
  buildID3Aux fo mi ds.Attrs.length ds cfg depth

/-! ## Evaluator -/

mutual
/-- The function `predict`. The leaf test comes first; at a decision node the value
`ex[root.Attr]` is looked up among the children. -/
def predict : Node → Example → String
  | .mk isLeaf classLabel attr children maj _, ex =>
    if isLeaf then classLabel else predictChild children (ex.get attr) maj ex
/-- The lookup `root.Children[v]` followed by the recursive call on a hit and by the
fallback `root.MajorityClass` on a miss. -/
def predictChild : ChildMap → String → String → Example → String
  | .nil, _, maj, _ => maj
  | .cons k c rest, v, maj, ex => if k = v then predict c ex else predictChild rest v maj ex
end

/-- The counter `correct` at the end of the loop of `accuracy`. -/
def correctCount (root : Node) (ds : Dataset) : Nat :=
  ds.Data.countP (fun ex => predict root ex == ex.get ds.ClassAttr)

/-- The function `accuracy`: `0` on an empty dataset, otherwise `correct / len(ds.Data)`. -/
def accuracy (root : Node) (ds : Dataset) : ℚ :=
  if ds.Data.length = 0 then 0
  else (correctCount root ds : ℚ) / (ds.Data.length : ℚ)

/-! ## Post-pruner -/

mutual
/-- The function `reducedErrorPrune` on a non-nil tree (a nil root is returned as is). -/
def reducedErrorPrune : Node → Dataset → String → Node
  | .mk isLeaf classLabel attr children maj depth, val, classAttr =>
    if isLeaf then Node.mk isLeaf classLabel attr children maj depth
    else
      let root := Node.mk isLeaf classLabel attr (pruneChildren children val classAttr) maj depth
      let origAcc := accuracy root val
      let leaf := Node.leaf maj maj depth
      let leafAcc := accuracy leaf val
      if leafAcc ≥ origAcc then leaf else root
/-- The loop `for k, ch := range root.Children { root.Children[k] = reducedErrorPrune(ch, ...) }`. -/
def pruneChildren : ChildMap → Dataset → String → ChildMap
  | .nil, _, _ => ChildMap.nil
  | .cons k c rest, val, classAttr =>
    ChildMap.cons k (reducedErrorPrune c val classAttr) (pruneChildren rest val classAttr)
end

/-! ## Stratified sampler -/

/-- The random source: `shuffle s n` is the arrangement of the positions `0..n-1` that
`rng.Shuffle(n, swap)` produces from state `s`, with the state it leaves. -/
structure Rand (σ : Type) where
  shuffle : σ → Nat → List Nat × σ
  perm : ∀ (s : σ) (n : Nat), (shuffle s n).1.Perm (List.range n)

/-- The slice after the swaps: position `i` holds the element that was at `p[i]`. -/
def applyPerm {α : Type} (p : List Nat) (l : List α) : List α :=
  p.filterMap (fun i => l[i]?)

/-- The loop `for _, ex := range ds.Data { byClass[c] = append(byClass[c], ex) }`. -/
def groupByClass (data : List Example) (classAttr : String) : List (String × List Example) :=
  data.foldl (fun byClass ex => appendTo byClass (ex.get classAttr) ex) []

/-- The split index of one class of `n` examples in `stratifiedSplit`, after both clamps. -/
def splitPoint {F : Type} (fo : FloatOps F) (n : Nat) (trainRatio : F) : Int :=
  let split := fo.toInt (fo.round (fo.mul (fo.ofInt n) trainRatio))
  let split := if split < 1 then 1 else split
  if split > (n : Int) - 1 then (n : Int) - 1 else split

/-- The loop over `byClass` in `stratifiedSplit`, threading `trainData`, `testData` and
the random source; a slice bound out of range is a panic. -/
def splitLoop {F σ : Type} (fo : FloatOps F) (R : Rand σ) (trainRatio : F) :
    List (String × List Example) → List Example → List Example → σ →
      Option (List Example × List Example × σ)
  | [], trainData, testData, rng => some (trainData, testData, rng)
  | (_, arr) :: rest, trainData, testData, rng =>
    let shuffled := applyPerm (R.shuffle rng arr.length).1 arr
    let split := splitPoint fo shuffled.length trainRatio
    if 0 ≤ split ∧ split ≤ (shuffled.length : Int) then
      splitLoop fo R trainRatio rest (trainData ++ shuffled.take split.toNat)
        (testData ++ shuffled.drop split.toNat) (R.shuffle rng arr.length).2
    else none

/-- The function `stratifiedSplit`. -/
def stratifiedSplit {F σ : Type} (fo : FloatOps F) (mi : MapIter) (R : Rand σ) (ds : Dataset)
    (trainRatio : F) (rng : σ) : Option (Dataset × Dataset × σ) :=
  match splitLoop fo R trainRatio (mi.order (groupByClass ds.Data ds.ClassAttr)) [] [] rng with
  | some (trainData, testData, rng') =>
    some ({ ds with Data := trainData }, { ds with Data := testData }, rng')
  | none => none

/-- The statement `folds[j] = append(folds[j], ex)`; an index out of range is a panic. -/
def appendAt : List (List Example) → Nat → Example → Option (List (List Example))
  | [], _, _ => none
  | f :: fs, 0, ex => some ((f ++ [ex]) :: fs)
  | f :: fs, j + 1, ex => (appendAt fs j ex).map (fun fs' => f :: fs')

/-- The loop `for i, ex := range shuffled { folds[i%k] = append(folds[i%k], ex) }`,
from index `i` on; `i % k` with `k = 0` is a division by zero. -/
def placeInFolds (k : Nat) : Nat → List Example → List (List Example) →
    Option (List (List Example))
  | _, [], folds => some folds
  | i, ex :: rest, folds =>
    if k = 0 then none
    else
      match appendAt folds (i % k) ex with
      | some folds' => placeInFolds k (i + 1) rest folds'
      | none => none

/-- The loop over `byClass` in `stratifiedKFoldCV`. -/
def foldLoop {σ : Type} (R : Rand σ) (k : Nat) :
    List (String × List Example) → List (List Example) → σ →
      Option (List (List Example) × σ)
  | [], folds, rng => some (folds, rng)
  | (_, arr) :: rest, folds, rng =>
    let shuffled := applyPerm (R.shuffle rng arr.length).1 arr
    match placeInFolds k 0 shuffled folds with
    | some folds' => foldLoop R k rest folds' (R.shuffle rng arr.length).2
    | none => none

/-- The first half of `stratifiedKFoldCV`: the `k` folds it builds, with the state of
the random source afterwards; `make([][]Example, k)` panics for a negative `k`. -/
def buildFolds {σ : Type} (mi : MapIter) (R : Rand σ) (train : Dataset) (k : Int) (rng : σ) :
    Option (List (List Example) × σ) :=
  if k < 0 then none
  else foldLoop R k.toNat (mi.order (groupByClass train.Data train.ClassAttr))
    (List.replicate k.toNat []) rng

/-- The function `trainWithOptionalPostPruning`. -/
def trainWithOptionalPostPruning {F σ : Type} (fo : FloatOps F) (mi : MapIter) (R : Rand σ)
    (train : Dataset) (cfg : Config F) (rng : σ) : Option (Node × σ) :=
  if cfg.UsePostE then
    match stratifiedSplit fo mi R train (fo.sub (fo.ofInt 1) cfg.ValRatioInTrain) rng with
    | some (subtrain, val, rng') =>
      match buildID3 fo mi subtrain cfg 0 with
      | some tree => some (reducedErrorPrune tree val train.ClassAttr, rng')
      | none => none
    | none => none
  else
    match buildID3 fo mi train cfg 0 with
    | some tree => some (tree, rng)
    | none => none

/-- The slice `tr` of round `i`: the folds other than fold `i`, concatenated in order. -/
def otherFolds (folds : List (List Example)) (i : Nat) : List Example :=
  ((folds.enum.filter (fun p => p.1 != i)).map Prod.snd).flatten

/-- The second loop of `stratifiedKFoldCV`, over the rounds listed in `rounds`. -/
def cvLoop {F σ : Type} (fo : FloatOps F) (mi : MapIter) (R : Rand σ) (train : Dataset)
    (cfg : Config F) (folds : List (List Example)) : List Nat → σ → Option (List ℚ × σ)
  | [], rng => some ([], rng)
  | i :: rest, rng =>
    match trainWithOptionalPostPruning fo mi R { train with Data := otherFolds folds i } cfg rng
    with
    | some (model, rng') =>
      match cvLoop fo mi R train cfg folds rest rng' with
      | some (accs, rng'') =>
        some (accuracy model { train with Data := folds.getD i [] } :: accs, rng'')
      | none => none
    | none => none

/-- The function `stratifiedKFoldCV`: the folds, then one training and scoring round per
fold. -/
def stratifiedKFoldCV {F σ : Type} (fo : FloatOps F) (mi : MapIter) (R : Rand σ)
    (train : Dataset) (k : Int) (cfg : Config F) (rng : σ) : Option (List ℚ × σ) :=
  match buildFolds mi R train k rng with
  | some (folds, rng') => cvLoop fo mi R train cfg folds (List.range k.toNat) rng'
  | none => none

/-! ## Aggregation -/

/-- The function `meanStd`; `sqrt` is the library function `math.Sqrt`. -/
def meanStd {F : Type} (fo : FloatOps F) (sqrt : F → F) (xs : List F) : F × F :=
  if xs.length = 0 then (fo.ofInt 0, fo.ofInt 0)
  else
    let sum := xs.foldl (fun s x => fo.add s x) (fo.ofInt 0)
    let mean := fo.div sum (fo.ofInt xs.length)
    if xs.length = 1 then (mean, fo.ofInt 0)
    else
      let vars := xs.foldl (fun v x => fo.add v (fo.mul (fo.sub x mean) (fo.sub x mean)))
        (fo.ofInt 0)
      (mean, sqrt (fo.div vars (fo.ofInt ((xs.length : Int) - 1))))

/-! ## Measures used in the statements -/

/-- Number of examples of class `c` in a list of examples. -/
def classCount (classAttr c : String) (l : List Example) : Nat :=
  l.countP (fun ex => ex.get classAttr == c)


mutual
/-- Every leaf of the tree, whose root stands at depth `d`, lies at depth at most `n` and
records a `Depth` of at most `n`. -/
def Node.leavesWithin : Node → Int → Int → Bool
  | .mk isLeaf _ _ children _ depth, d, n =>
    if isLeaf then decide (d ≤ n) && decide (depth ≤ n)
    else ChildMap.leavesWithin children (d + 1) n
/-- The same for every subtree of a child map whose entries stand at depth `d`. -/
def ChildMap.leavesWithin : ChildMap → Int → Int → Bool
  | .nil, _, _ => true
  | .cons _ c rest, d, n => Node.leavesWithin c d n && ChildMap.leavesWithin rest d n
end

/-- The value `ig` that the selection loop of `buildID3` computes for attribute `a`:
`baseH - condEntropy(ds.Data, a, ds.ClassAttr)`. -/
def infoGain {F : Type} (fo : FloatOps F) (mi : MapIter) (ds : Dataset) (a : String) : F :=
  fo.sub (entropy fo mi ds.Data ds.ClassAttr) (condEntropy fo mi ds.Data a ds.ClassAttr)

/-- The relative frequency `p = float64(c) / n` of class `c` in `data`, as `entropy`
computes it. -/
def classFreq {F : Type} (fo : FloatOps F) (classAttr : String) (data : List Example)
    (c : String) : F :=
  fo.div (fo.ofInt (classCount classAttr c data)) (fo.ofInt data.length)

/-- The facts of `float64` arithmetic that the evaluation of `entropy` on frequencies
rests on: a positive count divided by itself is `1`, the quotient of two positive counts
is positive, `log2(1)` is `0`, `1 * 0` is `0` and `0 - 0` is `0`. -/
structure EntropyLaws {F : Type} (fo : FloatOps F) : Prop where
  div_self : ∀ n : Int, 0 < n → fo.div (fo.ofInt n) (fo.ofInt n) = fo.ofInt 1
  div_pos : ∀ c n : Int, 0 < c → 0 < n →
    fo.lt (fo.ofInt 0) (fo.div (fo.ofInt c) (fo.ofInt n)) = true
  log2_one : log2 fo (fo.ofInt 1) = fo.ofInt 0
  one_mul_zero : fo.mul (fo.ofInt 1) (fo.ofInt 0) = fo.ofInt 0
  zero_sub_zero : fo.sub (fo.ofInt 0) (fo.ofInt 0) = fo.ofInt 0

/-! ## Reference arithmetic and concrete inputs -/

/-- Exact rational arithmetic for evaluating the program on concrete inputs. `log` is the
logarithm in units of `ln 2`, exact on powers of two, so that `log2` is exact there. In the
evaluations below every class frequency passed to `log2` is `1` or `1/2`, every weight is
`1/2` or `1/4` and every entropy and gain is `0`, `1/2` or `1`, values that `float64`
computes exactly (`math.Log(0.5) / math.Log(2)` is `-1`); gains are compared with `-1.0`
and with the thresholds `0.1` and `1.1`; the only other use is the product `n * ratio` of
`stratifiedSplit`, which is rounded to an integer it is not halfway to. -/
def exactOps : FloatOps ℚ where
  ofInt := fun n => (n : ℚ)
  add := fun x y => x + y
  sub := fun x y => x - y
  mul := fun x y => x * y
  div := fun x y => x / y
  log := fun x => ((Nat.log2 x.num.toNat : Int) : ℚ) - ((Nat.log2 x.den : Int) : ℚ)
  round := fun x => if 0 ≤ x then ((⌊x + 1 / 2⌋ : Int) : ℚ) else -((⌊-x + 1 / 2⌋ : Int) : ℚ)
  toInt := fun x => if 0 ≤ x then ⌊x⌋ else ⌈x⌉
  lt := fun x y => decide (x < y)

/-- The configuration of `defaultConfig` with its mode and toggles replaced. -/
def configWith (mode : String) (useN : Bool) (n : Int) (useK : Bool) (k : Int) (useG : Bool)
    (usePostE : Bool) : Config ℚ :=
  { Mode := mode,
    Pre := { UseN := useN, N := n, UseK := useK, K := k, UseG := useG, G := 1 / 10 },
    UsePostE := usePostE, Seed := 42, TrainRatio := 4 / 5, ValRatioInTrain := 1 / 5,
    Folds := 10, MissingPolicy := "mode_by_class" }

/-- Two examples of class `yes`. -/
def pureData : Dataset :=
  { Attrs := ["outlook"], ClassAttr := "Class",
    Data := [[("outlook", "sunny"), ("Class", "yes")], [("outlook", "rain"), ("Class", "yes")]],
    AttrVals := [] }

/-- Two examples of different classes that one attribute tells apart. -/
def twoClassData : Dataset :=
  { Attrs := ["x"], ClassAttr := "Class",
    Data := [[("x", "0"), ("Class", "a")], [("x", "1"), ("Class", "b")]],
    AttrVals := [] }

/-- A decision tree over the attributes `A` and `B`: below `A = a1` it separates `b1`
(yes) from `b2` (no), and it answers no for `A = a2`. -/
def nestedTree : Node :=
  Node.mk false "" "A"
    (ChildMap.cons "a1"
      (Node.mk false "" "B"
        (ChildMap.cons "b1" (Node.leaf "yes" "yes" 2)
          (ChildMap.cons "b2" (Node.leaf "no" "no" 2) ChildMap.nil))
        "no" 1)
      (ChildMap.cons "a2" (Node.leaf "no" "no" 1) ChildMap.nil))
    "no" 0

/-- Four validation examples, all of which `nestedTree` classifies correctly. -/
def nestedVal : Dataset :=
  { Attrs := ["A", "B"], ClassAttr := "Class",
    Data := [[("A", "a1"), ("B", "b1"), ("Class", "yes")],
             [("A", "a2"), ("B", "b1"), ("Class", "no")],
             [("A", "a2"), ("B", "b1"), ("Class", "no")],
             [("A", "a1"), ("B", "b1"), ("Class", "yes")]],
    AttrVals := [] }

/-- A dataset without examples. -/
def emptyData : Dataset :=
  { Attrs := ["outlook"], ClassAttr := "Class", Data := [], AttrVals := [] }

/-- A random source for evaluation: the state counts the calls of `Shuffle`, and the
call in state `s` rotates the positions by `s`. -/
def rotateRand : Rand Nat where
  shuffle := fun s n => ((List.range n).rotate s, s + 1)
  perm := fun s n => List.rotate_perm (List.range n) s

/-- Seven distinct examples: four of class `no`, three of class `yes`. -/
def weatherData : Dataset :=
  { Attrs := ["day"], ClassAttr := "Class",
    Data := [[("day", "1"), ("Class", "no")], [("day", "2"), ("Class", "yes")],
             [("day", "3"), ("Class", "no")], [("day", "4"), ("Class", "yes")],
             [("day", "5"), ("Class", "no")], [("day", "6"), ("Class", "yes")],
             [("day", "7"), ("Class", "no")]],
    AttrVals := [] }

/-- Four examples of class `common` and a single example of class `rare`. -/
def rareClassData : Dataset :=
  { Attrs := ["day"], ClassAttr := "Class",
    Data := [[("day", "1"), ("Class", "common")], [("day", "2"), ("Class", "rare")],
             [("day", "3"), ("Class", "common")], [("day", "4"), ("Class", "common")],
             [("day", "5"), ("Class", "common")]],
    AttrVals := [] }

/-- The four-example scenario: (sunny, hot) and (sunny, cool) are `no`, (overcast, hot)
and (rain, cool) are `yes`; the class attribute comes last. -/
def scenarioData : Dataset :=
  { Attrs := ["outlook", "temperature"], ClassAttr := "play",
    Data := [[("outlook", "sunny"), ("temperature", "hot"), ("play", "no")],
             [("outlook", "sunny"), ("temperature", "cool"), ("play", "no")],
             [("outlook", "overcast"), ("temperature", "hot"), ("play", "yes")],
             [("outlook", "rain"), ("temperature", "cool"), ("play", "yes")]],
    AttrVals := [] }

/-- The tree that splits the scenario on `outlook`, with root majority class `maj`. -/
def scenarioTree (maj : String) : Node :=
  Node.mk false "" "outlook"
    (ChildMap.cons "sunny" (Node.leaf "no" "no" 1)
      (ChildMap.cons "overcast" (Node.leaf "yes" "yes" 1)
        (ChildMap.cons "rain" (Node.leaf "yes" "yes" 1) ChildMap.nil)))
    maj 0

/-- A configuration with every pruning rule switched off. -/
def noPruning : Config ℚ :=
  configWith "2" false 10 false 5 false false

/-- A configuration in which only the min-information-gain rule is enabled, with
threshold `g`. -/
def gainRule (mode : String) (g : ℚ) : Config ℚ :=
  { Mode := mode,
    Pre := { UseN := false, N := 10, UseK := false, K := 5, UseG := true, G := g },
    UsePostE := false, Seed := 42, TrainRatio := 4 / 5, ValRatioInTrain := 1 / 5,
    Folds := 10, MissingPolicy := "mode_by_class" }

/-- A rational square root for evaluation, exact on quotients of perfect squares. -/
def exactSqrt (x : ℚ) : ℚ :=
  (Nat.sqrt x.num.toNat : ℚ) / (Nat.sqrt x.den : ℚ)

/-! ## Tree shape -/

/-- The entries of a `Children` map, in order. -/
def ChildMap.entries : ChildMap → List (String × Node)
  | .nil => []
  | .cons v c rest => (v, c) :: ChildMap.entries rest

mutual
/-- Whether the `Depth` fields of a tree count from `d`: the node has `Depth = d` and the
fields of every child count from `d + 1`. -/
def Node.depthsFrom : Node → Int → Bool
  | .mk _ _ _ children _ depth, d =>
    decide (depth = d) && ChildMap.depthsFrom children (d + 1)
/-- Whether the `Depth` fields of every child count from `d`. -/
def ChildMap.depthsFrom : ChildMap → Int → Bool
  | .nil, _ => true
  | .cons _ c rest, d => Node.depthsFrom c d && ChildMap.depthsFrom rest d
end

mutual
/-- The height of a tree: the number of Internal nodes on its longest path from the root
to a leaf. -/
def Node.height : Node → Nat
  | .mk isLeaf _ _ children _ _ => if isLeaf then 0 else ChildMap.height children + 1
/-- The greatest height among the children. -/
def ChildMap.height : ChildMap → Nat
  | .nil => 0
  | .cons _ c rest => max (Node.height c) (ChildMap.height rest)
end

mutual
/-- Whether no path from the root to a leaf tests an attribute of `used` or tests an
attribute twice. -/
def Node.noRepeat : Node → List String → Bool
  | .mk isLeaf _ attr children _ _, used =>
    isLeaf || (!used.contains attr && ChildMap.noRepeat children (attr :: used))
/-- Whether `Node.noRepeat` holds of every child. -/
def ChildMap.noRepeat : ChildMap → List String → Bool
  | .nil, _ => true
  | .cons _ c rest, used => Node.noRepeat c used && ChildMap.noRepeat rest used
end

/-- Whether `c` is a most frequent class label of `data`: it labels an example, and no
label of an example is more frequent. -/
def isMostFrequent (classAttr c : String) (data : List Example) : Bool :=
  decide (1 ≤ classCount classAttr c data)
    && data.all (fun ex =>
      decide (classCount classAttr (ex.get classAttr) data ≤ classCount classAttr c data))

mutual
/-- Whether every node of a tree carries in `MajorityClass` a most frequent class label
of the examples that reach it, when `data` are the examples that reach the root: the
examples that reach the child under `v` of a node on `attr` are those with `attr = v`. -/
def Node.majorityOK (classAttr : String) : Node → List Example → Bool
  | .mk isLeaf _ attr children maj _, data =>
    isMostFrequent classAttr maj data
      && (isLeaf || ChildMap.majorityOK classAttr children attr data)
/-- Whether `Node.majorityOK` holds of every child of a node on `attr`. -/
def ChildMap.majorityOK (classAttr : String) : ChildMap → String → List Example → Bool
  | .nil, _, _ => true
  | .cons v c rest, attr, data =>
    Node.majorityOK classAttr c (data.filter (fun ex => ex.get attr == v))
      && ChildMap.majorityOK classAttr rest attr data
end

/-! ## More inputs for evaluation -/

/-- The Internal node of `nestedTree` below `A = a1`, which is not the root. -/
def nestedChild : Node :=
  Node.mk false "" "B"
    (ChildMap.cons "b1" (Node.leaf "yes" "yes" 2)
      (ChildMap.cons "b2" (Node.leaf "no" "no" 2) ChildMap.nil))
    "no" 1

/-- The tree `nestedTree` with the node `c` in the place of `nestedChild`. -/
def nestedTreeWith (c : Node) : Node :=
  Node.mk false "" "A"
    (ChildMap.cons "a1" c (ChildMap.cons "a2" (Node.leaf "no" "no" 1) ChildMap.nil))
    "no" 0

/-! ## Pruning input -/

/-- The library predicate `unicode.IsSpace`, by code point. -/
def isSpace (c : Char) : Bool :=
  (9 ≤ c.toNat && c.toNat ≤ 13) || c.toNat = 32 || c.toNat = 133 || c.toNat = 160
    || c.toNat = 5760 || (8192 ≤ c.toNat && c.toNat ≤ 8202) || c.toNat = 8232
    || c.toNat = 8233 || c.toNat = 8239 || c.toNat = 8287 || c.toNat = 12288

/-- The scan of `strings.Fields`: `cur` holds the characters of the field being read. -/
def fieldsAux : List Char → List Char → List String
  | [], cur => if cur.isEmpty then [] else [String.mk cur]
  | c :: cs, cur =>
    if isSpace c then
      if cur.isEmpty then fieldsAux cs [] else String.mk cur :: fieldsAux cs []
    else fieldsAux cs (cur ++ [c])

/-- The expression `strings.Fields(strings.TrimSpace(s))`: the maximal runs of characters
that are not white space. -/
def fields (s : String) : List String :=
  fieldsAux s.toList []

/-- The expression `strings.Contains(strings.ToUpper(t), c)` for a one-letter string `c`
that is an upper-case ASCII letter: no character outside ASCII has such an upper case. -/
def upperContains (t : String) (c : Char) : Bool :=
  (t.toList.map Char.toUpper).contains c

/-- The expression `strings.ContainsAny(strings.ToUpper(t), chars)`. -/
def upperContainsAny (t : String) (chars : String) : Bool :=
  (t.toList.map Char.toUpper).any (fun c => chars.toList.contains c)

/-- The body of the loop `for _, t := range parts[1:]` in `parseInputPruning`. -/
def parseToken {F : Type} (mode : String) (cfg : Config F) (t : String) : Config F :=
  let cfg :=
    if upperContainsAny t "NKG" && (mode == "0" || mode == "2") then
      let cfg := if upperContains t 'N' then { cfg with Pre := { cfg.Pre with UseN := true } }
        else cfg
      let cfg := if upperContains t 'K' then { cfg with Pre := { cfg.Pre with UseK := true } }
        else cfg
      if upperContains t 'G' then { cfg with Pre := { cfg.Pre with UseG := true } } else cfg
    else cfg
  if upperContains t 'E' && (mode == "1" || mode == "2") then { cfg with UsePostE := true }
  else cfg

/-- The assignment `cfg.Pre.UseN, cfg.Pre.UseK, cfg.Pre.UseG = b, b, b`. -/
def setPre {F : Type} (cfg : Config F) (b : Bool) : Config F :=
  { cfg with Pre := { cfg.Pre with UseN := b, UseK := b, UseG := b } }

/-- The function `parseInputPruning` after the split into fields; the result is the
configuration that the pointer `cfg` refers to when the function returns. -/
def parseParts {F : Type} (parts : List String) (cfg : Config F) : Config F :=
  match parts with
  | [] => cfg
  | mode :: rest =>
    let cfg := { cfg with Mode := mode }
    let cfg :=
      if mode = "0" then { setPre cfg true with UsePostE := false }
      else if mode = "1" then { setPre cfg false with UsePostE := true }
      else if mode = "2" then { setPre cfg true with UsePostE := true }
      else cfg
    if rest.length + 1 > 1 then
      let cfg := if mode = "0" ∨ mode = "2" then setPre cfg false else cfg
      let cfg := if mode = "1" ∨ mode = "2" then { cfg with UsePostE := false } else cfg
      let cfg := rest.foldl (parseToken mode) cfg
      let cfg :=
        if (mode = "0" ∨ mode = "2") ∧ !(cfg.Pre.UseN || cfg.Pre.UseK || cfg.Pre.UseG) then
          setPre cfg true
        else cfg
      if (mode = "1" ∨ mode = "2") ∧ !cfg.UsePostE then { cfg with UsePostE := true } else cfg
    else cfg

/-- The function `parseInputPruning`. -/
def parseInputPruning {F : Type} (s : String) (cfg : Config F) : Config F :=
  parseParts (fields s) cfg

/-- The four pruning switches of a configuration: N, K, G and E. -/
def toggles {F : Type} (cfg : Config F) : Bool × Bool × Bool × Bool :=
  (cfg.Pre.UseN, cfg.Pre.UseK, cfg.Pre.UseG, cfg.UsePostE)

/-- The configuration of `defaultConfig`, over the rationals. -/
def defaultConfig : Config ℚ :=
  configWith "2" true 10 true 5 true true

/-- Whether one of the words after the mode names the rule `c`, in either case. -/
def named (toks : List String) (c : Char) : Bool :=
  toks.any (fun t => upperContains t c)

mutual
/-- The number of nodes of a tree. -/
def Node.nodeCount : Node → Nat
  | .mk _ _ _ children _ _ => ChildMap.nodeCount children + 1
/-- The number of nodes of the subtrees of a child map. -/
def ChildMap.nodeCount : ChildMap → Nat
  | .nil => 0
  | .cons _ c rest => Node.nodeCount c + ChildMap.nodeCount rest
end

/-- The node reached from the root by a path of attribute values, each looked up in
`Children`. -/
def subtreeAt : List String → Node → Option Node
  | [], t => some t
  | v :: rest, t =>
    match t.Children.find v with
    | some c => subtreeAt rest c
    | none => none

/-- An arithmetic that computes exactly over the reals: `v` reads a value as a real
number, the operations are the real operations, `log` is the natural logarithm and `lt`
the order of the reals. -/
structure RealArith {F : Type} (fo : FloatOps F) (v : F → ℝ) : Prop where
  ofInt : ∀ n : Int, v (fo.ofInt n) = (n : ℝ)
  add : ∀ x y, v (fo.add x y) = v x + v y
  sub : ∀ x y, v (fo.sub x y) = v x - v y
  mul : ∀ x y, v (fo.mul x y) = v x * v y
  div : ∀ x y, v (fo.div x y) = v x / v y
  log : ∀ x, v (fo.log x) = Real.log (v x)
  lt : ∀ x y, fo.lt x y = true ↔ v x < v y

mutual
/-- Whether every Internal node of a tree is reached by at least `k` examples, when `data`
are the examples that reach the root: the examples that reach the child under `v` of a
node on `attr` are those with `attr = v`, the partition on which `buildID3` builds that
child. -/
def Node.splitsAtLeast (k : Int) : Node → List Example → Bool
  | .mk isLeaf _ attr children _ _, data =>
    isLeaf || (decide (k ≤ (data.length : Int)) && ChildMap.splitsAtLeast k children attr data)
/-- Whether `Node.splitsAtLeast` holds of every child of a node on `attr`. -/
def ChildMap.splitsAtLeast (k : Int) : ChildMap → String → List Example → Bool
  | .nil, _, _ => true
  | .cons v c rest, attr, data =>
    Node.splitsAtLeast k c (data.filter (fun ex => ex.get attr == v))
      && ChildMap.splitsAtLeast k rest attr data
end

end ID3

/-!
# Sliding puzzle (Homework2/main.go)

Go `int` values are modelled by `Int`; `/` and `%` are the truncating `Int.tdiv` and
`Int.tmod`, and a division by zero or an index out of range is a panic, written `none`.
No value computed here exceeds the number of tiles, so no operation wraps around.
-/

namespace SlidingPuzzle

/-- The type `Move`, an `int`. -/
abbrev Move := Int

/-- The constant `Left`. -/
def Left : Move := 0
/-- The constant `Right`. -/
def Right : Move := 1
/-- The constant `Up`. -/
def Up : Move := 2
/-- The constant `Down`. -/
def Down : Move := 3

/-- The struct `Puzzle`. -/
structure Puzzle where
  size : Int
  tiles : List Int
  zero : Int
deriving DecidableEq

/-- The function `indexToCoords`: `(index / size, index % size)`. -/
def indexToCoords (index size : Int) : Option (Int × Int) :=
  if size = 0 then none else some (index.tdiv size, index.tmod size)

/-- The function `coordsToIndex`. -/
def coordsToIndex (row col size : Int) : Int :=
  row * size + col

/-- The function `neighbors`: the moves are appended in the order Left, Right, Up,
Down. -/
def neighbors (start : Puzzle) (lastMove : Move) : Option (List Move) :=
  match indexToCoords start.zero start.size with
  | none => none
  | some (row, col) =>
    let moves : List Move := []
    let moves := if col > 0 ∧ lastMove ≠ Right then moves ++ [Left] else moves
    let moves := if col < start.size - 1 ∧ lastMove ≠ Left then moves ++ [Right] else moves
    let moves := if row > 0 ∧ lastMove ≠ Down then moves ++ [Up] else moves
    let moves := if row < start.size - 1 ∧ lastMove ≠ Up then moves ++ [Down] else moves
    some moves

/-- The function `doMove`. The two cells are exchanged in `newTiles`, a copy of
`start.tiles`; `start.tiles` itself is not written. -/
def doMove (start : Puzzle) (move : Move) : Option Puzzle :=
  let k := start.size
  match indexToCoords start.zero k with
  | none => none
  | some (row, col) =>
    let rc : Int × Int :=
      if move = Left then (row, col - 1)
      else if move = Right then (row, col + 1)
      else if move = Up then (row - 1, col)
      else if move = Down then (row + 1, col)
      else (row, col)
    let newIndex := coordsToIndex rc.1 rc.2 k
    let newTiles := start.tiles
    if 0 ≤ start.zero ∧ start.zero < newTiles.length ∧ 0 ≤ newIndex
        ∧ newIndex < newTiles.length then
      some
        { size := k,
          tiles := (newTiles.set start.zero.toNat (newTiles.getD newIndex.toNat 0)).set
            newIndex.toNat (newTiles.getD start.zero.toNat 0),
          zero := newIndex }
    else none

/-- Whether two cells, given by row and column, are orthogonally adjacent. -/
def adjacent (a b : Int × Int) : Bool :=
  (a.1 == b.1 && (a.2 == b.2 + 1 || a.2 + 1 == b.2))
    || (a.2 == b.2 && (a.1 == b.1 + 1 || a.1 + 1 == b.1))

/-- The 3 x 3 board with the blank in the middle. -/
def middleBlank : Puzzle :=
  { size := 3, tiles := [1, 2, 3, 4, 0, 5, 6, 7, 8], zero := 4 }

end SlidingPuzzle

/-!
# Ordered crossover (Homework4/TravelingSalesmanProblem/9MI0600147.go)

A route is a list of city indices; the two values drawn by `rand.Intn(n)` are parameters.
Only the routes of the two children are modelled, not their `Distance` and `Fitness`.
An index out of range is a panic and a loop that never ends has no result; both are
written `none`.
-/

namespace Crossover

/-- The loop `for child[pos] != -1 { pos = (pos + 1) % n }`, which looks for the next
empty slot. After `n` slots without an empty one every slot has been visited, so the loop
never ends; `fuel` counts the slots still to visit. -/
def findSlot (n : Nat) : Nat → List Int → Nat → Option Nat
  | 0, _, _ => none
  | fuel + 1, child, pos =>
    if child.getD pos 0 ≠ -1 then findSlot n fuel child ((pos + 1) % n) else some pos

/-- One round of the loop `for _, gene := range donor` of `fillFrom`, on the pair of
`child` and `pos`. -/
def fillStep (n : Nat) (st : Option (List Int × Nat)) (gene : Int) :
    Option (List Int × Nat) :=
  match st with
  | none => none
  | some (child, pos) =>
    if child.contains gene then some (child, pos)
    else
      match findSlot n n child pos with
      | none => none
      | some slot => some (child.set slot gene, (slot + 1) % n)

/-- The closure `fillFrom`, with the `child` it leaves behind as its result. -/
def fillFrom (n j : Nat) (child donor : List Int) : Option (List Int) :=
  (donor.foldl (fillStep n) (some (child, (j + 1) % n))).map Prod.fst

/-- The loop `for idx := i; idx <= j; idx++ { child[idx] = parent[idx] }` on a child
route that holds `-1` everywhere. -/
def copySlice (n i j : Nat) (parent : List Int) : List Int :=
  (List.range' i (j + 1 - i)).foldl (fun child idx => child.set idx (parent.getD idx 0))
    (List.replicate n (-1))

/-- The routes of the two children that `crossover` returns, when `rand.Intn(n)` gives
first `a` and then `b`. -/
def crossover (parent1 parent2 : List Int) (a b : Nat) : Option (List Int × List Int) :=
  let n := parent1.length
  if n = 0 then some ([], [])
  else
    let i := if a > b then b else a
    let j := if a > b then a else b
    if j < n ∧ j < parent2.length then
      match fillFrom n j (copySlice n i j parent1) parent2,
          fillFrom n j (copySlice n i j parent2) parent1 with
      | some child1, some child2 => some (child1, child2)
      | _, _ => none
    else none

/-- The route `0, 1, ..., n - 1`. -/
def cities (n : Nat) : List Int :=
  (List.range n).map Int.ofNat

end Crossover

/-!
# Tic-tac-toe (Homework5/9MI0600147.go)

A rune is an `Int`; a `Board`, an array of nine runes that the functions change in
place through a pointer, is a list that each function returns together with its result.
The recursion of `maxValue` and `minValue` is unrolled to a given depth; running out of
depth is written `none`.
-/

namespace TicTacToe

/-- The constant `SIZE`. -/
def SIZE : Int := 3
/-- The constant `CELLS`. -/
def CELLS : Nat := 9
/-- The constant `INF`. -/
def INF : Int := 1000
/-- The constant `WIN_SCORE`. -/
def WIN_SCORE : Int := 10
/-- The constant `EMPTY`, the rune of the underscore. -/
def EMPTY : Int := 95
/-- The constant `X`, the rune of the letter X. -/
def X : Int := 88
/-- The constant `O`, the rune of the letter O. -/
def O : Int := 79

/-- The type `Board`; the cell `b[i]` is `b.getD i 0`. -/
abbrev Board := List Int

/-- The function `idx`. -/
def idx (row col : Int) : Int :=
  row * SIZE + col

/-- The function `rc`. -/
def rc (i : Int) : Int × Int :=
  (i.tdiv SIZE, i.tmod SIZE)

/-- The function `otherPlayer`. -/
def otherPlayer (p : Int) : Int :=
  if p = X then O else X

/-- The triples of cells that `checkWinner` inspects, in its order: the rows, the
columns, the main diagonal and the second diagonal. -/
def winLines : List (Nat × Nat × Nat) :=
  [(0, 1, 2), (3, 4, 5), (6, 7, 8), (0, 3, 6), (1, 4, 7), (2, 5, 8), (0, 4, 8), (2, 4, 6)]

/-- The function `checkWinner`: the rune of the first triple that is not empty and holds
one rune three times, and `0` when there is none. -/
def checkWinner (b : Board) : Int :=
  match winLines.find? (fun l =>
      b.getD l.1 0 != EMPTY && b.getD l.1 0 == b.getD l.2.1 0
        && b.getD l.2.1 0 == b.getD l.2.2 0) with
  | some l => b.getD l.1 0
  | none => 0

/-- The function `isBoardFull`. -/
def isBoardFull (b : Board) : Bool :=
  (List.range CELLS).all (fun i => b.getD i 0 != EMPTY)

/-- The function `evaluateTerminal`. -/
def evaluateTerminal (b : Board) (maximizingFor : Int) (depth : Int) : Bool × Int :=
  let winner := checkWinner b
  if winner ≠ 0 then
    if winner = maximizingFor then (true, WIN_SCORE - depth) else (true, depth - WIN_SCORE)
  else if isBoardFull b then (true, 0)
  else (false, 0)

/-- The loop of `maxValue` over the cells listed, from the state `b`, `best`, `alpha`;
`child` is the recursive call to `minValue`. -/
def maxLoop (child : Board → Int → Int → Option (Int × Board)) (currentTurn beta : Int) :
    List Nat → Board → Int → Int → Option (Int × Board)
  | [], b, best, _ => some (best, b)
  | i :: rest, b, best, alpha =>
    if b.getD i 0 = EMPTY then
      match child (b.set i currentTurn) alpha beta with
      | none => none
      | some (score, b) =>
        let b := b.set i EMPTY
        let best := if score > best then score else best
        let alpha := if best > alpha then best else alpha
        if alpha ≥ beta then some (best, b)
        else maxLoop child currentTurn beta rest b best alpha
    else maxLoop child currentTurn beta rest b best alpha

/-- The loop of `minValue` over the cells listed, from the state `b`, `best`, `beta`;
`child` is the recursive call to `maxValue`. -/
def minLoop (child : Board → Int → Int → Option (Int × Board)) (currentTurn alpha : Int) :
    List Nat → Board → Int → Int → Option (Int × Board)
  | [], b, best, _ => some (best, b)
  | i :: rest, b, best, beta =>
    if b.getD i 0 = EMPTY then
      match child (b.set i currentTurn) alpha beta with
      | none => none
      | some (score, b) =>
        let b := b.set i EMPTY
        let best := if score < best then score else best
        let beta := if best < beta then best else beta
        if alpha ≥ beta then some (best, b)
        else minLoop child currentTurn alpha rest b best beta
    else minLoop child currentTurn alpha rest b best beta

mutual
/-- The function `maxValue`, with at most `fuel` nested calls. -/
def maxValue : Nat → Board → Int → Int → Int → Int → Int → Option (Int × Board)
  | 0, _, _, _, _, _, _ => none
  | fuel + 1, b, currentTurn, maximizingFor, depth, alpha, beta =>
    if (evaluateTerminal b maximizingFor depth).1 then
      some ((evaluateTerminal b maximizingFor depth).2, b)
    else
      maxLoop
        (fun b a be => minValue fuel b (otherPlayer currentTurn) maximizingFor (depth + 1) a be)
        currentTurn beta (List.range CELLS) b (-INF) alpha
/-- The function `minValue`, with at most `fuel` nested calls. -/
def minValue : Nat → Board → Int → Int → Int → Int → Int → Option (Int × Board)
  | 0, _, _, _, _, _, _ => none
  | fuel + 1, b, currentTurn, maximizingFor, depth, alpha, beta =>
    if (evaluateTerminal b maximizingFor depth).1 then
      some ((evaluateTerminal b maximizingFor depth).2, b)
    else
      minLoop
        (fun b a be => maxValue fuel b (otherPlayer currentTurn) maximizingFor (depth + 1) a be)
        currentTurn alpha (List.range CELLS) b INF beta
end

/-- The function `minimax`. -/
def minimax (fuel : Nat) (b : Board) (currentTurn maximizingFor depth alpha beta : Int) :
    Option (Int × Board) :=
  if currentTurn = maximizingFor then maxValue fuel b currentTurn maximizingFor depth alpha beta
  else minValue fuel b currentTurn maximizingFor depth alpha beta

/-- The loop of `findBestMove` over the cells listed, from the state `b`, `bestScore`,
`bestCell`. Each call of `minimax` may nest `CELLS + 1` calls, one more than there are
cells to fill. -/
def bestLoop (player : Int) : List Nat → Board → Int → Int → Option (Int × Board)
  | [], b, _, bestCell => some (bestCell, b)
  | i :: rest, b, bestScore, bestCell =>
    if b.getD i 0 = EMPTY then
      match minimax (CELLS + 1) (b.set i player) (otherPlayer player) player 1 (-INF) INF with
      | none => none
      | some (score, b) =>
        let b := b.set i EMPTY
        if score > bestScore then bestLoop player rest b score (i : Int)
        else bestLoop player rest b bestScore bestCell
    else bestLoop player rest b bestScore bestCell

/-- The function `findBestMove`: the row and column it returns, and the board it leaves. -/
def findBestMove (b : Board) (player : Int) : Option ((Int × Int) × Board) :=
  match bestLoop player [4, 0, 2, 6, 8, 1, 3, 5, 7] b (-INF) (-1) with
  | none => none
  | some (bestCell, b) => if bestCell = -1 then some ((-1, -1), b) else some (rc bestCell, b)

/-- The number of empty cells of a board. -/
def emptyCells (b : Board) : Nat :=
  b.countP (fun x => x == EMPTY)

/-- A board after two moves: X in the middle, O in a corner. -/
def twoMoves : Board :=
  [O, EMPTY, EMPTY, EMPTY, X, EMPTY, EMPTY, EMPTY, EMPTY]

/-- A board with one empty cell, on which X completes the first row. -/
def lastMove : Board :=
  [X, X, EMPTY, O, O, X, X, O, O]

end TicTacToe

namespace ID3


/-! ## Properties -/

/-! ### The recursion of `buildID3` -/

theorem bestSplit_fold_mem {F : Type} (fo : FloatOps F) (g : String → F) (attrs : List String)
    (init : String × F) :
    (attrs.foldl (fun (best : String × F) a => if fo.lt best.2 (g a) then (a, g a) else best)
      init).1 = init.1 ∨
    (attrs.foldl (fun (best : String × F) a => if fo.lt best.2 (g a) then (a, g a) else best)
      init).1 ∈ attrs := by
  induction attrs generalizing init with
  | nil => exact Or.inl rfl
  | cons a rest ih =>
    simp only [List.foldl_cons]
    rcases ih (if fo.lt init.2 (g a) then (a, g a) else init) with h | h
    · by_cases hlt : fo.lt init.2 (g a) = true
      · rw [if_pos hlt] at h ⊢
        exact Or.inr (by rw [h]; exact List.mem_cons_self _ _)
      · rw [if_neg hlt] at h ⊢
        exact Or.inl h
    · exact Or.inr (List.mem_cons_of_mem _ h)

theorem bestSplit_mem {F : Type} (fo : FloatOps F) (mi : MapIter) (ds : Dataset) :
    (bestSplit fo mi ds).1 = "" ∨ (bestSplit fo mi ds).1 ∈ ds.Attrs :=
  bestSplit_fold_mem fo
    (fun a => fo.sub (entropy fo mi ds.Data ds.ClassAttr) (condEntropy fo mi ds.Data a ds.ClassAttr))
    ds.Attrs ("", fo.ofInt (-1))

theorem remaining_length_lt {F : Type} (fo : FloatOps F) (mi : MapIter) (ds : Dataset)
    (h : (bestSplit fo mi ds).1 ≠ "") :
    (ds.Attrs.filter (fun a => a != (bestSplit fo mi ds).1)).length < ds.Attrs.length := by
  rcases bestSplit_mem fo mi ds with h1 | h1
  · exact absurd h1 h
  · exact List.length_filter_lt_length_iff_exists.mpr ⟨_, h1, by simp⟩

theorem buildID3Step_congr {F : Type} (fo : FloatOps F) (mi : MapIter)
    (r₁ r₂ : Dataset → Config F → Int → Option Node) (ds : Dataset) (cfg : Config F)
    (depth : Int)
    (h : (bestSplit fo mi ds).1 ≠ "" → ∀ s,
      r₁ { ds with Attrs := ds.Attrs.filter (fun a => a != (bestSplit fo mi ds).1), Data := s }
          cfg (depth + 1)
        = r₂ { ds with Attrs := ds.Attrs.filter (fun a => a != (bestSplit fo mi ds).1),
                       Data := s } cfg (depth + 1)) :
    buildID3Step fo mi r₁ ds cfg depth = buildID3Step fo mi r₂ ds cfg depth := by
  by_cases hb : (bestSplit fo mi ds).1 = ""
  · simp only [buildID3Step, hb, if_true]
  · have hfun := funext (h hb)
    simp only [buildID3Step, hfun]

theorem buildID3Aux_fuel {F : Type} (fo : FloatOps F) (mi : MapIter) (cfg : Config F) :
    ∀ (fuel₁ fuel₂ : Nat) (ds : Dataset) (depth : Int),
      ds.Attrs.length ≤ fuel₁ → ds.Attrs.length ≤ fuel₂ →
      buildID3Aux fo mi fuel₁ ds cfg depth = buildID3Aux fo mi fuel₂ ds cfg depth := by
  intro fuel₁
  induction fuel₁ with
  | zero =>
    intro fuel₂ ds depth h1 _
    have h0 : ds.Attrs.length = 0 := by omega
    cases fuel₂ <;> simp only [buildID3Aux, buildID3Step, h0, if_true]
  | succ n ih =>
    intro fuel₂ ds depth h1 h2
    cases fuel₂ with
    | zero =>
      have h0 : ds.Attrs.length = 0 := by omega
      simp only [buildID3Aux, buildID3Step, h0, if_true]
    | succ m =>
      simp only [buildID3Aux]
      apply buildID3Step_congr
      intro hb s
      have hlt := remaining_length_lt fo mi ds hb
      exact ih m _ _ (by simp only; omega) (by simp only; omega)

/-- The recursive equation of `buildID3`: its body with the recursive calls made by
`buildID3` itself. -/
theorem buildID3_unfold {F : Type} (fo : FloatOps F) (mi : MapIter) (ds : Dataset)
    (cfg : Config F) (depth : Int) :
    buildID3 fo mi ds cfg depth = buildID3Step fo mi (buildID3 fo mi) ds cfg depth := by
  unfold buildID3
  cases hn : ds.Attrs.length with
  | zero => simp only [buildID3Aux, buildID3Step, hn, if_true]
  | succ n =>
    simp only [buildID3Aux]
    apply buildID3Step_congr
    intro hb s
    have hlt := remaining_length_lt fo mi ds hb
    exact buildID3Aux_fuel fo mi cfg _ _ _ _ (by simp only; omega) (le_refl _)

/-! ### Pure datasets -/

theorem incr_single (L : String) (m : Nat) : incr [(L, m)] L = [(L, m + 1)] := by
  simp [incr]

theorem classCounts_foldl_same (classAttr L : String) (data : List Example)
    (hL : ∀ ex ∈ data, ex.get classAttr = L) (m : Nat) :
    data.foldl (fun counts ex => incr counts (ex.get classAttr)) [(L, m)]
      = [(L, m + data.length)] := by
  induction data generalizing m with
  | nil => simp
  | cons ex rest ih =>
    have h1 : ex.get classAttr = L := hL ex (List.mem_cons_self _ _)
    have h2 : ∀ e ∈ rest, e.get classAttr = L := fun e he => hL e (List.mem_cons_of_mem _ he)
    simp only [List.foldl_cons, h1, incr_single, List.length_cons]
    rw [ih h2]
    congr 2
    omega

theorem classCounts_same (classAttr L : String) (ex : Example) (rest : List Example)
    (hL : ∀ e ∈ ex :: rest, e.get classAttr = L) :
    classCounts (ex :: rest) classAttr = [(L, rest.length + 1)] := by
  have h1 : ex.get classAttr = L := hL ex (List.mem_cons_self _ _)
  have h2 : ∀ e ∈ rest, e.get classAttr = L := fun e he => hL e (List.mem_cons_of_mem _ he)
  simp only [classCounts, List.foldl_cons, h1, incr]
  rw [classCounts_foldl_same classAttr L rest h2 1]
  congr 2
  omega

theorem majorityClass_same (mi : MapIter) (classAttr L : String) (ex : Example)
    (rest : List Example) (hL : ∀ e ∈ ex :: rest, e.get classAttr = L) :
    majorityClass mi (ex :: rest) classAttr = L := by
  have hord : mi.order (classCounts (ex :: rest) classAttr) = [(L, rest.length + 1)] := by
    have hp := mi.perm (classCounts (ex :: rest) classAttr)
    rw [classCounts_same classAttr L ex rest hL] at hp ⊢
    exact List.perm_singleton.mp hp
  simp only [majorityClass, hord, List.foldl_cons, List.foldl_nil]
  rw [if_pos (by push_cast; omega)]

theorem isPure_same (classAttr L : String) (data : List Example)
    (hL : ∀ e ∈ data, e.get classAttr = L) : isPure data classAttr = true := by
  cases data with
  | nil => rfl
  | cons ex rest =>
    simp only [isPure, List.all_eq_true, beq_iff_eq]
    intro e he
    rw [hL e (List.mem_cons_of_mem _ he), hL ex (List.mem_cons_self _ _)]

/-- C1: on a non-empty dataset whose examples all carry the class label `L`, `buildID3`
returns, for every configuration, iteration order and depth, the leaf with `ClassLabel`
`L` and `MajorityClass` `L`. -/
theorem C1_pure_dataset_yields_leaf {F : Type} (fo : FloatOps F) (mi : MapIter) (ds : Dataset)
    (cfg : Config F) (depth : Int) (L : String) (hne : ds.Data ≠ [])
    (hL : ∀ ex ∈ ds.Data, ex.get ds.ClassAttr = L) :
    buildID3 fo mi ds cfg depth = some (Node.leaf L L depth) := by
  obtain ⟨attrs, classAttr, data, vals⟩ := ds
  cases data with
  | nil => exact absurd rfl hne
  | cons ex rest =>
    simp only at hL
    rw [buildID3_unfold]
    simp only [buildID3Step, isPure_same classAttr L (ex :: rest) hL, if_true,
      majorityClass_same mi classAttr L ex rest hL, hL ex (List.mem_cons_self _ _)]

/-- C1 at a concrete input: two examples of class `yes`, the default thresholds, depth 7. -/
theorem C1_pure_dataset_yields_leaf_witness :
    pureData.Data ≠ [] ∧ (∀ ex ∈ pureData.Data, ex.get pureData.ClassAttr = "yes") ∧
      buildID3 exactOps MapIter.insertion pureData (configWith "2" true 10 true 5 true true) 7
        = some (Node.leaf "yes" "yes" 7) :=
  ⟨by decide, by decide,
    C1_pure_dataset_yields_leaf exactOps MapIter.insertion pureData
      (configWith "2" true 10 true 5 true true) 7 "yes" (by decide) (by decide)⟩


/-! ### Totality -/

theorem buildChildren_isSome (f : List Example → Option Node) (maj : String) (depth : Int)
    (groups : List (String × List Example))
    (h : ∀ s, s ≠ [] → ∃ t, f s = some t) :
    ∃ ch, buildChildren f maj depth groups = some ch := by
  induction groups with
  | nil => exact ⟨ChildMap.nil, rfl⟩
  | cons g rest ih =>
    obtain ⟨v, subset⟩ := g
    obtain ⟨r, hr⟩ := ih
    by_cases hs : subset.length = 0
    · exact ⟨ChildMap.cons v (Node.leaf maj maj (depth + 1)) r, by
        simp only [buildChildren, hs, if_true, hr]⟩
    · have hne : subset ≠ [] := fun he => hs (by rw [he]; rfl)
      obtain ⟨c, hc⟩ := h subset hne
      exact ⟨ChildMap.cons v c r, by simp only [buildChildren, hs, if_false, hc, hr]⟩

theorem buildID3Step_isSome {F : Type} (fo : FloatOps F) (mi : MapIter)
    (recur : Dataset → Config F → Int → Option Node) (ds : Dataset) (cfg : Config F)
    (depth : Int) (hne : ds.Data ≠ [])
    (hrec : ∀ s, s ≠ [] → ∃ t,
      recur { ds with Attrs := ds.Attrs.filter (fun a => a != (bestSplit fo mi ds).1), Data := s }
        cfg (depth + 1) = some t) :
    ∃ t, buildID3Step fo mi recur ds cfg depth = some t := by
  obtain ⟨ch, hch⟩ := buildChildren_isSome
    (fun subset => recur { ds with Attrs := ds.Attrs.filter (fun a => a != (bestSplit fo mi ds).1),
                                   Data := subset } cfg (depth + 1))
    (majorityClass mi ds.Data ds.ClassAttr) depth (groupByValue ds.Data (bestSplit fo mi ds).1) hrec
  unfold buildID3Step
  simp only [hch]
  cases hd : ds.Data with
  | nil => exact absurd hd hne
  | cons ex rest =>
    simp only
    split_ifs <;> exact ⟨_, rfl⟩

/-- On a non-empty dataset `buildID3` returns a tree: it neither panics nor runs out of
recursion depth. -/
theorem buildID3_isSome {F : Type} (fo : FloatOps F) (mi : MapIter) (cfg : Config F) :
    ∀ (n : Nat) (ds : Dataset) (depth : Int), ds.Attrs.length ≤ n → ds.Data ≠ [] →
      ∃ t, buildID3 fo mi ds cfg depth = some t := by
  intro n
  induction n with
  | zero =>
    intro ds depth hlen hne
    rw [buildID3_unfold]
    have h0 : ds.Attrs.length = 0 := by omega
    cases hd : ds.Data with
    | nil => exact absurd hd hne
    | cons ex rest =>
      unfold buildID3Step
      simp only [hd, h0, if_true]
      split_ifs <;> exact ⟨_, rfl⟩
  | succ n ih =>
    intro ds depth hlen hne
    rw [buildID3_unfold]
    by_cases hb : (bestSplit fo mi ds).1 = ""
    · cases hd : ds.Data with
      | nil => exact absurd hd hne
      | cons ex rest =>
        unfold buildID3Step
        simp only [hd, hb, if_true]
        split_ifs <;> exact ⟨_, rfl⟩
    · apply buildID3Step_isSome fo mi _ ds cfg depth hne
      intro s hs
      have hlt := remaining_length_lt fo mi ds hb
      exact ih _ _ (by simp only; omega) hs

/-! ### Pre-pruning rules -/

theorem leaf_leavesWithin (label maj : String) (depth n : Int) (h : depth ≤ n) :
    (Node.leaf label maj depth).leavesWithin depth n = true := by
  simp [Node.leaf, Node.leavesWithin, h]

theorem buildChildren_leavesWithin (f : List Example → Option Node) (maj : String)
    (depth n : Int) (hd : depth + 1 ≤ n) (groups : List (String × List Example))
    (hf : ∀ s t, f s = some t → t.leavesWithin (depth + 1) n = true) :
    ∀ ch, buildChildren f maj depth groups = some ch →
      ch.leavesWithin (depth + 1) n = true := by
  induction groups with
  | nil =>
    intro ch h
    simp only [buildChildren, Option.some.injEq] at h
    subst h
    rfl
  | cons g rest ih =>
    obtain ⟨v, subset⟩ := g
    intro ch h
    simp only [buildChildren] at h
    split at h
    · rename_i c r hc hr
      simp only [Option.some.injEq] at h
      subst h
      have hr' := ih r hr
      have hc' : c.leavesWithin (depth + 1) n = true := by
        by_cases hs : subset.length = 0
        · rw [if_pos hs, Option.some.injEq] at hc
          subst hc
          exact leaf_leavesWithin maj maj (depth + 1) n hd
        · rw [if_neg hs] at hc
          exact hf subset c hc
      simp only [ChildMap.leavesWithin, hc', hr', Bool.and_self]
    · exact absurd h (by simp)

theorem buildID3_leavesWithin {F : Type} (fo : FloatOps F) (mi : MapIter) (cfg : Config F)
    (hmode : cfg.Mode = "0" ∨ cfg.Mode = "2") (hN : cfg.Pre.UseN = true) :
    ∀ (k : Nat) (ds : Dataset) (depth : Int) (t : Node), ds.Attrs.length ≤ k →
      depth ≤ cfg.Pre.N → buildID3 fo mi ds cfg depth = some t →
      t.leavesWithin depth cfg.Pre.N = true := by
  have hgate : (cfg.Mode == "0" || cfg.Mode == "2") = true := by
    rcases hmode with h | h <;> simp [h]
  intro k
  induction k with
  | zero =>
    intro ds depth t hlen hd h
    have h0 : ds.Attrs.length = 0 := by omega
    rw [buildID3_unfold] at h
    unfold buildID3Step at h
    simp only [h0, if_true] at h
    split_ifs at h
    · split at h
      · exact absurd h (by simp)
      · simp only [Option.some.injEq] at h
        subst h
        exact leaf_leavesWithin _ _ _ _ hd
    all_goals
      simp only [Option.some.injEq] at h
      subst h
      exact leaf_leavesWithin _ _ _ _ hd
  | succ k ih =>
    intro ds depth t hlen hd h
    rw [buildID3_unfold] at h
    unfold buildID3Step at h
    simp only at h
    split_ifs at h with h1 h2 h3 h4 h5
    · split at h
      · exact absurd h (by simp)
      · simp only [Option.some.injEq] at h
        subst h
        exact leaf_leavesWithin _ _ _ _ hd
    · simp only [Option.some.injEq] at h
      subst h
      exact leaf_leavesWithin _ _ _ _ hd
    · simp only [Option.some.injEq] at h
      subst h
      exact leaf_leavesWithin _ _ _ _ hd
    · simp only [Option.some.injEq] at h
      subst h
      exact leaf_leavesWithin _ _ _ _ hd
    · simp only [Option.some.injEq] at h
      subst h
      exact leaf_leavesWithin _ _ _ _ hd
    · have hlt : depth + 1 ≤ cfg.Pre.N := by
        simp only [hgate, hN, Bool.true_or, Bool.and_self, Bool.true_and, Bool.or_eq_true,
          decide_eq_true_eq, Bool.and_eq_true, not_or, not_le, ge_iff_le] at h2
        omega
      have hrem := remaining_length_lt fo mi ds h4
      split at h
      · rename_i ch hch
        simp only [Option.some.injEq] at h
        subst h
        simp only [Node.leavesWithin, Bool.false_eq_true, if_false]
        exact buildChildren_leavesWithin _ _ _ _ hlt _
          (fun s t hst => ih _ _ t (by simp only; omega) hlt hst) ch hch
      · exact absurd h (by simp)

/-- C2 (amended): when `buildID3` applies its pre-pruning rules (`Mode` is "0" or "2"), the
max-depth rule is enabled and its threshold `N` is not negative, `buildID3(ds, cfg, 0)`
returns a tree on every non-empty dataset and every leaf of that tree is at depth at
most `N`. -/
theorem C2_leaves_within_max_depth {F : Type} (fo : FloatOps F) (mi : MapIter) (ds : Dataset)
    (cfg : Config F) (hne : ds.Data ≠ []) (hmode : cfg.Mode = "0" ∨ cfg.Mode = "2")
    (hN : cfg.Pre.UseN = true) (h0 : 0 ≤ cfg.Pre.N) :
    ∃ t, buildID3 fo mi ds cfg 0 = some t ∧ t.leavesWithin 0 cfg.Pre.N = true := by
  obtain ⟨t, ht⟩ := buildID3_isSome fo mi cfg ds.Attrs.length ds 0 (le_refl _) hne
  exact ⟨t, ht, buildID3_leavesWithin fo mi cfg hmode hN ds.Attrs.length ds 0 t (le_refl _) h0 ht⟩

/-- C2 (amended) at a concrete input: the two-class dataset with `Mode` "2" and `N = 1`. -/
theorem C2_leaves_within_max_depth_witness :
    twoClassData.Data ≠ [] ∧
    ((configWith "2" true 1 false 5 false false).Mode = "0" ∨
      (configWith "2" true 1 false 5 false false).Mode = "2") ∧
    (configWith "2" true 1 false 5 false false).Pre.UseN = true ∧
    0 ≤ (configWith "2" true 1 false 5 false false).Pre.N ∧
    ∃ t, buildID3 exactOps MapIter.insertion twoClassData
          (configWith "2" true 1 false 5 false false) 0 = some t ∧
      t.leavesWithin 0 (configWith "2" true 1 false 5 false false).Pre.N = true :=
  ⟨by decide, by decide, rfl, by decide,
    C2_leaves_within_max_depth exactOps MapIter.insertion twoClassData
      (configWith "2" true 1 false 5 false false) (by decide) (by decide) rfl (by decide)⟩

/-- C2 fails as stated, in two ways. With `Mode` "1" the enabled max-depth rule `N = 0` is
not applied: the two-example dataset is split and both leaves are at depth 1. With `Mode`
"2" and the negative threshold `N = -1` the root leaf is at depth 0. -/
theorem C2_counterexample :
    (twoClassData.Data ≠ [] ∧
      (configWith "1" true 0 false 5 false false).Pre.UseN = true ∧
      (configWith "1" true 0 false 5 false false).Pre.N = 0 ∧
      buildID3 exactOps MapIter.insertion twoClassData
          (configWith "1" true 0 false 5 false false) 0
        = some (Node.mk false "" "x"
            (ChildMap.cons "0" (Node.leaf "a" "a" 1)
              (ChildMap.cons "1" (Node.leaf "b" "b" 1) ChildMap.nil)) "a" 0) ∧
      (Node.mk false "" "x"
            (ChildMap.cons "0" (Node.leaf "a" "a" 1)
              (ChildMap.cons "1" (Node.leaf "b" "b" 1) ChildMap.nil)) "a" 0).leavesWithin 0 0
        = false) ∧
    ((configWith "2" true (-1) false 5 false false).Pre.UseN = true ∧
      (configWith "2" true (-1) false 5 false false).Pre.N = -1 ∧
      buildID3 exactOps MapIter.insertion twoClassData
          (configWith "2" true (-1) false 5 false false) 0
        = some (Node.leaf "a" "a" 0) ∧
      (Node.leaf "a" "a" 0).leavesWithin 0 (-1) = false) := by
  decide!

/-- One call of `buildID3` under the min-examples rule: when the pre-pruning rules apply
(`Mode` is "0" or "2") and the rule is enabled with threshold `K`, a call, at any depth, on
a non-empty dataset of fewer than `K` examples returns a leaf. -/
theorem buildID3_small_is_leaf {F : Type} (fo : FloatOps F) (mi : MapIter) (ds : Dataset)
    (cfg : Config F) (depth : Int) (hne : ds.Data ≠ [])
    (hmode : cfg.Mode = "0" ∨ cfg.Mode = "2") (hK : cfg.Pre.UseK = true)
    (hlt : (ds.Data.length : Int) < cfg.Pre.K) :
    ∃ t, buildID3 fo mi ds cfg depth = some t ∧ t.IsLeaf = true := by
  have hgate : (cfg.Mode == "0" || cfg.Mode == "2") = true := by
    rcases hmode with h | h <;> simp [h]
  rw [buildID3_unfold]
  unfold buildID3Step
  cases hd : ds.Data with
  | nil => exact absurd hd hne
  | cons ex rest =>
    rw [hd] at hlt
    by_cases hp : isPure (ex :: rest) ds.ClassAttr = true
    · simp only [hp, if_true]
      exact ⟨_, rfl, rfl⟩
    · simp only [hp, hgate, hK, hlt, Bool.or_true, Bool.true_or, Bool.and_self, decide_True,
        Bool.true_and, if_true, Bool.false_eq_true, if_false]
      exact ⟨_, rfl, rfl⟩

/-- C3 fails as stated: with `Mode` "1" the enabled min-examples rule `K = 5` is not
applied, and the call on the two-example dataset returns an Internal node. -/
theorem C3_counterexample :
    (configWith "1" false 10 true 5 false false).Pre.UseK = true ∧
    (twoClassData.Data.length : Int) < (configWith "1" false 10 true 5 false false).Pre.K ∧
    buildID3 exactOps MapIter.insertion twoClassData
        (configWith "1" false 10 true 5 false false) 0
      = some (Node.mk false "" "x"
          (ChildMap.cons "0" (Node.leaf "a" "a" 1)
            (ChildMap.cons "1" (Node.leaf "b" "b" 1) ChildMap.nil)) "a" 0) ∧
    (Node.mk false "" "x"
          (ChildMap.cons "0" (Node.leaf "a" "a" 1)
            (ChildMap.cons "1" (Node.leaf "b" "b" 1) ChildMap.nil)) "a" 0).IsLeaf = false := by
  decide!

/-! ### Evaluator and post-pruner -/

theorem predictChild_eq_find : ∀ (children : ChildMap) (v maj : String) (ex : Example),
    predictChild children v maj ex
      = match children.find v with
        | some child => predict child ex
        | none => maj
  | .nil, _, _, _ => rfl
  | .cons k c rest, v, maj, ex => by
    by_cases h : k = v
    · simp only [predictChild, ChildMap.find, h, if_true]
    · simp only [predictChild, ChildMap.find, h, if_false, predictChild_eq_find rest v maj ex]

/-- The body of `predict`: the label at a leaf; at a decision node the prediction of the
child stored under `ex[root.Attr]`, or `MajorityClass` when there is none. -/
theorem predict_unfold (root : Node) (ex : Example) :
    predict root ex =
      if root.IsLeaf then root.ClassLabel
      else
        match root.Children.find (ex.get root.Attr) with
        | some child => predict child ex
        | none => root.MajorityClass := by
  cases root with
  | mk isLeaf classLabel attr children maj depth =>
    simp only [predict, predictChild_eq_find, Node.IsLeaf, Node.ClassLabel, Node.Children,
      Node.Attr, Node.MajorityClass]

theorem correctCount_le (root : Node) (ds : Dataset) : correctCount root ds ≤ ds.Data.length :=
  List.countP_le_length _

theorem accuracy_of_ne_nil (root : Node) (ds : Dataset) (h : ds.Data ≠ []) :
    accuracy root ds = (correctCount root ds : ℚ) / (ds.Data.length : ℚ) := by
  have hlen : ds.Data.length ≠ 0 := fun h0 => h (List.length_eq_zero.mp h0)
  simp only [accuracy, hlen, if_false]

/-- C4 (evaluation at the failing input): `nestedTree` classifies all four examples of
`nestedVal` correctly, `reducedErrorPrune` returns the single leaf `no`, and that leaf is
right on only half of them; pruning lowers the validation accuracy from 1 to 1/2. -/
theorem C4_pruning_lowers_accuracy :
    accuracy nestedTree nestedVal = 1 ∧
    reducedErrorPrune nestedTree nestedVal "Class" = Node.leaf "no" "no" 0 ∧
    accuracy (reducedErrorPrune nestedTree nestedVal "Class") nestedVal = 1 / 2 := by
  decide!

mutual
theorem reducedErrorPrune_idem : ∀ (t : Node) (val : Dataset) (classAttr : String),
    reducedErrorPrune (reducedErrorPrune t val classAttr) val classAttr
      = reducedErrorPrune t val classAttr
  | .mk isLeaf classLabel attr children maj depth, val, classAttr => by
    have ih := pruneChildren_idem children val classAttr
    cases isLeaf with
    | true => simp only [reducedErrorPrune, if_true]
    | false =>
      simp only [reducedErrorPrune, Bool.false_eq_true, if_false]
      split_ifs with h
      · simp only [Node.leaf, reducedErrorPrune, if_true]
      · simp only [reducedErrorPrune, Bool.false_eq_true, if_false, ih, h]
theorem pruneChildren_idem : ∀ (ch : ChildMap) (val : Dataset) (classAttr : String),
    pruneChildren (pruneChildren ch val classAttr) val classAttr
      = pruneChildren ch val classAttr
  | .nil, _, _ => by simp only [pruneChildren]
  | .cons k c rest, val, classAttr => by
    simp only [pruneChildren, reducedErrorPrune_idem c val classAttr,
      pruneChildren_idem rest val classAttr]
end

/-- C5: `reducedErrorPrune` is idempotent: pruning an already pruned tree against the same
validation dataset returns the same tree. -/
theorem C5_reducedErrorPrune_idempotent (t : Node) (val : Dataset) (classAttr : String) :
    reducedErrorPrune (reducedErrorPrune t val classAttr) val classAttr
      = reducedErrorPrune t val classAttr :=
  reducedErrorPrune_idem t val classAttr

/-- C6: for every tree and dataset, the empty one included, `accuracy` lies in `[0, 1]`; it
is `0` on the empty dataset and otherwise the number of examples whose predicted label is
their class label divided by the number of examples. -/
theorem C6_accuracy_in_unit_interval (root : Node) (ds : Dataset) :
    0 ≤ accuracy root ds ∧ accuracy root ds ≤ 1 ∧
    accuracy root ds =
      (if ds.Data = [] then 0
       else ((ds.Data.filter
          (fun ex => decide (predict root ex = ex.get ds.ClassAttr))).length : ℚ)
            / (ds.Data.length : ℚ)) := by
  have hcount : correctCount root ds
      = (ds.Data.filter
          (fun ex => decide (predict root ex = ex.get ds.ClassAttr))).length := by
    simp only [correctCount, List.countP_eq_length_filter]
    congr 2
  by_cases hd : ds.Data = []
  · simp [accuracy, hd]
  · have hle := correctCount_le root ds
    have hpos : (0 : ℚ) < (ds.Data.length : ℚ) := by
      have : 0 < ds.Data.length := List.length_pos.mpr hd
      exact_mod_cast this
    rw [accuracy_of_ne_nil root ds hd, if_neg hd, ← hcount]
    refine ⟨by positivity, ?_, rfl⟩
    rw [div_le_one hpos]
    exact_mod_cast hle

/-- C7 (amended): on a non-empty dataset `accuracy` equals `1` exactly when `predict`
returns the class label of every example of the dataset. -/
theorem C7_accuracy_one_iff (root : Node) (ds : Dataset) (hne : ds.Data ≠ []) :
    accuracy root ds = 1 ↔ ∀ ex ∈ ds.Data, predict root ex = ex.get ds.ClassAttr := by
  have hpos : (0 : ℚ) < (ds.Data.length : ℚ) := by
    have : 0 < ds.Data.length := List.length_pos.mpr hne
    exact_mod_cast this
  rw [accuracy_of_ne_nil root ds hne, div_eq_one_iff_eq (ne_of_gt hpos)]
  constructor
  · intro h
    have h' : correctCount root ds = ds.Data.length := by exact_mod_cast h
    have := List.countP_eq_length.mp h'
    intro ex hex
    exact beq_iff_eq.mp (this ex hex)
  · intro h
    have : correctCount root ds = ds.Data.length :=
      List.countP_eq_length.mpr (fun ex hex => beq_iff_eq.mpr (h ex hex))
    exact_mod_cast this

/-- C7 (amended) at a concrete input: the nested tree on its four validation examples. -/
theorem C7_accuracy_one_iff_witness :
    nestedVal.Data ≠ [] ∧
    (accuracy nestedTree nestedVal = 1 ↔
      ∀ ex ∈ nestedVal.Data, predict nestedTree ex = ex.get nestedVal.ClassAttr) :=
  ⟨by decide, C7_accuracy_one_iff nestedTree nestedVal (by decide)⟩

/-- C7 fails as stated on the empty dataset: `accuracy` is `0` there, although no example
is classified wrongly. -/
theorem C7_counterexample :
    ¬ (accuracy (Node.leaf "yes" "yes" 0) emptyData = 1 ↔
        ∀ ex ∈ emptyData.Data,
          predict (Node.leaf "yes" "yes" 0) ex = ex.get emptyData.ClassAttr) := by
  decide!

/-! ### Grouping by class -/

theorem appendTo_flatten_perm {α : Type} (m : List (String × List α)) (k : String) (x : α) :
    ((appendTo m k x).map Prod.snd).flatten.Perm ((m.map Prod.snd).flatten ++ [x]) := by
  induction m with
  | nil => simp [appendTo]
  | cons g rest ih =>
    obtain ⟨k', xs⟩ := g
    by_cases h : k' = k
    · simp only [appendTo, h, if_true, List.map_cons, List.flatten_cons, List.append_assoc]
      exact List.Perm.append_left xs List.perm_append_comm
    · simp only [appendTo, h, if_false, List.map_cons, List.flatten_cons, List.append_assoc]
      exact List.Perm.append_left xs ih

theorem appendTo_keys {α : Type} (m : List (String × List α)) (k : String) (x : α) :
    (appendTo m k x).map Prod.fst
      = if k ∈ m.map Prod.fst then m.map Prod.fst else m.map Prod.fst ++ [k] := by
  induction m with
  | nil => simp [appendTo]
  | cons g rest ih =>
    obtain ⟨k', xs⟩ := g
    by_cases h : k' = k
    · simp [appendTo, h]
    · have h' : ¬ k = k' := fun e => h e.symm
      simp only [appendTo, h, if_false, List.map_cons, ih, List.mem_cons, h', false_or]
      split_ifs <;> simp

theorem appendTo_keys_nodup {α : Type} (m : List (String × List α)) (k : String) (x : α)
    (h : (m.map Prod.fst).Nodup) : ((appendTo m k x).map Prod.fst).Nodup := by
  rw [appendTo_keys]
  split_ifs with hk
  · exact h
  · exact List.Nodup.append h (List.nodup_singleton k)
      (by simpa [List.disjoint_singleton] using hk)

theorem appendTo_mem {α : Type} (m : List (String × List α)) (k : String) (x : α)
    (g : String × List α) (hg : g ∈ appendTo m k x) :
    g ∈ m ∨ (g.1 = k ∧ ∃ xs, g.2 = xs ++ [x] ∧ (xs = [] ∨ (k, xs) ∈ m)) := by
  induction m with
  | nil =>
    simp only [appendTo, List.mem_singleton] at hg
    subst hg
    exact Or.inr ⟨rfl, [], rfl, Or.inl rfl⟩
  | cons g' rest ih =>
    obtain ⟨k', xs⟩ := g'
    by_cases h : k' = k
    · simp only [appendTo, h, if_true, List.mem_cons] at hg
      rcases hg with hg | hg
      · subst hg
        exact Or.inr ⟨rfl, xs, rfl, Or.inr (by rw [h]; exact List.mem_cons_self _ _)⟩
      · exact Or.inl (List.mem_cons_of_mem _ hg)
    · simp only [appendTo, h, if_false, List.mem_cons] at hg
      rcases hg with hg | hg
      · subst hg
        exact Or.inl (List.mem_cons_self _ _)
      · rcases ih hg with h1 | ⟨h1, ys, h2, h3⟩
        · exact Or.inl (List.mem_cons_of_mem _ h1)
        · refine Or.inr ⟨h1, ys, h2, ?_⟩
          rcases h3 with h3 | h3
          · exact Or.inl h3
          · exact Or.inr (List.mem_cons_of_mem _ h3)

/-- What the grouping loop maintains: distinct keys, every group non-empty and made of
examples whose class is the key, and the groups together hold the examples seen so far. -/
theorem groupByClass_fold (classAttr : String) (data : List Example)
    (m : List (String × List Example))
    (hk : (m.map Prod.fst).Nodup)
    (hc : ∀ g ∈ m, g.2 ≠ [] ∧ ∀ ex ∈ g.2, ex.get classAttr = g.1) :
    ((data.foldl (fun byClass ex => appendTo byClass (ex.get classAttr) ex) m).map
        Prod.fst).Nodup ∧
    (∀ g ∈ data.foldl (fun byClass ex => appendTo byClass (ex.get classAttr) ex) m,
        g.2 ≠ [] ∧ ∀ ex ∈ g.2, ex.get classAttr = g.1) ∧
    ((data.foldl (fun byClass ex => appendTo byClass (ex.get classAttr) ex) m).map
        Prod.snd).flatten.Perm ((m.map Prod.snd).flatten ++ data) := by
  induction data generalizing m with
  | nil =>
    refine ⟨hk, hc, ?_⟩
    simp only [List.foldl_nil, List.append_nil]
    exact List.Perm.refl _
  | cons e rest ih =>
    simp only [List.foldl_cons]
    have hk' := appendTo_keys_nodup m (e.get classAttr) e hk
    have hc' : ∀ g ∈ appendTo m (e.get classAttr) e,
        g.2 ≠ [] ∧ ∀ ex ∈ g.2, ex.get classAttr = g.1 := by
      intro g hg
      rcases appendTo_mem m _ e g hg with h | ⟨h1, xs, h2, h3⟩
      · exact hc g h
      · refine ⟨by rw [h2]; simp, ?_⟩
        intro ex hex
        rw [h2, List.mem_append, List.mem_singleton] at hex
        rcases hex with hex | hex
        · rcases h3 with h3 | h3
          · rw [h3] at hex
            exact absurd hex (List.not_mem_nil _)
          · rw [h1]
            exact (hc _ h3).2 ex hex
        · rw [hex, h1]
    obtain ⟨r1, r2, r3⟩ := ih (appendTo m (e.get classAttr) e) hk' hc'
    refine ⟨r1, r2, r3.trans ?_⟩
    have := (appendTo_flatten_perm m (e.get classAttr) e).append_right rest
    simpa using this

theorem groupByClass_spec (classAttr : String) (data : List Example) :
    ((groupByClass data classAttr).map Prod.fst).Nodup ∧
    (∀ g ∈ groupByClass data classAttr, g.2 ≠ [] ∧ ∀ ex ∈ g.2, ex.get classAttr = g.1) ∧
    ((groupByClass data classAttr).map Prod.snd).flatten.Perm data := by
  obtain ⟨h1, h2, h3⟩ := groupByClass_fold classAttr data [] List.nodup_nil
    (fun g hg => absurd hg (List.not_mem_nil g))
  exact ⟨h1, h2, by simpa using h3⟩

/-! ### Shuffling -/

theorem filterMap_getElem_range {α : Type} (l : List α) :
    (List.range l.length).filterMap (fun i => l[i]?) = l := by
  induction l with
  | nil => rfl
  | cons a t ih =>
    rw [List.length_cons, List.range_succ_eq_map, List.filterMap_cons]
    simp only [List.getElem?_cons_zero, List.filterMap_map]
    congr 1
    have : ((fun i => (a :: t)[i]?) ∘ Nat.succ) = fun i => t[i]? := by
      funext i
      simp
    rw [this, ih]

theorem applyPerm_perm {σ : Type} (R : Rand σ) (s : σ) (l : List Example) :
    (applyPerm (R.shuffle s l.length).1 l).Perm l := by
  have h := (R.perm s l.length).filterMap (fun i => l[i]?)
  rw [filterMap_getElem_range] at h
  exact h

/-! ### Distribution over folds -/

theorem count_iff (p q : Nat → Prop) [DecidablePred p] [DecidablePred q]
    (h : ∀ t, p t ↔ q t) (m : Nat) : Nat.count p m = Nat.count q m := by
  induction m with
  | zero => simp
  | succ n ih =>
    rw [Nat.count_succ, Nat.count_succ, ih]
    by_cases hp : p n
    · rw [if_pos hp, if_pos ((h n).mp hp)]
    · rw [if_neg hp, if_neg (fun hq => hp ((h n).mpr hq))]

theorem count_mod_eq (k : Nat) (hk : 0 < k) (j : Nat) (hj : j < k) (m : Nat) :
    Nat.count (fun t => t % k = j) m = m / k + if j < m % k then 1 else 0 := by
  have h := Nat.count_modEq_card hk j (b := m)
  rw [Nat.mod_eq_of_lt hj] at h
  rw [← h]
  apply count_iff
  intro t
  simp only [Nat.ModEq, Nat.mod_eq_of_lt hj]

theorem classCount_append_singleton (classAttr c : String) (l : List Example) (ex : Example) :
    classCount classAttr c (l ++ [ex])
      = classCount classAttr c l + if ex.get classAttr = c then 1 else 0 := by
  simp only [classCount, List.countP_append, List.countP_cons, List.countP_nil, beq_iff_eq,
    Nat.zero_add]

theorem classCount_all (classAttr c : String) (l : List Example)
    (h : ∀ ex ∈ l, ex.get classAttr = c) : classCount classAttr c l = l.length :=
  List.countP_eq_length.mpr (fun ex hex => beq_iff_eq.mpr (h ex hex))

theorem classCount_none (classAttr c : String) (l : List Example)
    (h : ∀ ex ∈ l, ex.get classAttr ≠ c) : classCount classAttr c l = 0 :=
  List.countP_eq_zero.mpr (fun ex hex => by simpa using h ex hex)

theorem appendAt_spec (folds : List (List Example)) (j : Nat) (ex : Example)
    (hj : j < folds.length) :
    ∃ folds', appendAt folds j ex = some folds' ∧ folds'.length = folds.length ∧
      folds'.flatten.Perm (folds.flatten ++ [ex]) ∧
      ∀ i, folds'.getD i [] = if i = j then folds.getD i [] ++ [ex] else folds.getD i [] := by
  induction folds generalizing j with
  | nil => exact absurd hj (Nat.not_lt_zero _)
  | cons f fs ih =>
    cases j with
    | zero =>
      refine ⟨(f ++ [ex]) :: fs, rfl, rfl, ?_, ?_⟩
      · simp only [List.flatten_cons, List.append_assoc]
        exact List.Perm.append_left f List.perm_append_comm
      · intro i
        cases i with
        | zero => simp
        | succ i => simp
    | succ j =>
      obtain ⟨fs', h1, h2, h3, h4⟩ := ih j (Nat.lt_of_succ_lt_succ hj)
      refine ⟨f :: fs', by simp only [appendAt, h1, Option.map_some'], by simp [h2], ?_, ?_⟩
      · simp only [List.flatten_cons, List.append_assoc]
        exact List.Perm.append_left f h3
      · intro i
        cases i with
        | zero => simp
        | succ i => simpa using h4 i

theorem placeInFolds_spec (k : Nat) (hk : 0 < k) (classAttr c : String) :
    ∀ (shuffled : List Example) (i : Nat) (folds : List (List Example)), folds.length = k →
      ∃ folds', placeInFolds k i shuffled folds = some folds' ∧ folds'.length = k ∧
        folds'.flatten.Perm (folds.flatten ++ shuffled) ∧
        ((∀ ex ∈ shuffled, ex.get classAttr = c) → ∀ j, j < k →
          classCount classAttr c (folds'.getD j [])
            = classCount classAttr c (folds.getD j [])
              + Nat.count (fun t => (i + t) % k = j) shuffled.length) ∧
        ((∀ ex ∈ shuffled, ex.get classAttr ≠ c) → ∀ j,
          classCount classAttr c (folds'.getD j [])
            = classCount classAttr c (folds.getD j [])) := by
  intro shuffled
  induction shuffled with
  | nil =>
    intro i folds hlen
    refine ⟨folds, rfl, hlen, by simp, ?_, ?_⟩
    · intro _ j _
      simp
    · intro _ j
      rfl
  | cons ex rest ih =>
    intro i folds hlen
    have hik : i % k < folds.length := by rw [hlen]; exact Nat.mod_lt _ hk
    obtain ⟨f1, a1, a2, a3, a4⟩ := appendAt_spec folds (i % k) ex hik
    obtain ⟨f2, b1, b2, b3, b4, b5⟩ := ih (i + 1) f1 (by rw [a2, hlen])
    refine ⟨f2, ?_, b2, ?_, ?_, ?_⟩
    · simp only [placeInFolds, Nat.pos_iff_ne_zero.mp hk, if_false, a1, b1]
    · refine b3.trans ?_
      have := a3.append_right rest
      simpa using this
    · intro hall j hj
      have hex : ex.get classAttr = c := hall ex (List.mem_cons_self _ _)
      have hrest : ∀ e ∈ rest, e.get classAttr = c :=
        fun e he => hall e (List.mem_cons_of_mem _ he)
      rw [b4 hrest j hj, a4 j, List.length_cons, Nat.count_succ']
      have hshift : (fun t => (i + (t + 1)) % k = j) = (fun t => (i + 1 + t) % k = j) := by
        funext t
        rw [show i + (t + 1) = i + 1 + t by omega]
      simp only [Nat.add_zero]
      by_cases hji : j = i % k
      · subst hji
        rw [if_pos rfl, classCount_append_singleton, if_pos hex, if_pos rfl]
        simp only [hshift]
        omega
      · have hji' : ¬ i % k = j := fun e => hji e.symm
        rw [if_neg hji, if_neg hji']
        simp only [hshift]
        omega
    · intro hnone j
      have hex : ex.get classAttr ≠ c := hnone ex (List.mem_cons_self _ _)
      have hrest : ∀ e ∈ rest, e.get classAttr ≠ c :=
        fun e he => hnone e (List.mem_cons_of_mem _ he)
      rw [b5 hrest j, a4 j]
      split_ifs
      · rw [classCount_append_singleton, if_neg hex]
        rfl
      · rfl

theorem foldLoop_spec {σ : Type} (R : Rand σ) (k : Nat) (hk : 0 < k) (classAttr c : String) :
    ∀ (gs : List (String × List Example)) (folds : List (List Example)) (rng : σ),
      folds.length = k → (gs.map Prod.fst).Nodup →
      (∀ g ∈ gs, ∀ ex ∈ g.2, ex.get classAttr = g.1) →
      ∃ folds' rng', foldLoop R k gs folds rng = some (folds', rng') ∧ folds'.length = k ∧
        folds'.flatten.Perm (folds.flatten ++ (gs.map Prod.snd).flatten) ∧
        ∀ j, j < k →
          classCount classAttr c (folds'.getD j [])
            = classCount classAttr c (folds.getD j [])
              + Nat.count (fun t => t % k = j)
                  (classCount classAttr c (gs.map Prod.snd).flatten) := by
  intro gs
  induction gs with
  | nil =>
    intro folds rng hlen _ _
    refine ⟨folds, rng, rfl, hlen, by simp, ?_⟩
    intro j _
    simp [classCount]
  | cons g rest ih =>
    obtain ⟨key, arr⟩ := g
    intro folds rng hlen hnd hcls
    have hperm := applyPerm_perm R rng arr
    have harr : ∀ ex ∈ applyPerm (R.shuffle rng arr.length).1 arr, ex.get classAttr = key :=
      fun ex hex => hcls (key, arr) (List.mem_cons_self _ _) ex (hperm.mem_iff.mp hex)
    have hnd' : (rest.map Prod.fst).Nodup := (List.nodup_cons.mp hnd).2
    have hkey : key ∉ rest.map Prod.fst := (List.nodup_cons.mp hnd).1
    have hcls' : ∀ g ∈ rest, ∀ ex ∈ g.2, ex.get classAttr = g.1 :=
      fun g hg => hcls g (List.mem_cons_of_mem _ hg)
    obtain ⟨f1, a1, a2, a3, a4, a5⟩ :=
      placeInFolds_spec k hk classAttr c (applyPerm (R.shuffle rng arr.length).1 arr) 0 folds hlen
    obtain ⟨f2, rng2, b1, b2, b3, b4⟩ := ih f1 (R.shuffle rng arr.length).2 a2 hnd' hcls'
    refine ⟨f2, rng2, ?_, b2, ?_, ?_⟩
    · simp only [foldLoop, a1, b1]
    · refine b3.trans ?_
      have h1 := (a3.trans (List.Perm.append_left folds.flatten hperm)).append_right
        (rest.map Prod.snd).flatten
      simpa using h1
    · intro j hj
      rw [b4 j hj]
      have hsplit : classCount classAttr c (((key, arr) :: rest).map Prod.snd).flatten
          = classCount classAttr c arr + classCount classAttr c (rest.map Prod.snd).flatten := by
        simp only [classCount, List.map_cons, List.flatten_cons, List.countP_append]
      by_cases hc : key = c
      · have hrest0 : classCount classAttr c (rest.map Prod.snd).flatten = 0 := by
          apply classCount_none
          intro ex hex
          obtain ⟨l, hl, hexl⟩ := List.mem_flatten.mp hex
          obtain ⟨g, hg, rfl⟩ := List.mem_map.mp hl
          rw [hcls' g hg ex hexl]
          intro hgc
          exact hkey (List.mem_map.mpr ⟨g, hg, by rw [hgc, hc]⟩)
        have hall : ∀ ex ∈ applyPerm (R.shuffle rng arr.length).1 arr, ex.get classAttr = c :=
          fun ex hex => by rw [harr ex hex, hc]
        have harrc : classCount classAttr c arr = arr.length :=
          classCount_all classAttr c arr (fun ex hex => by
            rw [hcls (key, arr) (List.mem_cons_self _ _) ex hex, hc])
        rw [a4 hall j hj, hsplit, hrest0, harrc, hperm.length_eq]
        simp only [Nat.zero_add, Nat.add_zero, Nat.count_zero]
      · have hnone : ∀ ex ∈ applyPerm (R.shuffle rng arr.length).1 arr,
            ex.get classAttr ≠ c := fun ex hex => by rw [harr ex hex]; exact hc
        have harr0 : classCount classAttr c arr = 0 :=
          classCount_none classAttr c arr (fun ex hex => by
            rw [hcls (key, arr) (List.mem_cons_self _ _) ex hex]; exact hc)
        rw [a5 hnone j, hsplit, harr0, Nat.zero_add]

/-- The folds built by `stratifiedKFoldCV` for `k ≥ 1`: there are `k` of them, together
they hold the examples of the dataset, each once, and fold `j` receives of every class `c`
as many examples as there are positions `t` below the size of the class with
`t mod k = j`. -/
theorem buildFolds_spec {σ : Type} (mi : MapIter) (R : Rand σ) (train : Dataset) (k : Int)
    (rng : σ) (hk : 1 ≤ k) :
    ∃ folds rng', buildFolds mi R train k rng = some (folds, rng') ∧
      folds.length = k.toNat ∧ folds.flatten.Perm train.Data ∧
      ∀ c j, j < k.toNat →
        classCount train.ClassAttr c (folds.getD j [])
          = Nat.count (fun t => t % k.toNat = j) (classCount train.ClassAttr c train.Data) := by
  have hk0 : ¬ k < 0 := by omega
  have hkn : 0 < k.toNat := by omega
  obtain ⟨g1, g2, g3⟩ := groupByClass_spec train.ClassAttr train.Data
  have hp := mi.perm (groupByClass train.Data train.ClassAttr)
  have hnd : ((mi.order (groupByClass train.Data train.ClassAttr)).map Prod.fst).Nodup :=
    ((hp.map Prod.fst).nodup_iff).mpr g1
  have hcls : ∀ g ∈ mi.order (groupByClass train.Data train.ClassAttr),
      ∀ ex ∈ g.2, ex.get train.ClassAttr = g.1 :=
    fun g hg => (g2 g (hp.mem_iff.mp hg)).2
  have hflat : ((mi.order (groupByClass train.Data train.ClassAttr)).map Prod.snd).flatten.Perm
      train.Data := ((hp.map Prod.snd).flatten).trans g3
  have hrep : (List.replicate k.toNat ([] : List Example)).flatten = [] := by
    simp
  have hget : ∀ j, (List.replicate k.toNat ([] : List Example)).getD j [] = [] := by
    intro j
    simp only [List.getD_eq_getElem?_getD, List.getElem?_replicate]
    split_ifs <;> rfl
  have hspec := fun c => foldLoop_spec R k.toNat hkn train.ClassAttr c
    (mi.order (groupByClass train.Data train.ClassAttr)) (List.replicate k.toNat []) rng
    (List.length_replicate _ _) hnd hcls
  obtain ⟨folds, rng', h1, h2, h3, _⟩ := hspec ""
  refine ⟨folds, rng', by simp only [buildFolds, hk0, if_false, h1], h2, ?_, ?_⟩
  · rw [hrep, List.nil_append] at h3
    exact h3.trans hflat
  · intro c j hj
    obtain ⟨folds2, rng2, e1, _, _, e4⟩ := hspec c
    rw [h1, Option.some.injEq, Prod.mk.injEq] at e1
    rw [e1.1, e4 j hj, hget j]
    have h0 : classCount train.ClassAttr c [] = 0 := rfl
    rw [h0, Nat.zero_add]
    congr 1
    exact List.Perm.countP_eq _ hflat

/-- C8: for every dataset, `k ≥ 1`, map iteration order and shuffle outcome,
`stratifiedKFoldCV` builds `k` folds whose concatenation is a rearrangement of the
dataset, so every example is placed in exactly one fold; when the rows are pairwise
different, the folds are pairwise disjoint. -/
theorem C8_folds_partition_dataset {σ : Type} (mi : MapIter) (R : Rand σ) (train : Dataset)
    (k : Int) (rng : σ) (hk : 1 ≤ k) :
    ∃ folds rng', buildFolds mi R train k rng = some (folds, rng') ∧
      folds.length = k.toNat ∧ folds.flatten.Perm train.Data ∧
      (train.Data.Nodup → folds.Pairwise List.Disjoint) := by
  obtain ⟨folds, rng', h1, h2, h3, _⟩ := buildFolds_spec mi R train k rng hk
  refine ⟨folds, rng', h1, h2, h3, ?_⟩
  intro hnd
  exact (List.nodup_flatten.mp (h3.nodup_iff.mpr hnd)).2

/-- C8 at a concrete input: seven distinct examples in three folds, classes visited in
reverse insertion order, rotating shuffles. -/
theorem C8_folds_partition_dataset_witness :
    (1 : Int) ≤ 3 ∧ weatherData.Data.Nodup ∧
    ∃ folds rng', buildFolds MapIter.reversed rotateRand weatherData 3 1 = some (folds, rng') ∧
      folds.length = (3 : Int).toNat ∧ folds.flatten.Perm weatherData.Data ∧
      folds.Pairwise List.Disjoint :=
  ⟨by decide, by decide!,
    (C8_folds_partition_dataset MapIter.reversed rotateRand weatherData 3 1 (by decide)).elim
      (fun folds h => h.elim (fun rng' h' =>
        ⟨folds, rng', h'.1, h'.2.1, h'.2.2.1, h'.2.2.2 (by decide!)⟩))⟩

/-- C9: for every dataset, `k ≥ 1` and class `c`, the numbers of examples of class `c` in
any two of the folds built by `stratifiedKFoldCV` differ by at most one; and a class
with `m ≤ k` examples has one example in each of the folds `0 .. m-1` and none in the
others. -/
theorem C9_folds_balanced_per_class {σ : Type} (mi : MapIter) (R : Rand σ) (train : Dataset)
    (k : Int) (rng : σ) (c : String) (hk : 1 ≤ k) :
    ∃ folds rng', buildFolds mi R train k rng = some (folds, rng') ∧
      folds.length = k.toNat ∧
      (∀ i j, i < k.toNat → j < k.toNat →
        classCount train.ClassAttr c (folds.getD i [])
          ≤ classCount train.ClassAttr c (folds.getD j []) + 1) ∧
      (classCount train.ClassAttr c train.Data ≤ k.toNat → ∀ j, j < k.toNat →
        classCount train.ClassAttr c (folds.getD j [])
          = if j < classCount train.ClassAttr c train.Data then 1 else 0) := by
  have hkn : 0 < k.toNat := by omega
  obtain ⟨folds, rng', h1, h2, _, h4⟩ := buildFolds_spec mi R train k rng hk
  refine ⟨folds, rng', h1, h2, ?_, ?_⟩
  · intro i j hi hj
    rw [h4 c i hi, h4 c j hj, count_mod_eq _ hkn i hi, count_mod_eq _ hkn j hj]
    split_ifs <;> omega
  · intro hm j hj
    rw [h4 c j hj, count_mod_eq _ hkn j hj]
    rcases Nat.lt_or_eq_of_le hm with hlt | heq
    · rw [Nat.div_eq_of_lt hlt, Nat.mod_eq_of_lt hlt, Nat.zero_add]
    · rw [heq, Nat.div_self hkn, Nat.mod_self]
      simp [hj]

/-- C9 at a concrete input: ten folds and the class `yes`, which has three examples. -/
theorem C9_folds_balanced_per_class_witness :
    (1 : Int) ≤ 10 ∧
    ∃ folds rng', buildFolds MapIter.insertion rotateRand weatherData 10 0
        = some (folds, rng') ∧
      folds.length = (10 : Int).toNat ∧
      (∀ i j, i < (10 : Int).toNat → j < (10 : Int).toNat →
        classCount weatherData.ClassAttr "yes" (folds.getD i [])
          ≤ classCount weatherData.ClassAttr "yes" (folds.getD j []) + 1) ∧
      (classCount weatherData.ClassAttr "yes" weatherData.Data ≤ (10 : Int).toNat →
        ∀ j, j < (10 : Int).toNat →
        classCount weatherData.ClassAttr "yes" (folds.getD j [])
          = if j < classCount weatherData.ClassAttr "yes" weatherData.Data then 1 else 0) :=
  ⟨by decide,
    C9_folds_balanced_per_class MapIter.insertion rotateRand weatherData 10 0 "yes" (by decide)⟩

/-- A class of one example has split index `0`, whatever the ratio and the arithmetic:
the upper clamp `len - 1 = 0` undoes the lower clamp `1`. -/
theorem splitPoint_one {F : Type} (fo : FloatOps F) (trainRatio : F) :
    splitPoint fo 1 trainRatio = 0 := by
  simp only [splitPoint]
  split_ifs <;> omega

/-- C10 (evaluation at the failing input): with ratio `0.8`, `stratifiedSplit` puts three of
the four `common` examples into the first dataset, and the fourth together with the only
example of class `rare` into the second; the first dataset holds no `rare` example. -/
theorem C10_singleton_class_lands_in_test :
    classCount rareClassData.ClassAttr "rare" rareClassData.Data = 1 ∧
    stratifiedSplit exactOps MapIter.insertion rotateRand rareClassData (4 / 5) 0
      = some
        ({ rareClassData with
            Data := [[("day", "1"), ("Class", "common")], [("day", "3"), ("Class", "common")],
                     [("day", "4"), ("Class", "common")]] },
         { rareClassData with
            Data := [[("day", "5"), ("Class", "common")], [("day", "2"), ("Class", "rare")]] },
         2) := by
  decide!

theorem splitPoint_range {F : Type} (fo : FloatOps F) (n : Nat) (trainRatio : F) (hn : 1 ≤ n) :
    0 ≤ splitPoint fo n trainRatio ∧ splitPoint fo n trainRatio ≤ (n : Int) - 1 := by
  simp only [splitPoint]
  split_ifs <;> omega

theorem classCount_append (classAttr c : String) (l₁ l₂ : List Example) :
    classCount classAttr c (l₁ ++ l₂)
      = classCount classAttr c l₁ + classCount classAttr c l₂ := by
  simp only [classCount, List.countP_append]

/-- The loop of `stratifiedSplit` never slices out of range, and a class that has a single
example contributes it to `testData`. -/
theorem splitLoop_single {F σ : Type} (fo : FloatOps F) (R : Rand σ) (trainRatio : F)
    (classAttr c : String) :
    ∀ (gs : List (String × List Example)) (tr te : List Example) (rng : σ),
      (∀ g ∈ gs, g.2 ≠ [] ∧ ∀ ex ∈ g.2, ex.get classAttr = g.1) →
      (∀ g ∈ gs, g.1 = c → g.2.length = 1) →
      ∃ tr' te' rng', splitLoop fo R trainRatio gs tr te rng = some (tr', te', rng') ∧
        classCount classAttr c tr' = classCount classAttr c tr ∧
        classCount classAttr c te'
          = classCount classAttr c te + classCount classAttr c (gs.map Prod.snd).flatten := by
  intro gs
  induction gs with
  | nil =>
    intro tr te rng _ _
    exact ⟨tr, te, rng, rfl, rfl, by simp [classCount]⟩
  | cons g rest ih =>
    obtain ⟨key, arr⟩ := g
    intro tr te rng hcls hone
    have hperm := applyPerm_perm R rng arr
    have harr := hcls (key, arr) (List.mem_cons_self _ _)
    have hlen : (applyPerm (R.shuffle rng arr.length).1 arr).length = arr.length :=
      hperm.length_eq
    have hpos : 1 ≤ arr.length := List.length_pos.mpr harr.1
    have hrange := splitPoint_range fo arr.length trainRatio hpos
    obtain ⟨tr', te', rng', h1, h2, h3⟩ :=
      ih (tr ++ (applyPerm (R.shuffle rng arr.length).1 arr).take
            (splitPoint fo arr.length trainRatio).toNat)
         (te ++ (applyPerm (R.shuffle rng arr.length).1 arr).drop
            (splitPoint fo arr.length trainRatio).toNat)
         (R.shuffle rng arr.length).2
         (fun g hg => hcls g (List.mem_cons_of_mem _ hg))
         (fun g hg => hone g (List.mem_cons_of_mem _ hg))
    have hguard : 0 ≤ splitPoint fo arr.length trainRatio ∧
        splitPoint fo arr.length trainRatio ≤ (arr.length : Int) := ⟨hrange.1, by omega⟩
    refine ⟨tr', te', rng', ?_, ?_, ?_⟩
    · simp only [splitLoop, hlen, hguard, and_self, if_true, h1]
    · rw [h2, classCount_append]
      by_cases hc : key = c
      · have h1len : arr.length = 1 := hone (key, arr) (List.mem_cons_self _ _) hc
        rw [h1len, splitPoint_one]
        simp [classCount]
      · have htake : classCount classAttr c
            ((applyPerm (R.shuffle rng arr.length).1 arr).take
              (splitPoint fo arr.length trainRatio).toNat) = 0 :=
          classCount_none classAttr c _ (fun ex hex => by
            rw [harr.2 ex (hperm.mem_iff.mp (List.mem_of_mem_take hex))]; exact hc)
        rw [htake]
        rfl
    · rw [h3, classCount_append]
      have hsplit : classCount classAttr c (((key, arr) :: rest).map Prod.snd).flatten
          = classCount classAttr c arr + classCount classAttr c (rest.map Prod.snd).flatten := by
        simp only [classCount, List.map_cons, List.flatten_cons, List.countP_append]
      rw [hsplit]
      by_cases hc : key = c
      · have h1len : arr.length = 1 := hone (key, arr) (List.mem_cons_self _ _) hc
        rw [h1len, splitPoint_one]
        have : classCount classAttr c (applyPerm (R.shuffle rng 1).1 arr)
            = classCount classAttr c arr := by
          have hp := hperm
          rw [h1len] at hp
          exact List.Perm.countP_eq _ hp
        simp only [Int.toNat_zero, List.drop_zero, this]
        omega
      · have hdrop : classCount classAttr c
            ((applyPerm (R.shuffle rng arr.length).1 arr).drop
              (splitPoint fo arr.length trainRatio).toNat) = 0 :=
          classCount_none classAttr c _ (fun ex hex => by
            rw [harr.2 ex (hperm.mem_iff.mp (List.mem_of_mem_drop hex))]; exact hc)
        have harr0 : classCount classAttr c arr = 0 :=
          classCount_none classAttr c arr (fun ex hex => by rw [harr.2 ex hex]; exact hc)
        rw [hdrop, harr0]
        omega

/-- For every arithmetic, ratio, map iteration order and shuffle: a class with exactly
one example is absent from the first dataset returned by `stratifiedSplit`, and its
example is in the second. -/
theorem stratifiedSplit_singleton_class {F σ : Type} (fo : FloatOps F) (mi : MapIter)
    (R : Rand σ) (ds : Dataset) (trainRatio : F) (rng : σ) (c : String)
    (hc : classCount ds.ClassAttr c ds.Data = 1) :
    ∃ a b rng', stratifiedSplit fo mi R ds trainRatio rng = some (a, b, rng') ∧
      classCount ds.ClassAttr c a.Data = 0 ∧ classCount ds.ClassAttr c b.Data = 1 := by
  obtain ⟨_, g2, g3⟩ := groupByClass_spec ds.ClassAttr ds.Data
  have hp := mi.perm (groupByClass ds.Data ds.ClassAttr)
  have hcls : ∀ g ∈ mi.order (groupByClass ds.Data ds.ClassAttr),
      g.2 ≠ [] ∧ ∀ ex ∈ g.2, ex.get ds.ClassAttr = g.1 :=
    fun g hg => g2 g (hp.mem_iff.mp hg)
  have hflat : ((mi.order (groupByClass ds.Data ds.ClassAttr)).map Prod.snd).flatten.Perm
      ds.Data := ((hp.map Prod.snd).flatten).trans g3
  have hcount : classCount ds.ClassAttr c
      ((mi.order (groupByClass ds.Data ds.ClassAttr)).map Prod.snd).flatten = 1 := by
    rw [← hc]
    exact List.Perm.countP_eq _ hflat
  have hone : ∀ g ∈ mi.order (groupByClass ds.Data ds.ClassAttr), g.1 = c →
      g.2.length = 1 := by
    intro g hg hgc
    have hall : classCount ds.ClassAttr c g.2 = g.2.length :=
      classCount_all _ _ _ (fun ex hex => by rw [(hcls g hg).2 ex hex, hgc])
    have hsub : g.2.Sublist
        ((mi.order (groupByClass ds.Data ds.ClassAttr)).map Prod.snd).flatten :=
      List.sublist_flatten_of_mem (List.mem_map.mpr ⟨g, hg, rfl⟩)
    have hle := List.Sublist.countP_le (fun ex => ex.get ds.ClassAttr == c) hsub
    have hpos : 1 ≤ g.2.length := List.length_pos.mpr (hcls g hg).1
    simp only [classCount] at hall hcount
    omega
  obtain ⟨tr, te, rng', h1, h2, h3⟩ := splitLoop_single fo R trainRatio ds.ClassAttr c
    (mi.order (groupByClass ds.Data ds.ClassAttr)) [] [] rng hcls hone
  refine ⟨{ ds with Data := tr }, { ds with Data := te }, rng', ?_, ?_, ?_⟩
  · simp only [stratifiedSplit, h1]
  · rw [h2]
    rfl
  · rw [h3, hcount]
    rfl

/-! ### Prediction -/

theorem find_eq_none_iff : ∀ (children : ChildMap) (v : String),
    children.find v = none ↔ v ∉ children.keys
  | .nil, v => by simp [ChildMap.find, ChildMap.keys]
  | .cons k c rest, v => by
    by_cases h : k = v
    · simp [ChildMap.find, ChildMap.keys, h]
    · have h' : ¬ v = k := fun e => h e.symm
      simp [ChildMap.find, ChildMap.keys, h, h', find_eq_none_iff rest v]

/-- C13: `predict` returns the `ClassLabel` of a leaf; at a decision node it looks up the
example's value of the split attribute among `Children` and returns the prediction of
the child stored under it, or the node's `MajorityClass` when there is none; and there is
none exactly when the value is not a key of `Children`. -/
theorem C13_predict_cases (root : Node) (ex : Example) :
    predict root ex =
      (if root.IsLeaf then root.ClassLabel
       else
        match root.Children.find (ex.get root.Attr) with
        | some child => predict child ex
        | none => root.MajorityClass) ∧
    (root.Children.find (ex.get root.Attr) = none ↔
      ex.get root.Attr ∉ root.Children.keys) :=
  ⟨predict_unfold root ex, find_eq_none_iff root.Children (ex.get root.Attr)⟩

/-! ### Class counts and the majority class -/

theorem incr_keys (m : List (String × Nat)) (k : String) :
    (incr m k).map Prod.fst
      = if k ∈ m.map Prod.fst then m.map Prod.fst else m.map Prod.fst ++ [k] := by
  induction m with
  | nil => simp [incr]
  | cons g rest ih =>
    obtain ⟨k', n⟩ := g
    by_cases h : k' = k
    · simp [incr, h]
    · have h' : ¬ k = k' := fun e => h e.symm
      simp only [incr, h, if_false, List.map_cons, ih, List.mem_cons, h', false_or]
      split_ifs <;> simp

theorem incr_mem (m : List (String × Nat)) (k : String) (p : String × Nat)
    (hnd : (m.map Prod.fst).Nodup) (hp : p ∈ incr m k) :
    (p.1 ≠ k ∧ p ∈ m) ∨
      (p.1 = k ∧ ((∃ c, (k, c) ∈ m ∧ p.2 = c + 1) ∨ (k ∉ m.map Prod.fst ∧ p.2 = 1))) := by
  induction m with
  | nil =>
    simp only [incr, List.mem_singleton] at hp
    subst hp
    exact Or.inr ⟨rfl, Or.inr ⟨by simp, rfl⟩⟩
  | cons g rest ih =>
    obtain ⟨k', n⟩ := g
    by_cases h : k' = k
    · simp only [incr, h, if_true, List.mem_cons] at hp
      rcases hp with hp | hp
      · subst hp
        exact Or.inr ⟨rfl, Or.inl ⟨n, by rw [h]; exact List.mem_cons_self _ _, rfl⟩⟩
      · have hk : k ∉ rest.map Prod.fst := by
          rw [← h]
          exact (List.nodup_cons.mp hnd).1
        have hpk : p.1 ≠ k := fun e => hk (e ▸ List.mem_map.mpr ⟨p, hp, rfl⟩)
        exact Or.inl ⟨hpk, List.mem_cons_of_mem _ hp⟩
    · simp only [incr, h, if_false, List.mem_cons] at hp
      rcases hp with hp | hp
      · subst hp
        exact Or.inl ⟨h, List.mem_cons_self _ _⟩
      · rcases ih (List.nodup_cons.mp hnd).2 hp with ⟨h1, h2⟩ | ⟨h1, h2⟩
        · exact Or.inl ⟨h1, List.mem_cons_of_mem _ h2⟩
        · refine Or.inr ⟨h1, ?_⟩
          rcases h2 with ⟨c, hc, hpc⟩ | ⟨hk, hpc⟩
          · exact Or.inl ⟨c, List.mem_cons_of_mem _ hc, hpc⟩
          · refine Or.inr ⟨?_, hpc⟩
            simp only [List.map_cons, List.mem_cons, not_or]
            exact ⟨fun e => h e.symm, hk⟩

theorem classCounts_snoc (data : List Example) (ex : Example) (classAttr : String) :
    classCounts (data ++ [ex]) classAttr = incr (classCounts data classAttr) (ex.get classAttr) := by
  simp only [classCounts, List.foldl_append, List.foldl_cons, List.foldl_nil]

/-- The map `counts` at the end of the counting loop: its keys are distinct, they are
the labels that occur, and each is stored with its number of occurrences. -/
theorem classCounts_spec (classAttr : String) (data : List Example) :
    ((classCounts data classAttr).map Prod.fst).Nodup ∧
    (∀ p ∈ classCounts data classAttr, p.2 = classCount classAttr p.1 data ∧ 1 ≤ p.2) ∧
    (∀ ex ∈ data, ex.get classAttr ∈ (classCounts data classAttr).map Prod.fst) := by
  induction data using List.reverseRecOn with
  | nil =>
    refine ⟨List.nodup_nil, ?_, ?_⟩
    · intro p hp
      exact absurd hp (List.not_mem_nil p)
    · intro ex hex
      exact absurd hex (List.not_mem_nil ex)
  | append_singleton data e ih =>
    obtain ⟨h1, h2, h3⟩ := ih
    rw [classCounts_snoc]
    refine ⟨?_, ?_, ?_⟩
    · rw [incr_keys]
      split_ifs with hk
      · exact h1
      · exact List.Nodup.append h1 (List.nodup_singleton _)
          (by simpa [List.disjoint_singleton] using hk)
    · intro p hp
      rw [classCount_append_singleton]
      rcases incr_mem _ _ p h1 hp with ⟨hne, hm⟩ | ⟨heq, hc⟩
      · have hne' : ¬ e.get classAttr = p.1 := fun e' => hne e'.symm
        rw [if_neg hne', Nat.add_zero]
        exact h2 p hm
      · rw [heq, if_pos rfl]
        rcases hc with ⟨c, hc, hpc⟩ | ⟨hk, hpc⟩
        · have := (h2 _ hc).1
          simp only at this
          rw [hpc, this]
          exact ⟨rfl, by omega⟩
        · have h0 : classCount classAttr (e.get classAttr) data = 0 :=
            classCount_none _ _ _ (fun ex hex heq' => hk (heq' ▸ h3 ex hex))
          rw [hpc, h0]
          exact ⟨rfl, le_refl _⟩
    · intro ex hex
      rw [incr_keys]
      rw [List.mem_append, List.mem_singleton] at hex
      rcases hex with hex | hex
      · have := h3 ex hex
        split_ifs
        · exact this
        · exact List.mem_append_left _ this
      · rw [hex]
        split_ifs with hk
        · exact hk
        · exact List.mem_append_right _ (List.mem_singleton.mpr rfl)

theorem majority_fold (l : List (String × Nat)) (init : String × Int) :
    (l.foldl (fun (acc : String × Int) (kv : String × Nat) =>
        if (kv.2 : Int) > acc.2 then (kv.1, (kv.2 : Int)) else acc) init = init ∨
      ∃ p ∈ l, l.foldl (fun (acc : String × Int) (kv : String × Nat) =>
        if (kv.2 : Int) > acc.2 then (kv.1, (kv.2 : Int)) else acc) init = (p.1, (p.2 : Int))) ∧
    init.2 ≤ (l.foldl (fun (acc : String × Int) (kv : String × Nat) =>
        if (kv.2 : Int) > acc.2 then (kv.1, (kv.2 : Int)) else acc) init).2 ∧
    ∀ p ∈ l, (p.2 : Int) ≤ (l.foldl (fun (acc : String × Int) (kv : String × Nat) =>
        if (kv.2 : Int) > acc.2 then (kv.1, (kv.2 : Int)) else acc) init).2 := by
  induction l generalizing init with
  | nil =>
    refine ⟨Or.inl rfl, le_refl _, ?_⟩
    intro p hp
    exact absurd hp (List.not_mem_nil p)
  | cons kv rest ih =>
    simp only [List.foldl_cons]
    obtain ⟨h1, h2, h3⟩ := ih (if (kv.2 : Int) > init.2 then (kv.1, (kv.2 : Int)) else init)
    by_cases hgt : (kv.2 : Int) > init.2
    · rw [if_pos hgt] at h1 h2 h3 ⊢
      refine ⟨Or.inr ?_, by simp only at h2; omega, ?_⟩
      · rcases h1 with h1 | ⟨p, hp, h1⟩
        · exact ⟨kv, List.mem_cons_self _ _, h1⟩
        · exact ⟨p, List.mem_cons_of_mem _ hp, h1⟩
      · intro p hp
        rcases List.mem_cons.mp hp with hp | hp
        · rw [hp]
          exact h2
        · exact h3 p hp
    · rw [if_neg hgt] at h1 h2 h3 ⊢
      refine ⟨?_, h2, ?_⟩
      · rcases h1 with h1 | ⟨p, hp, h1⟩
        · exact Or.inl h1
        · exact Or.inr ⟨p, List.mem_cons_of_mem _ hp, h1⟩
      · intro p hp
        rcases List.mem_cons.mp hp with hp | hp
        · rw [hp]
          omega
        · exact h3 p hp

/-- The label returned by `majorityClass` on a non-empty list is a key of the count map
whose count is the greatest. -/
theorem majorityClass_spec (mi : MapIter) (data : List Example) (classAttr : String)
    (hne : data ≠ []) :
    1 ≤ classCount classAttr (majorityClass mi data classAttr) data ∧
    ∀ c, classCount classAttr c data
      ≤ classCount classAttr (majorityClass mi data classAttr) data := by
  obtain ⟨h1, h2, h3⟩ := classCounts_spec classAttr data
  have hp := mi.perm (classCounts data classAttr)
  obtain ⟨f1, f2, f3⟩ := majority_fold (mi.order (classCounts data classAttr)) ("", -1)
  obtain ⟨e, he⟩ := List.exists_mem_of_ne_nil data hne
  obtain ⟨q, hq, hqk⟩ := List.mem_map.mp (h3 e he)
  have hq1 := (h2 q hq).2
  have hqle := f3 q (hp.mem_iff.mpr hq)
  have hres : ∃ p ∈ classCounts data classAttr,
      (mi.order (classCounts data classAttr)).foldl
        (fun (acc : String × Int) (kv : String × Nat) =>
          if (kv.2 : Int) > acc.2 then (kv.1, (kv.2 : Int)) else acc) ("", -1)
        = (p.1, (p.2 : Int)) := by
    rcases f1 with f1 | ⟨p, hp', f1⟩
    · rw [f1] at hqle
      simp only at hqle
      omega
    · exact ⟨p, hp.mem_iff.mp hp', f1⟩
  obtain ⟨p, hpm, hfold⟩ := hres
  have hmaj : majorityClass mi data classAttr = p.1 := by
    simp only [majorityClass, hfold]
  rw [hmaj, ← (h2 p hpm).1]
  refine ⟨(h2 p hpm).2, ?_⟩
  intro c
  by_cases hc : c ∈ (classCounts data classAttr).map Prod.fst
  · obtain ⟨r, hr, hrk⟩ := List.mem_map.mp hc
    have hrle := f3 r (hp.mem_iff.mpr hr)
    rw [hfold] at hrle
    simp only at hrle
    rw [← hrk, ← (h2 r hr).1]
    omega
  · rw [classCount_none classAttr c data (fun ex hex heq => hc (heq ▸ h3 ex hex))]
    exact Nat.zero_le _

/-- C19: on a non-empty list of examples `majorityClass` returns, for every map iteration
order, a class label that occurs in the list and that no other label exceeds in number
of occurrences. -/
theorem C19_majorityClass_most_frequent (mi : MapIter) (data : List Example)
    (classAttr : String) (hne : data ≠ []) :
    (∃ ex ∈ data, ex.get classAttr = majorityClass mi data classAttr) ∧
    ∀ c, classCount classAttr c data
      ≤ classCount classAttr (majorityClass mi data classAttr) data := by
  obtain ⟨h1, h2⟩ := majorityClass_spec mi data classAttr hne
  refine ⟨?_, h2⟩
  have hpos : 0 < List.countP (fun ex => ex.get classAttr == majorityClass mi data classAttr)
      data := h1
  obtain ⟨ex, hex, hp⟩ := List.countP_pos_iff.mp hpos
  exact ⟨ex, hex, beq_iff_eq.mp hp⟩

/-- C19 at a concrete input: seven examples, four `no` and three `yes`, classes visited in
reverse insertion order. -/
theorem C19_majorityClass_most_frequent_witness :
    weatherData.Data ≠ [] ∧
    (∃ ex ∈ weatherData.Data,
      ex.get "Class" = majorityClass MapIter.reversed weatherData.Data "Class") ∧
    ∀ c, classCount "Class" c weatherData.Data
      ≤ classCount "Class" (majorityClass MapIter.reversed weatherData.Data "Class")
          weatherData.Data :=
  ⟨by decide, C19_majorityClass_most_frequent MapIter.reversed weatherData.Data "Class"
    (by decide)⟩

/-! ### Per-class shares of the stratified split -/

theorem classCount_take_all (classAttr c : String) (l : List Example) (s : Nat)
    (h : ∀ ex ∈ l, ex.get classAttr = c) (hs : s ≤ l.length) :
    classCount classAttr c (l.take s) = s := by
  rw [classCount_all classAttr c _ (fun ex hex => h ex (List.mem_of_mem_take hex)),
    List.length_take]
  omega

theorem classCount_drop_all (classAttr c : String) (l : List Example) (s : Nat)
    (h : ∀ ex ∈ l, ex.get classAttr = c) :
    classCount classAttr c (l.drop s) = l.length - s := by
  rw [classCount_all classAttr c _ (fun ex hex => h ex (List.mem_of_mem_drop hex)),
    List.length_drop]

/-- The loop of `stratifiedSplit` on groups with distinct keys: of the `m` examples of class
`c` among the groups, `splitPoint m` go to `trainData` and the others to `testData`. -/
theorem splitLoop_spec {F σ : Type} (fo : FloatOps F) (R : Rand σ) (trainRatio : F)
    (classAttr c : String) :
    ∀ (gs : List (String × List Example)) (tr te : List Example) (rng : σ),
      (gs.map Prod.fst).Nodup →
      (∀ g ∈ gs, g.2 ≠ [] ∧ ∀ ex ∈ g.2, ex.get classAttr = g.1) →
      ∃ tr' te' rng', splitLoop fo R trainRatio gs tr te rng = some (tr', te', rng') ∧
        classCount classAttr c tr'
          = classCount classAttr c tr
            + (if classCount classAttr c (gs.map Prod.snd).flatten = 0 then 0
               else (splitPoint fo (classCount classAttr c (gs.map Prod.snd).flatten)
                      trainRatio).toNat) ∧
        classCount classAttr c tr' + classCount classAttr c te'
          = classCount classAttr c tr + classCount classAttr c te
            + classCount classAttr c (gs.map Prod.snd).flatten := by
  intro gs
  induction gs with
  | nil =>
    intro tr te rng _ _
    exact ⟨tr, te, rng, rfl, by simp [classCount], by simp [classCount]⟩
  | cons g rest ih =>
    obtain ⟨key, arr⟩ := g
    intro tr te rng hnd hcls
    have hperm := applyPerm_perm R rng arr
    have harr := hcls (key, arr) (List.mem_cons_self _ _)
    have hlen : (applyPerm (R.shuffle rng arr.length).1 arr).length = arr.length :=
      hperm.length_eq
    have hpos : 1 ≤ arr.length := List.length_pos.mpr harr.1
    have hrange := splitPoint_range fo arr.length trainRatio hpos
    have hkey : key ∉ rest.map Prod.fst := (List.nodup_cons.mp hnd).1
    have hcls' : ∀ g ∈ rest, g.2 ≠ [] ∧ ∀ ex ∈ g.2, ex.get classAttr = g.1 :=
      fun g hg => hcls g (List.mem_cons_of_mem _ hg)
    obtain ⟨tr', te', rng', h1, h2, h3⟩ :=
      ih (tr ++ (applyPerm (R.shuffle rng arr.length).1 arr).take
            (splitPoint fo arr.length trainRatio).toNat)
         (te ++ (applyPerm (R.shuffle rng arr.length).1 arr).drop
            (splitPoint fo arr.length trainRatio).toNat)
         (R.shuffle rng arr.length).2 (List.nodup_cons.mp hnd).2 hcls'
    have hguard : 0 ≤ splitPoint fo arr.length trainRatio ∧
        splitPoint fo arr.length trainRatio ≤ (arr.length : Int) := ⟨hrange.1, by omega⟩
    have hsplit : classCount classAttr c (((key, arr) :: rest).map Prod.snd).flatten
        = classCount classAttr c arr + classCount classAttr c (rest.map Prod.snd).flatten := by
      simp only [classCount, List.map_cons, List.flatten_cons, List.countP_append]
    refine ⟨tr', te', rng', ?_, ?_, ?_⟩
    · simp only [splitLoop, hlen, hguard, and_self, if_true, h1]
    · rw [h2, classCount_append, hsplit]
      by_cases hc : key = c
      · have hrest0 : classCount classAttr c (rest.map Prod.snd).flatten = 0 := by
          apply classCount_none
          intro ex hex
          obtain ⟨l, hl, hexl⟩ := List.mem_flatten.mp hex
          obtain ⟨g, hg, rfl⟩ := List.mem_map.mp hl
          rw [(hcls' g hg).2 ex hexl]
          intro hgc
          exact hkey (List.mem_map.mpr ⟨g, hg, by rw [hgc, hc]⟩)
        have hall : ∀ ex ∈ applyPerm (R.shuffle rng arr.length).1 arr, ex.get classAttr = c :=
          fun ex hex => by rw [harr.2 ex (hperm.mem_iff.mp hex), hc]
        have harrc : classCount classAttr c arr = arr.length :=
          classCount_all classAttr c arr (fun ex hex => by rw [harr.2 ex hex, hc])
        rw [classCount_take_all classAttr c _ _ hall (by rw [hlen]; omega), hrest0, harrc]
        have hne : ¬ arr.length = 0 := by omega
        simp only [if_true, if_neg hne, Nat.add_zero]
      · have htake : classCount classAttr c
            ((applyPerm (R.shuffle rng arr.length).1 arr).take
              (splitPoint fo arr.length trainRatio).toNat) = 0 :=
          classCount_none classAttr c _ (fun ex hex => by
            rw [harr.2 ex (hperm.mem_iff.mp (List.mem_of_mem_take hex))]; exact hc)
        have harr0 : classCount classAttr c arr = 0 :=
          classCount_none classAttr c arr (fun ex hex => by rw [harr.2 ex hex]; exact hc)
        rw [htake, harr0, Nat.zero_add, Nat.add_zero]
    · rw [h3, classCount_append, classCount_append, hsplit]
      have hsum : classCount classAttr c
            ((applyPerm (R.shuffle rng arr.length).1 arr).take
              (splitPoint fo arr.length trainRatio).toNat)
          + classCount classAttr c
            ((applyPerm (R.shuffle rng arr.length).1 arr).drop
              (splitPoint fo arr.length trainRatio).toNat)
          = classCount classAttr c arr := by
        rw [← classCount_append, List.take_append_drop]
        exact List.Perm.countP_eq _ hperm
      omega

theorem splitPoint_clamp {F : Type} (fo : FloatOps F) (n : Nat) (trainRatio : F) (hn : 2 ≤ n) :
    splitPoint fo n trainRatio
      = max 1 (min (fo.toInt (fo.round (fo.mul (fo.ofInt n) trainRatio))) ((n : Int) - 1)) := by
  simp only [splitPoint]
  split_ifs <;> omega

/-- C11: for every ratio, arithmetic, map iteration order and shuffle, and every class with
`n ≥ 2` examples, `stratifiedSplit` returns two datasets of which the first holds
`round(n * ratio)` clamped to `[1, n - 1]` examples of the class and the second the
remaining ones, so each holds at least one. -/
theorem C11_split_share_of_class {F σ : Type} (fo : FloatOps F) (mi : MapIter) (R : Rand σ)
    (ds : Dataset) (trainRatio : F) (rng : σ) (c : String)
    (hn : 2 ≤ classCount ds.ClassAttr c ds.Data) :
    ∃ a b rng', stratifiedSplit fo mi R ds trainRatio rng = some (a, b, rng') ∧
      (classCount ds.ClassAttr c a.Data : Int)
        = max 1 (min (fo.toInt (fo.round
            (fo.mul (fo.ofInt (classCount ds.ClassAttr c ds.Data)) trainRatio)))
            ((classCount ds.ClassAttr c ds.Data : Int) - 1)) ∧
      classCount ds.ClassAttr c a.Data + classCount ds.ClassAttr c b.Data
        = classCount ds.ClassAttr c ds.Data ∧
      1 ≤ classCount ds.ClassAttr c a.Data ∧ 1 ≤ classCount ds.ClassAttr c b.Data := by
  obtain ⟨g1, g2, g3⟩ := groupByClass_spec ds.ClassAttr ds.Data
  have hp := mi.perm (groupByClass ds.Data ds.ClassAttr)
  have hnd : ((mi.order (groupByClass ds.Data ds.ClassAttr)).map Prod.fst).Nodup :=
    ((hp.map Prod.fst).nodup_iff).mpr g1
  have hcls : ∀ g ∈ mi.order (groupByClass ds.Data ds.ClassAttr),
      g.2 ≠ [] ∧ ∀ ex ∈ g.2, ex.get ds.ClassAttr = g.1 :=
    fun g hg => g2 g (hp.mem_iff.mp hg)
  have hflat : ((mi.order (groupByClass ds.Data ds.ClassAttr)).map Prod.snd).flatten.Perm
      ds.Data := ((hp.map Prod.snd).flatten).trans g3
  have hcount : classCount ds.ClassAttr c
      ((mi.order (groupByClass ds.Data ds.ClassAttr)).map Prod.snd).flatten
        = classCount ds.ClassAttr c ds.Data := List.Perm.countP_eq _ hflat
  obtain ⟨tr, te, rng', h1, h2, h3⟩ := splitLoop_spec fo R trainRatio ds.ClassAttr c
    (mi.order (groupByClass ds.Data ds.ClassAttr)) [] [] rng hnd hcls
  rw [hcount] at h2 h3
  have hne : ¬ classCount ds.ClassAttr c ds.Data = 0 := by omega
  have h0 : classCount ds.ClassAttr c [] = 0 := rfl
  rw [if_neg hne, h0, Nat.zero_add] at h2
  simp only [h0, Nat.zero_add] at h3
  have hrange := splitPoint_range fo (classCount ds.ClassAttr c ds.Data) trainRatio (by omega)
  have hclamp := splitPoint_clamp fo (classCount ds.ClassAttr c ds.Data) trainRatio hn
  have hge : 1 ≤ splitPoint fo (classCount ds.ClassAttr c ds.Data) trainRatio := by
    rw [hclamp]
    exact le_max_left _ _
  refine ⟨{ ds with Data := tr }, { ds with Data := te }, rng', ?_, ?_, h3, ?_, ?_⟩
  · simp only [stratifiedSplit, h1]
  · show (classCount ds.ClassAttr c tr : Int) = _
    rw [h2, ← hclamp]
    exact Int.toNat_of_nonneg hrange.1
  · show 1 ≤ classCount ds.ClassAttr c tr
    omega
  · show 1 ≤ classCount ds.ClassAttr c te
    omega

/-- C11 at a concrete input: the class `common` of `rareClassData` has four examples; at
ratio `0.8` three go to the first dataset and one to the second. -/
theorem C11_split_share_of_class_witness :
    2 ≤ classCount rareClassData.ClassAttr "common" rareClassData.Data ∧
    ∃ a b rng', stratifiedSplit exactOps MapIter.insertion rotateRand rareClassData (4 / 5) 0
        = some (a, b, rng') ∧
      (classCount rareClassData.ClassAttr "common" a.Data : Int)
        = max 1 (min (exactOps.toInt (exactOps.round
            (exactOps.mul
              (exactOps.ofInt (classCount rareClassData.ClassAttr "common" rareClassData.Data))
              (4 / 5))))
            ((classCount rareClassData.ClassAttr "common" rareClassData.Data : Int) - 1)) ∧
      classCount rareClassData.ClassAttr "common" a.Data
          + classCount rareClassData.ClassAttr "common" b.Data
        = classCount rareClassData.ClassAttr "common" rareClassData.Data ∧
      1 ≤ classCount rareClassData.ClassAttr "common" a.Data ∧
      1 ≤ classCount rareClassData.ClassAttr "common" b.Data :=
  ⟨by decide,
    C11_split_share_of_class exactOps MapIter.insertion rotateRand rareClassData (4 / 5) 0
      "common" (by decide)⟩

/-! ### Dependence on the map iteration order -/

/-- C12 (evaluation at the failing input): with the same dataset, configuration and
random-source state, visiting the class-keyed maps in insertion order or in reverse order
gives different results. On the tied two-example dataset `majorityClass` returns `a` or
`b`, and `trainWithOptionalPostPruning` (min-examples rule, no post-pruning) the leaf `a`
or the leaf `b`; on the seven-example dataset `stratifiedSplit` at ratio `0.8` returns
different training and test sets. -/
theorem C12_results_depend_on_map_order :
    majorityClass MapIter.insertion twoClassData.Data "Class" = "a" ∧
    majorityClass MapIter.reversed twoClassData.Data "Class" = "b" ∧
    trainWithOptionalPostPruning exactOps MapIter.insertion rotateRand twoClassData
        (configWith "0" false 10 true 5 false false) 0
      = some (Node.leaf "a" "a" 0, 0) ∧
    trainWithOptionalPostPruning exactOps MapIter.reversed rotateRand twoClassData
        (configWith "0" false 10 true 5 false false) 0
      = some (Node.leaf "b" "b" 0, 0) ∧
    stratifiedSplit exactOps MapIter.insertion rotateRand weatherData (4 / 5) 0
      = some
        ({ weatherData with
            Data := [[("day", "1"), ("Class", "no")], [("day", "3"), ("Class", "no")],
                     [("day", "5"), ("Class", "no")], [("day", "4"), ("Class", "yes")],
                     [("day", "6"), ("Class", "yes")]] },
         { weatherData with
            Data := [[("day", "7"), ("Class", "no")], [("day", "2"), ("Class", "yes")]] },
         2) ∧
    stratifiedSplit exactOps MapIter.reversed rotateRand weatherData (4 / 5) 0
      = some
        ({ weatherData with
            Data := [[("day", "2"), ("Class", "yes")], [("day", "4"), ("Class", "yes")],
                     [("day", "3"), ("Class", "no")], [("day", "5"), ("Class", "no")],
                     [("day", "7"), ("Class", "no")]] },
         { weatherData with
            Data := [[("day", "6"), ("Class", "yes")], [("day", "1"), ("Class", "no")]] },
         2) := by
  decide!

/-! ### Attribute selection -/

/-- The selection loop keeps the first attribute whose value is the greatest, when `lt`
orders the values it meets like the rationals `v` assigns to them. -/
theorem argmax_fold {F : Type} (lt : F → F → Bool) (g : String → F) (v : F → ℚ)
    (attrs : List String) (init : String × F)
    (hv : ∀ x ∈ init.2 :: attrs.map g, ∀ y ∈ init.2 :: attrs.map g,
      (lt x y = true ↔ v x < v y)) :
    (attrs.foldl (fun (best : String × F) a => if lt best.2 (g a) then (a, g a) else best) init
        = init ∧ ∀ a ∈ attrs, v (g a) ≤ v init.2) ∨
    ∃ pre post,
      attrs = pre ++
        (attrs.foldl (fun (best : String × F) a => if lt best.2 (g a) then (a, g a) else best)
          init).1 :: post ∧
      v init.2 < v (g (attrs.foldl
        (fun (best : String × F) a => if lt best.2 (g a) then (a, g a) else best) init).1) ∧
      (∀ a ∈ pre, v (g a) < v (g (attrs.foldl
        (fun (best : String × F) a => if lt best.2 (g a) then (a, g a) else best) init).1)) ∧
      (∀ a ∈ post, v (g a) ≤ v (g (attrs.foldl
        (fun (best : String × F) a => if lt best.2 (g a) then (a, g a) else best) init).1)) := by
  induction attrs generalizing init with
  | nil =>
    refine Or.inl ⟨rfl, ?_⟩
    intro a ha
    exact absurd ha (List.not_mem_nil a)
  | cons a rest ih =>
    simp only [List.foldl_cons]
    have hmem0 : init.2 ∈ init.2 :: (a :: rest).map g := List.mem_cons_self _ _
    have hmema : g a ∈ init.2 :: (a :: rest).map g :=
      List.mem_cons_of_mem _ (List.mem_map.mpr ⟨a, List.mem_cons_self _ _, rfl⟩)
    have hsub : ∀ z, z ∈ rest.map g → z ∈ init.2 :: (a :: rest).map g := by
      intro z hz
      obtain ⟨b, hb, hbz⟩ := List.mem_map.mp hz
      exact List.mem_cons_of_mem _ (List.mem_map.mpr ⟨b, List.mem_cons_of_mem _ hb, hbz⟩)
    by_cases hlt : lt init.2 (g a) = true
    · have hva : v init.2 < v (g a) := (hv _ hmem0 _ hmema).mp hlt
      have hv' : ∀ x ∈ (a, g a).2 :: rest.map g, ∀ y ∈ (a, g a).2 :: rest.map g,
          (lt x y = true ↔ v x < v y) := by
        intro x hx y hy
        refine hv x ?_ y ?_
        · rcases List.mem_cons.mp hx with hx | hx
          · rw [hx]; exact hmema
          · exact hsub x hx
        · rcases List.mem_cons.mp hy with hy | hy
          · rw [hy]; exact hmema
          · exact hsub y hy
      rw [if_pos hlt]
      rcases ih (a, g a) hv' with ⟨h1, h2⟩ | ⟨pre, post, h1, h2, h3, h4⟩
      · refine Or.inr ⟨[], rest, ?_, ?_, ?_, ?_⟩
        · rw [h1]
          rfl
        · rw [h1]
          exact hva
        · intro x hx
          exact absurd hx (List.not_mem_nil x)
        · rw [h1]
          exact h2
      · refine Or.inr ⟨a :: pre, post, ?_, ?_, ?_, h4⟩
        · rw [List.cons_append, ← h1]
        · exact lt_trans hva h2
        · intro x hx
          rcases List.mem_cons.mp hx with hx | hx
          · rw [hx]
            exact h2
          · exact h3 x hx
    · have hva : v (g a) ≤ v init.2 := by
        by_contra hcon
        exact hlt ((hv _ hmem0 _ hmema).mpr (not_le.mp hcon))
      have hv' : ∀ x ∈ init.2 :: rest.map g, ∀ y ∈ init.2 :: rest.map g,
          (lt x y = true ↔ v x < v y) := by
        intro x hx y hy
        refine hv x ?_ y ?_
        · rcases List.mem_cons.mp hx with hx | hx
          · rw [hx]; exact hmem0
          · exact hsub x hx
        · rcases List.mem_cons.mp hy with hy | hy
          · rw [hy]; exact hmem0
          · exact hsub y hy
      rw [if_neg hlt]
      rcases ih init hv' with ⟨h1, h2⟩ | ⟨pre, post, h1, h2, h3, h4⟩
      · refine Or.inl ⟨h1, ?_⟩
        intro x hx
        rcases List.mem_cons.mp hx with hx | hx
        · rw [hx]
          exact hva
        · exact h2 x hx
      · refine Or.inr ⟨a :: pre, post, ?_, h2, ?_, h4⟩
        · rw [List.cons_append, ← h1]
        · intro x hx
          rcases List.mem_cons.mp hx with hx | hx
          · rw [hx]
            exact lt_of_le_of_lt hva h2
          · exact h3 x hx

/-- An Internal node returned by `buildID3` splits on the attribute selected by the loop,
and that attribute is not the initial `""`. -/
theorem buildID3_internal_attr {F : Type} (fo : FloatOps F) (mi : MapIter) (ds : Dataset)
    (cfg : Config F) (depth : Int) (t : Node) (ht : buildID3 fo mi ds cfg depth = some t)
    (hi : t.IsLeaf = false) :
    t.Attr = (bestSplit fo mi ds).1 ∧ (bestSplit fo mi ds).1 ≠ "" := by
  rw [buildID3_unfold] at ht
  unfold buildID3Step at ht
  simp only at ht
  split_ifs at ht with h1 h2 h3 h4 h5
  · split at ht
    · exact absurd ht (by simp)
    · simp only [Option.some.injEq] at ht
      subst ht
      exact absurd hi (by simp [Node.leaf, Node.IsLeaf])
  · simp only [Option.some.injEq] at ht
    subst ht
    exact absurd hi (by simp [Node.leaf, Node.IsLeaf])
  · simp only [Option.some.injEq] at ht
    subst ht
    exact absurd hi (by simp [Node.leaf, Node.IsLeaf])
  · simp only [Option.some.injEq] at ht
    subst ht
    exact absurd hi (by simp [Node.leaf, Node.IsLeaf])
  · simp only [Option.some.injEq] at ht
    subst ht
    exact absurd hi (by simp [Node.leaf, Node.IsLeaf])
  · split at ht
    · simp only [Option.some.injEq] at ht
      subst ht
      exact ⟨rfl, h4⟩
    · exact absurd ht (by simp)

/-- C14: when `buildID3` returns an Internal node, its split attribute stands in `ds.Attrs`
after attributes of strictly smaller information gain and before attributes of smaller or
equal gain: it has the greatest gain, and is the first of those with the greatest gain.
The gain of `a` is `entropy(ds) - condEntropy(ds, a)` as the program computes it, and
`lt` is assumed to compare the gains and the initial `-1.0` like the rationals `v` they
stand for. -/
theorem C14_split_attribute_has_greatest_gain {F : Type} (fo : FloatOps F) (mi : MapIter)
    (ds : Dataset) (cfg : Config F) (depth : Int) (t : Node) (v : F → ℚ)
    (hv : ∀ x ∈ fo.ofInt (-1) :: ds.Attrs.map (infoGain fo mi ds),
      ∀ y ∈ fo.ofInt (-1) :: ds.Attrs.map (infoGain fo mi ds),
        (fo.lt x y = true ↔ v x < v y))
    (ht : buildID3 fo mi ds cfg depth = some t) (hi : t.IsLeaf = false) :
    (∀ a ∈ ds.Attrs, v (infoGain fo mi ds a) ≤ v (infoGain fo mi ds t.Attr)) ∧
    ∃ pre post, ds.Attrs = pre ++ t.Attr :: post ∧
      (∀ a ∈ pre, v (infoGain fo mi ds a) < v (infoGain fo mi ds t.Attr)) ∧
      (∀ a ∈ post, v (infoGain fo mi ds a) ≤ v (infoGain fo mi ds t.Attr)) := by
  obtain ⟨hattr, hne⟩ := buildID3_internal_attr fo mi ds cfg depth t ht hi
  have hfold := argmax_fold fo.lt (infoGain fo mi ds) v ds.Attrs ("", fo.ofInt (-1)) hv
  have hbest : ds.Attrs.foldl
      (fun (best : String × F) a =>
        if fo.lt best.2 (infoGain fo mi ds a) then (a, infoGain fo mi ds a) else best)
      ("", fo.ofInt (-1)) = bestSplit fo mi ds := rfl
  rw [hbest] at hfold
  rcases hfold with ⟨h1, _⟩ | ⟨pre, post, h1, _, h3, h4⟩
  · exact absurd (by rw [h1]) hne
  · rw [← hattr] at h1 h3 h4
    refine ⟨?_, pre, post, h1, h3, h4⟩
    intro a ha
    rw [h1] at ha
    rcases List.mem_append.mp ha with ha | ha
    · exact le_of_lt (h3 a ha)
    · rcases List.mem_cons.mp ha with ha | ha
      · rw [ha]
      · exact h4 a ha

/-- C14 at a concrete input: the scenario dataset without pruning; `outlook` has gain 1
and comes first, `temperature` has gain 0. -/
theorem C14_split_attribute_has_greatest_gain_witness :
    (∀ x ∈ exactOps.ofInt (-1)
        :: scenarioData.Attrs.map (infoGain exactOps MapIter.insertion scenarioData),
      ∀ y ∈ exactOps.ofInt (-1)
          :: scenarioData.Attrs.map (infoGain exactOps MapIter.insertion scenarioData),
        (exactOps.lt x y = true ↔ (fun q : ℚ => q) x < (fun q : ℚ => q) y)) ∧
    buildID3 exactOps MapIter.insertion scenarioData noPruning 0 = some (scenarioTree "no") ∧
    (scenarioTree "no").IsLeaf = false ∧
    (∀ a ∈ scenarioData.Attrs,
      infoGain exactOps MapIter.insertion scenarioData a
        ≤ infoGain exactOps MapIter.insertion scenarioData (scenarioTree "no").Attr) ∧
    ∃ pre post, scenarioData.Attrs = pre ++ (scenarioTree "no").Attr :: post ∧
      (∀ a ∈ pre, infoGain exactOps MapIter.insertion scenarioData a
        < infoGain exactOps MapIter.insertion scenarioData (scenarioTree "no").Attr) ∧
      (∀ a ∈ post, infoGain exactOps MapIter.insertion scenarioData a
        ≤ infoGain exactOps MapIter.insertion scenarioData (scenarioTree "no").Attr) :=
  ⟨fun _ _ _ _ => decide_eq_true_iff, by decide!, rfl,
    C14_split_attribute_has_greatest_gain exactOps MapIter.insertion scenarioData noPruning 0
      (scenarioTree "no") (fun q => q) (fun _ _ _ _ => decide_eq_true_iff) (by decide!) rfl⟩

/-! ### The min-information-gain rule -/

theorem isPure_all (classAttr : String) (ex : Example) (rest : List Example)
    (h : isPure (ex :: rest) classAttr = true) :
    ∀ e ∈ ex :: rest, e.get classAttr = ex.get classAttr := by
  simp only [isPure, List.all_eq_true, beq_iff_eq] at h
  intro e he
  rcases List.mem_cons.mp he with he | he
  · rw [he]
  · exact h e he

/-- C15 (amended): when `buildID3` applies its pre-pruning rules (`Mode` is "0" or "2"), the
min-information-gain rule is enabled and the best gain found by the selection loop is
less than the threshold `G`, then `buildID3` returns, on a non-empty dataset, the single
leaf labelled with the majority class of the dataset. -/
theorem C15_low_gain_yields_leaf {F : Type} (fo : FloatOps F) (mi : MapIter) (ds : Dataset)
    (cfg : Config F) (depth : Int) (hne : ds.Data ≠ [])
    (hmode : cfg.Mode = "0" ∨ cfg.Mode = "2") (hG : cfg.Pre.UseG = true)
    (hlow : fo.lt (bestSplit fo mi ds).2 cfg.Pre.G = true) :
    buildID3 fo mi ds cfg depth
      = some (Node.leaf (majorityClass mi ds.Data ds.ClassAttr)
          (majorityClass mi ds.Data ds.ClassAttr) depth) := by
  have hgate : (cfg.Mode == "0" || cfg.Mode == "2") = true := by
    rcases hmode with h | h <;> simp [h]
  rw [buildID3_unfold]
  unfold buildID3Step
  cases hd : ds.Data with
  | nil => exact absurd hd hne
  | cons ex rest =>
    by_cases hp : isPure (ex :: rest) ds.ClassAttr = true
    · have hall := isPure_all ds.ClassAttr ex rest hp
      simp only [hp, if_true, majorityClass_same mi ds.ClassAttr _ ex rest hall]
    · simp only [hp, hgate, hG, hlow, Bool.and_self, Bool.true_and, if_true,
        Bool.false_eq_true, if_false]
      split_ifs <;> rfl

/-- C15 (amended) at a concrete input: the scenario dataset with `Mode` "0" and `G = 1.1`;
the best gain is 1. -/
theorem C15_low_gain_yields_leaf_witness :
    scenarioData.Data ≠ [] ∧
    ((gainRule "0" (11 / 10)).Mode = "0" ∨ (gainRule "0" (11 / 10)).Mode = "2") ∧
    (gainRule "0" (11 / 10)).Pre.UseG = true ∧
    exactOps.lt (bestSplit exactOps MapIter.insertion scenarioData).2
      (gainRule "0" (11 / 10)).Pre.G = true ∧
    buildID3 exactOps MapIter.insertion scenarioData (gainRule "0" (11 / 10)) 0
      = some (Node.leaf (majorityClass MapIter.insertion scenarioData.Data scenarioData.ClassAttr)
          (majorityClass MapIter.insertion scenarioData.Data scenarioData.ClassAttr) 0) :=
  ⟨by decide, by decide, rfl, by decide!,
    C15_low_gain_yields_leaf exactOps MapIter.insertion scenarioData (gainRule "0" (11 / 10)) 0
      (by decide) (by decide) rfl (by decide!)⟩

/-- C15 fails as stated: with `Mode` "1" the enabled min-information-gain rule `G = 1.1` is
not applied; the best gain on the scenario dataset is 1, below the threshold, and
`buildID3` still returns the Internal node on `outlook`. -/
theorem C15_counterexample :
    scenarioData.Data ≠ [] ∧
    (gainRule "1" (11 / 10)).Pre.UseG = true ∧
    (bestSplit exactOps MapIter.insertion scenarioData).2 = 1 ∧
    exactOps.lt (bestSplit exactOps MapIter.insertion scenarioData).2
      (gainRule "1" (11 / 10)).Pre.G = true ∧
    buildID3 exactOps MapIter.insertion scenarioData (gainRule "1" (11 / 10)) 0
      = some (scenarioTree "no") ∧
    (scenarioTree "no").IsLeaf = false := by
  decide!

/-! ### The scenario dataset -/

/-- In exact arithmetic the entropy does not depend on the order in which the count map
is visited. -/
theorem entropy_exact_order (mi : MapIter) (data : List Example) (classAttr : String) :
    entropy exactOps mi data classAttr = entropy exactOps MapIter.insertion data classAttr := by
  unfold entropy
  exact List.Perm.foldl_eq' (mi.perm (classCounts data classAttr))
    (fun x _ y _ z => by
      simp only [exactOps]
      split_ifs <;> ring) _

/-- In exact arithmetic the conditional entropy does not depend on the order in which the
maps are visited. -/
theorem condEntropy_exact_order (mi : MapIter) (data : List Example) (attr classAttr : String) :
    condEntropy exactOps mi data attr classAttr
      = condEntropy exactOps MapIter.insertion data attr classAttr := by
  unfold condEntropy
  have hfun : (fun (sum : ℚ) (vs : String × List Example) =>
        if vs.2.length = 0 then sum
        else exactOps.add sum
          (exactOps.mul (exactOps.div (exactOps.ofInt vs.2.length) (exactOps.ofInt data.length))
            (entropy exactOps mi vs.2 classAttr)))
      = (fun (sum : ℚ) (vs : String × List Example) =>
        if vs.2.length = 0 then sum
        else exactOps.add sum
          (exactOps.mul (exactOps.div (exactOps.ofInt vs.2.length) (exactOps.ofInt data.length))
            (entropy exactOps MapIter.insertion vs.2 classAttr))) := by
    funext sum vs
    rw [entropy_exact_order]
  simp only [hfun]
  exact List.Perm.foldl_eq' (mi.perm (groupByValue data attr))
    (fun x _ y _ z => by
      simp only [exactOps]
      split_ifs <;> ring) _

theorem infoGain_exact_order (mi : MapIter) (ds : Dataset) (a : String) :
    infoGain exactOps mi ds a = infoGain exactOps MapIter.insertion ds a := by
  simp only [infoGain, entropy_exact_order mi, condEntropy_exact_order mi]

theorem bestSplit_exact_order (mi : MapIter) (ds : Dataset) :
    bestSplit exactOps mi ds = bestSplit exactOps MapIter.insertion ds := by
  simp only [bestSplit, entropy_exact_order mi, condEntropy_exact_order mi]

/-- C17: on the scenario dataset, computed in the exact reference arithmetic (which
`float64` reproduces on these values) and for every map iteration order, `entropy` is 1,
the conditional entropy of the first attribute is 0 and its information gain 1, and the
information gain of the second attribute is 0 (its conditional entropy is 1). -/
theorem C17_scenario_entropy_and_gains (mi : MapIter) :
    entropy exactOps mi scenarioData.Data scenarioData.ClassAttr = 1 ∧
    condEntropy exactOps mi scenarioData.Data "outlook" scenarioData.ClassAttr = 0 ∧
    infoGain exactOps mi scenarioData "outlook" = 1 ∧
    condEntropy exactOps mi scenarioData.Data "temperature" scenarioData.ClassAttr = 1 ∧
    infoGain exactOps mi scenarioData "temperature" = 0 := by
  simp only [entropy_exact_order mi, condEntropy_exact_order mi, infoGain_exact_order mi]
  decide!

theorem buildID3_of_pure {F : Type} (fo : FloatOps F) (mi : MapIter) (ds : Dataset)
    (cfg : Config F) (depth : Int) (L : String) (ex : Example) (rest : List Example)
    (hd : ds.Data = ex :: rest) (hL : ∀ e ∈ ex :: rest, e.get ds.ClassAttr = L) :
    buildID3 fo mi ds cfg depth = some (Node.leaf L L depth) := by
  rw [buildID3_unfold]
  simp only [buildID3Step, hd, isPure_same ds.ClassAttr L (ex :: rest) hL, if_true,
    majorityClass_same mi ds.ClassAttr L ex rest hL, hL ex (List.mem_cons_self _ _)]

/-- The last branch of `buildID3`: when no stopping rule fires, the result is the
Internal node on the selected attribute with the children built from its groups. -/
theorem buildID3_node {F : Type} (fo : FloatOps F) (mi : MapIter) (ds : Dataset)
    (cfg : Config F) (depth : Int) (children : ChildMap)
    (hp : isPure ds.Data ds.ClassAttr = false)
    (hgate : (((cfg.Mode == "0" || cfg.Mode == "2")
        && (cfg.Pre.UseN || cfg.Pre.UseK || cfg.Pre.UseG))
        && ((cfg.Pre.UseN && decide (depth ≥ cfg.Pre.N))
          || (cfg.Pre.UseK && decide ((ds.Data.length : Int) < cfg.Pre.K)))) = false)
    (hattrs : ds.Attrs.length ≠ 0)
    (hb : (bestSplit fo mi ds).1 ≠ "")
    (hG : ((cfg.Mode == "0" || cfg.Mode == "2") && cfg.Pre.UseG
        && fo.lt (bestSplit fo mi ds).2 cfg.Pre.G) = false)
    (hch : buildChildren
        (fun subset => buildID3 fo mi
          { ds with Attrs := ds.Attrs.filter (fun a => a != (bestSplit fo mi ds).1),
                    Data := subset } cfg (depth + 1))
        (majorityClass mi ds.Data ds.ClassAttr) depth
        (groupByValue ds.Data (bestSplit fo mi ds).1) = some children) :
    buildID3 fo mi ds cfg depth
      = some (Node.mk false "" (bestSplit fo mi ds).1 children
          (majorityClass mi ds.Data ds.ClassAttr) depth) := by
  rw [buildID3_unfold]
  simp only [buildID3Step, hp, hgate, hattrs, hb, hG, hch, Bool.false_eq_true, if_false]

theorem scenario_majority (mi : MapIter) :
    majorityClass mi scenarioData.Data scenarioData.ClassAttr = "no" ∨
    majorityClass mi scenarioData.Data scenarioData.ClassAttr = "yes" := by
  obtain ⟨h1, _⟩ := majorityClass_spec mi scenarioData.Data scenarioData.ClassAttr (by decide)
  have hpos : 0 < List.countP
      (fun ex => ex.get scenarioData.ClassAttr
        == majorityClass mi scenarioData.Data scenarioData.ClassAttr) scenarioData.Data := h1
  obtain ⟨ex, hex, hp⟩ := List.countP_pos_iff.mp hpos
  have heq := beq_iff_eq.mp hp
  rw [← heq]
  simp only [scenarioData, List.mem_cons, List.mem_singleton, List.not_mem_nil, or_false] at hex
  rcases hex with h | h | h | h <;> subst h
  · exact Or.inl (by decide)
  · exact Or.inl (by decide)
  · exact Or.inr (by decide)
  · exact Or.inr (by decide)

/-- C16: on the scenario dataset with every pruning rule off, computed in the exact
reference arithmetic (which `float64` reproduces on these values) and for every map
iteration order, `buildID3` returns the Internal node that splits on the first attribute
with the leaf children sunny -> no, overcast -> yes, rain -> yes (its `MajorityClass` is
the majority class of the tied dataset, `no` or `yes`), and the accuracy of that tree on
the four examples is 1. -/
theorem C16_scenario_tree_and_accuracy (mi : MapIter) :
    buildID3 exactOps mi scenarioData noPruning 0
      = some (scenarioTree (majorityClass mi scenarioData.Data scenarioData.ClassAttr)) ∧
    (majorityClass mi scenarioData.Data scenarioData.ClassAttr = "no" ∨
      majorityClass mi scenarioData.Data scenarioData.ClassAttr = "yes") ∧
    accuracy (scenarioTree (majorityClass mi scenarioData.Data scenarioData.ClassAttr))
      scenarioData = 1 := by
  have hbest : bestSplit exactOps mi scenarioData = ("outlook", 1) := by
    rw [bestSplit_exact_order]
    decide!
  have hgroups : groupByValue scenarioData.Data "outlook"
      = [("sunny", [[("outlook", "sunny"), ("temperature", "hot"), ("play", "no")],
                    [("outlook", "sunny"), ("temperature", "cool"), ("play", "no")]]),
         ("overcast", [[("outlook", "overcast"), ("temperature", "hot"), ("play", "yes")]]),
         ("rain", [[("outlook", "rain"), ("temperature", "cool"), ("play", "yes")]])] := by
    decide!
  refine ⟨?_, scenario_majority mi, ?_⟩
  · have hnode := buildID3_node exactOps mi scenarioData noPruning 0
      (ChildMap.cons "sunny" (Node.leaf "no" "no" 1)
        (ChildMap.cons "overcast" (Node.leaf "yes" "yes" 1)
          (ChildMap.cons "rain" (Node.leaf "yes" "yes" 1) ChildMap.nil)))
      (by decide) (by decide) (by decide) (by rw [hbest]; decide) (by rw [hbest]; decide!) (by
        rw [hbest, hgroups]
        simp only [buildChildren, List.length_cons, List.length_nil, Nat.reduceAdd,
          OfNat.ofNat_ne_zero, one_ne_zero, if_false]
        rw [buildID3_of_pure exactOps mi _ noPruning (0 + 1) "no" _ _ rfl (by decide),
          buildID3_of_pure exactOps mi _ noPruning (0 + 1) "yes" _ _ rfl (by decide),
          buildID3_of_pure exactOps mi _ noPruning (0 + 1) "yes" _ _ rfl (by decide)]
        rfl)
    rw [hnode, hbest]
    rfl
  · rcases scenario_majority mi with h | h <;> rw [h] <;> decide!

/-! ### Entropy -/

theorem exactOps_entropyLaws : EntropyLaws exactOps where
  div_self := fun n hn => by
    have h : (n : ℚ) ≠ 0 := by exact_mod_cast (ne_of_gt hn)
    simp only [exactOps]
    rw [div_self h]
    norm_num
  div_pos := fun c n hc hn => by
    have hc' : (0 : ℚ) < (c : ℚ) := by exact_mod_cast hc
    have hn' : (0 : ℚ) < (n : ℚ) := by exact_mod_cast hn
    simp only [exactOps, Int.cast_zero, decide_eq_true_eq]
    exact div_pos hc' hn'
  log2_one := by decide!
  one_mul_zero := by decide!
  zero_sub_zero := by decide!

theorem entropy_of_pure {F : Type} (fo : FloatOps F) (mi : MapIter) (laws : EntropyLaws fo)
    (classAttr L : String) (ex : Example) (rest : List Example)
    (hL : ∀ e ∈ ex :: rest, e.get classAttr = L) :
    entropy fo mi (ex :: rest) classAttr = fo.ofInt 0 := by
  have hord : mi.order (classCounts (ex :: rest) classAttr) = [(L, rest.length + 1)] := by
    have hp := mi.perm (classCounts (ex :: rest) classAttr)
    rw [classCounts_same classAttr L ex rest hL] at hp ⊢
    exact List.perm_singleton.mp hp
  have hpos : (0 : Int) < ((rest.length + 1 : Nat) : Int) := by omega
  have hone : fo.lt (fo.ofInt 0) (fo.ofInt 1) = true := by
    have h := laws.div_pos 1 1 (by decide) (by decide)
    rw [laws.div_self 1 (by decide)] at h
    exact h
  simp only [entropy, hord, List.foldl_cons, List.foldl_nil, List.length_cons,
    laws.div_self _ hpos, hone, if_true, laws.log2_one, laws.one_mul_zero, laws.zero_sub_zero]

theorem entropy_as_fold {F : Type} (fo : FloatOps F) (mi : MapIter) (laws : EntropyLaws fo)
    (data : List Example) (classAttr : String) :
    entropy fo mi data classAttr
      = ((mi.order (classCounts data classAttr)).map Prod.fst).foldl
          (fun h c => fo.sub h (fo.mul (classFreq fo classAttr data c)
            (log2 fo (classFreq fo classAttr data c))))
          (fo.ofInt 0) := by
  obtain ⟨_, h2, _⟩ := classCounts_spec classAttr data
  have hp := mi.perm (classCounts data classAttr)
  rw [List.foldl_map]
  unfold entropy
  apply List.foldl_ext
  intro h kc hkc
  obtain ⟨hcount, hge⟩ := h2 kc (hp.mem_iff.mp hkc)
  have hlen : classCount classAttr kc.1 data ≤ data.length := List.countP_le_length _
  have hc : (0 : Int) < ((kc.2 : Nat) : Int) := by omega
  have hn : (0 : Int) < ((data.length : Nat) : Int) := by omega
  simp only [laws.div_pos _ _ hc hn, if_true, classFreq, ← hcount]

/-- C18: in every arithmetic with the five `EntropyLaws`, `entropy` returns `0` on a
non-empty list whose examples all carry one class label; and in general it is `0` minus
`p * log2(p)` for each label present in turn, in map iteration order, with `p` the number
of examples with that label divided by the number of examples. -/
theorem C18_entropy_value {F : Type} (fo : FloatOps F) (mi : MapIter) (laws : EntropyLaws fo)
    (data : List Example) (classAttr : String) :
    (∀ L, data ≠ [] → (∀ ex ∈ data, ex.get classAttr = L) →
      entropy fo mi data classAttr = fo.ofInt 0) ∧
    ∃ labels : List String, labels.Nodup ∧
      (∀ c, c ∈ labels ↔ ∃ ex ∈ data, ex.get classAttr = c) ∧
      entropy fo mi data classAttr
        = labels.foldl
            (fun h c => fo.sub h (fo.mul (classFreq fo classAttr data c)
              (log2 fo (classFreq fo classAttr data c))))
            (fo.ofInt 0) := by
  refine ⟨?_, ?_⟩
  · intro L hne hL
    cases data with
    | nil => exact absurd rfl hne
    | cons ex rest => exact entropy_of_pure fo mi laws classAttr L ex rest hL
  · obtain ⟨h1, h2, h3⟩ := classCounts_spec classAttr data
    have hp := mi.perm (classCounts data classAttr)
    refine ⟨(mi.order (classCounts data classAttr)).map Prod.fst,
      ((hp.map Prod.fst).nodup_iff).mpr h1, ?_, entropy_as_fold fo mi laws data classAttr⟩
    intro c
    rw [(hp.map Prod.fst).mem_iff]
    constructor
    · intro hc
      obtain ⟨kc, hkc, hk⟩ := List.mem_map.mp hc
      obtain ⟨hcount, hge⟩ := h2 kc hkc
      have hpos : 0 < List.countP (fun ex => ex.get classAttr == kc.1) data := by
        have : classCount classAttr kc.1 data
            = List.countP (fun ex => ex.get classAttr == kc.1) data := rfl
        omega
      obtain ⟨ex, hex, hpe⟩ := List.countP_pos_iff.mp hpos
      exact ⟨ex, hex, by rw [← hk]; exact beq_iff_eq.mp hpe⟩
    · rintro ⟨ex, hex, rfl⟩
      exact h3 ex hex

/-- C18 at a concrete input: the exact reference arithmetic satisfies the laws; the
examples of `pureData` all carry the label `yes`. -/
theorem C18_entropy_value_witness :
    EntropyLaws exactOps ∧
    (∀ L, pureData.Data ≠ [] → (∀ ex ∈ pureData.Data, ex.get "Class" = L) →
      entropy exactOps MapIter.reversed pureData.Data "Class" = exactOps.ofInt 0) ∧
    ∃ labels : List String, labels.Nodup ∧
      (∀ c, c ∈ labels ↔ ∃ ex ∈ pureData.Data, ex.get "Class" = c) ∧
      entropy exactOps MapIter.reversed pureData.Data "Class"
        = labels.foldl
            (fun h c => exactOps.sub h (exactOps.mul (classFreq exactOps "Class" pureData.Data c)
              (log2 exactOps (classFreq exactOps "Class" pureData.Data c))))
            (exactOps.ofInt 0) :=
  ⟨exactOps_entropyLaws,
    C18_entropy_value exactOps MapIter.reversed exactOps_entropyLaws pureData.Data "Class"⟩

/-- In exact arithmetic the successive subtractions of `entropy` add up to minus the sum
of `p * log2(p)` over the labels present. -/
theorem entropy_exact_neg_sum (mi : MapIter) (data : List Example) (classAttr : String) :
    entropy exactOps mi data classAttr
      = -(((mi.order (classCounts data classAttr)).map Prod.fst).map
            (fun c => classFreq exactOps classAttr data c
              * log2 exactOps (classFreq exactOps classAttr data c))).sum := by
  rw [entropy_as_fold exactOps mi exactOps_entropyLaws]
  have hgen : ∀ (l : List String) (init : ℚ),
      l.foldl (fun h c => exactOps.sub h (exactOps.mul (classFreq exactOps classAttr data c)
            (log2 exactOps (classFreq exactOps classAttr data c)))) init
        = init - (l.map (fun c => classFreq exactOps classAttr data c
              * log2 exactOps (classFreq exactOps classAttr data c))).sum := by
    intro l
    induction l with
    | nil =>
      intro init
      simp
    | cons c rest ih =>
      intro init
      rw [List.foldl_cons, ih, List.map_cons, List.sum_cons]
      simp only [exactOps]
      ring
  rw [hgen]
  simp [exactOps]

/-! ### Mean and standard deviation -/

/-- C20: `meanStd` returns `(0, 0)` on the empty list; on a single element `x` it returns
`((0 + x) / 1, 0)`, which is `(x, 0)` as `0 + x` and `x / 1` are `x`; and on two or more
elements the mean `m = sum(xs) / n` with `sqrt(sum((x - m) * (x - m)) / (n - 1))`, the
sums being accumulated from `0` in list order. -/
theorem C20_meanStd_cases {F : Type} (fo : FloatOps F) (sqrt : F → F) :
    meanStd fo sqrt [] = (fo.ofInt 0, fo.ofInt 0) ∧
    (∀ x, meanStd fo sqrt [x] = (fo.div (fo.add (fo.ofInt 0) x) (fo.ofInt 1), fo.ofInt 0)) ∧
    (∀ x, fo.add (fo.ofInt 0) x = x → fo.div x (fo.ofInt 1) = x →
      meanStd fo sqrt [x] = (x, fo.ofInt 0)) ∧
    (∀ xs : List F, 2 ≤ xs.length →
      meanStd fo sqrt xs
        = (fo.div (xs.foldl (fun s x => fo.add s x) (fo.ofInt 0)) (fo.ofInt xs.length),
           sqrt (fo.div
            (xs.foldl
              (fun v x => fo.add v
                (fo.mul
                  (fo.sub x (fo.div (xs.foldl (fun s x => fo.add s x) (fo.ofInt 0))
                    (fo.ofInt xs.length)))
                  (fo.sub x (fo.div (xs.foldl (fun s x => fo.add s x) (fo.ofInt 0))
                    (fo.ofInt xs.length)))))
              (fo.ofInt 0))
            (fo.ofInt ((xs.length : Int) - 1))))) := by
  refine ⟨rfl, fun x => rfl, ?_, ?_⟩
  · intro x h1 h2
    have : meanStd fo sqrt [x] = (fo.div (fo.add (fo.ofInt 0) x) (fo.ofInt 1), fo.ofInt 0) := rfl
    rw [this, h1, h2]
  · intro xs hxs
    have h0 : ¬ xs.length = 0 := by omega
    have h1 : ¬ xs.length = 1 := by omega
    simp only [meanStd, h0, h1, if_false]

/-- The three cases of `meanStd` evaluated in the exact reference arithmetic: no value,
the single value 3/4, and the values 0, 2, 4 with mean 2 and sample variance 4. -/
theorem meanStd_examples :
    meanStd exactOps exactSqrt [] = (0, 0) ∧
    meanStd exactOps exactSqrt [3 / 4] = (3 / 4, 0) ∧
    meanStd exactOps exactSqrt [0, 2, 4] = (2, 2) := by
  decide!

/-! ### The partition made by `groupByValue` -/

theorem appendTo_mem_nodup {α : Type} (m : List (String × List α)) (k : String) (x : α)
    (hk : (m.map Prod.fst).Nodup) (g : String × List α) (hg : g ∈ appendTo m k x) :
    (g.1 ≠ k ∧ g ∈ m) ∨
    (g.1 = k ∧ ((∃ xs, (k, xs) ∈ m ∧ g.2 = xs ++ [x]) ∨ (k ∉ m.map Prod.fst ∧ g.2 = [x]))) := by
  induction m with
  | nil =>
    simp only [appendTo, List.mem_singleton] at hg
    subst hg
    exact Or.inr ⟨rfl, Or.inr ⟨by simp, rfl⟩⟩
  | cons p rest ih =>
    obtain ⟨k', xs⟩ := p
    simp only [List.map_cons, List.nodup_cons] at hk
    simp only [appendTo] at hg
    by_cases hkk : k' = k
    · subst hkk
      rw [if_pos rfl, List.mem_cons] at hg
      rcases hg with hg | hg
      · subst hg
        exact Or.inr ⟨rfl, Or.inl ⟨xs, List.mem_cons_self _ _, rfl⟩⟩
      · have hne : g.1 ≠ k' := by
          intro h
          exact hk.1 (h ▸ List.mem_map_of_mem Prod.fst hg)
        exact Or.inl ⟨hne, List.mem_cons_of_mem _ hg⟩
    · rw [if_neg hkk, List.mem_cons] at hg
      rcases hg with hg | hg
      · subst hg
        exact Or.inl ⟨hkk, List.mem_cons_self _ _⟩
      · rcases ih hk.2 hg with ⟨h1, h2⟩ | ⟨h1, h2⟩
        · exact Or.inl ⟨h1, List.mem_cons_of_mem _ h2⟩
        · refine Or.inr ⟨h1, ?_⟩
          rcases h2 with ⟨ys, hy, he⟩ | ⟨hn, he⟩
          · exact Or.inl ⟨ys, List.mem_cons_of_mem _ hy, he⟩
          · refine Or.inr ⟨?_, he⟩
            simp only [List.map_cons, List.mem_cons, not_or]
            exact ⟨fun h => hkk h.symm, hn⟩

theorem groupByValue_snoc (data : List Example) (attr : String) (e : Example) :
    groupByValue (data ++ [e]) attr = appendTo (groupByValue data attr) (e.get attr) e := by
  simp only [groupByValue, List.foldl_append, List.foldl_cons, List.foldl_nil]

/-- The groups of `groupByValue`: distinct keys, one for every value observed, and under
each key the examples carrying it, in their order in `data`. -/
theorem groupByValue_spec (attr : String) (data : List Example) :
    ((groupByValue data attr).map Prod.fst).Nodup ∧
    (∀ g ∈ groupByValue data attr,
      g.2 ≠ [] ∧ g.2 = data.filter (fun ex => ex.get attr == g.1)) ∧
    (∀ ex ∈ data, ex.get attr ∈ (groupByValue data attr).map Prod.fst) := by
  induction data using List.reverseRecOn with
  | nil => simp [groupByValue]
  | append_singleton data e ih =>
    obtain ⟨hk, hg, hm⟩ := ih
    rw [groupByValue_snoc]
    refine ⟨appendTo_keys_nodup _ _ _ hk, ?_, ?_⟩
    · intro g hgm
      rcases appendTo_mem_nodup _ _ _ hk g hgm with ⟨hne, hin⟩ | ⟨heq, h2⟩
      · refine ⟨(hg g hin).1, ?_⟩
        rw [List.filter_append, (hg g hin).2]
        have : (e.get attr == g.1) = false := by
          simp only [beq_eq_false_iff_ne, ne_eq]
          exact fun h => hne h.symm
        simp [this]
      · rcases h2 with ⟨xs, hx, he⟩ | ⟨hn, he⟩
        · refine ⟨by rw [he]; simp, ?_⟩
          have := (hg _ hx).2
          simp only at this
          rw [he, List.filter_append, heq, ← this]
          simp
        · refine ⟨by rw [he]; simp, ?_⟩
          have hnone : data.filter (fun ex => ex.get attr == g.1) = [] := by
            rw [List.filter_eq_nil_iff]
            intro ex hex
            simp only [beq_iff_eq]
            intro h
            exact hn (heq ▸ h ▸ hm ex hex)
          rw [he, List.filter_append, hnone, heq]
          simp
    · intro ex hex
      rw [appendTo_keys]
      rw [List.mem_append, List.mem_singleton] at hex
      split_ifs with hin
      · rcases hex with hex | hex
        · exact hm ex hex
        · rw [hex]; exact hin
      · rcases hex with hex | hex
        · exact List.mem_append_left _ (hm ex hex)
        · rw [hex]; simp

/-- The keys of `groupByValue` are exactly the values that `attr` takes in `data`. -/
theorem groupByValue_keys (attr : String) (data : List Example) (v : String) :
    v ∈ (groupByValue data attr).map Prod.fst ↔ ∃ ex ∈ data, ex.get attr = v := by
  constructor
  · intro h
    obtain ⟨g, hg, hv⟩ := List.mem_map.mp h
    obtain ⟨hne, hf⟩ := (groupByValue_spec attr data).2.1 g hg
    cases hd : g.2 with
    | nil => exact absurd hd hne
    | cons ex rest =>
      have hex : ex ∈ data.filter (fun ex => ex.get attr == g.1) := by
        rw [← hf, hd]; exact List.mem_cons_self _ _
      rw [List.mem_filter] at hex
      exact ⟨ex, hex.1, by rw [← hv]; simpa using hex.2⟩
  · rintro ⟨ex, hex, rfl⟩
    exact (groupByValue_spec attr data).2.2 ex hex

/-! ### The shape of the tree that `buildID3` returns -/

theorem forall₂_imp_mem {α β : Type} {R S : α → β → Prop} {l₁ : List α} {l₂ : List β}
    (h : List.Forall₂ R l₁ l₂) (himp : ∀ a b, a ∈ l₁ → R a b → S a b) :
    List.Forall₂ S l₁ l₂ := by
  induction h with
  | nil => exact List.Forall₂.nil
  | cons hh _ ih =>
    exact List.Forall₂.cons (himp _ _ (List.mem_cons_self _ _) hh)
      (ih (fun a b ha => himp a b (List.mem_cons_of_mem _ ha)))

theorem buildChildren_entries (f : List Example → Option Node) (maj : String) (depth : Int) :
    ∀ (groups : List (String × List Example)) (ch : ChildMap),
      (∀ g ∈ groups, g.2 ≠ []) → buildChildren f maj depth groups = some ch →
      List.Forall₂ (fun (g : String × List Example) (e : String × Node) =>
        e.1 = g.1 ∧ f g.2 = some e.2) groups ch.entries := by
  intro groups
  induction groups with
  | nil =>
    intro ch _ h
    simp only [buildChildren, Option.some.injEq] at h
    subst h
    exact List.Forall₂.nil
  | cons g rest ih =>
    obtain ⟨v, subset⟩ := g
    intro ch hne h
    simp only [buildChildren] at h
    split at h
    · rename_i c r hc hr
      simp only [Option.some.injEq] at h
      subst h
      have hs : ¬ subset.length = 0 := by
        have := hne (v, subset) (List.mem_cons_self _ _)
        simpa using this
      rw [if_neg hs] at hc
      exact List.Forall₂.cons ⟨rfl, hc⟩
        (ih r (fun g hg => hne g (List.mem_cons_of_mem _ hg)) hr)
    · exact absurd h (by simp)

theorem entries_keys : ∀ ch : ChildMap, ch.entries.map Prod.fst = ch.keys
  | .nil => rfl
  | .cons v c rest => by
    simp only [ChildMap.entries, ChildMap.keys, List.map_cons, entries_keys rest]

theorem find_of_entries : ∀ (ch : ChildMap) (v : String) (c : Node),
    (ch.entries.map Prod.fst).Nodup → (v, c) ∈ ch.entries → ch.find v = some c
  | .nil, _, _, _, h => by simp [ChildMap.entries] at h
  | .cons k c' rest, v, c, hn, h => by
    simp only [ChildMap.entries, List.map_cons, List.nodup_cons] at hn
    simp only [ChildMap.entries, List.mem_cons, Prod.mk.injEq] at h
    simp only [ChildMap.find]
    rcases h with ⟨h1, h2⟩ | h
    · rw [if_pos h1.symm, h2]
    · have hne : ¬ k = v := by
        intro hkv
        exact hn.1 (hkv ▸ List.mem_map_of_mem Prod.fst h)
      rw [if_neg hne]
      exact find_of_entries rest v c hn.2 h

theorem buildID3_data_ne {F : Type} (fo : FloatOps F) (mi : MapIter) (ds : Dataset)
    (cfg : Config F) (depth : Int) (t : Node) (ht : buildID3 fo mi ds cfg depth = some t) :
    ds.Data ≠ [] := by
  intro hd
  rw [buildID3_unfold] at ht
  unfold buildID3Step at ht
  simp [hd, isPure] at ht

/-- The two shapes of a tree that `buildID3` returns: a leaf that carries the majority
class of the dataset, or an Internal node on the best attribute whose children the loop
over `groupByValue` has built. -/
theorem buildID3_cases {F : Type} (fo : FloatOps F) (mi : MapIter) (ds : Dataset)
    (cfg : Config F) (depth : Int) (t : Node) (ht : buildID3 fo mi ds cfg depth = some t) :
    (∃ label, t = Node.leaf label (majorityClass mi ds.Data ds.ClassAttr) depth) ∨
    (∃ ch, t = Node.mk false "" (bestSplit fo mi ds).1 ch
              (majorityClass mi ds.Data ds.ClassAttr) depth ∧
      (bestSplit fo mi ds).1 ≠ "" ∧
      buildChildren
        (fun subset => buildID3 fo mi
          { ds with Attrs := ds.Attrs.filter (fun a => a != (bestSplit fo mi ds).1),
                    Data := subset } cfg (depth + 1))
        (majorityClass mi ds.Data ds.ClassAttr) depth
        (groupByValue ds.Data (bestSplit fo mi ds).1) = some ch) := by
  rw [buildID3_unfold] at ht
  unfold buildID3Step at ht
  simp only at ht
  split_ifs at ht with h1 h2 h3 h4 h5
  · split at ht
    · exact absurd ht (by simp)
    · simp only [Option.some.injEq] at ht
      exact Or.inl ⟨_, ht.symm⟩
  · simp only [Option.some.injEq] at ht
    exact Or.inl ⟨_, ht.symm⟩
  · simp only [Option.some.injEq] at ht
    exact Or.inl ⟨_, ht.symm⟩
  · simp only [Option.some.injEq] at ht
    exact Or.inl ⟨_, ht.symm⟩
  · simp only [Option.some.injEq] at ht
    exact Or.inl ⟨_, ht.symm⟩
  · split at ht
    · rename_i ch hch
      simp only [Option.some.injEq] at ht
      exact Or.inr ⟨ch, ht.symm, h4, hch⟩
    · exact absurd ht (by simp)

/-- Induction over the recursion of `buildID3`: a property that holds of every leaf on a
non-empty dataset, and of an Internal node whenever it holds of the children built from
the groups of the split, holds of every tree that `buildID3` returns. -/
theorem buildID3_induction {F : Type} (fo : FloatOps F) (mi : MapIter) (cfg : Config F)
    (P : Dataset → Int → Node → Prop)
    (hleaf : ∀ (ds : Dataset) (depth : Int) (label : String), ds.Data ≠ [] →
      P ds depth (Node.leaf label (majorityClass mi ds.Data ds.ClassAttr) depth))
    (hnode : ∀ (ds : Dataset) (depth : Int) (ch : ChildMap), ds.Data ≠ [] →
      (bestSplit fo mi ds).1 ∈ ds.Attrs →
      List.Forall₂ (fun (g : String × List Example) (e : String × Node) =>
        e.1 = g.1 ∧ g.2 ≠ [] ∧
        g.2 = ds.Data.filter (fun ex => ex.get (bestSplit fo mi ds).1 == g.1) ∧
        P { ds with Attrs := ds.Attrs.filter (fun a => a != (bestSplit fo mi ds).1),
                    Data := g.2 } (depth + 1) e.2)
        (groupByValue ds.Data (bestSplit fo mi ds).1) ch.entries →
      P ds depth (Node.mk false "" (bestSplit fo mi ds).1 ch
        (majorityClass mi ds.Data ds.ClassAttr) depth)) :
    ∀ (n : Nat) (ds : Dataset) (depth : Int) (t : Node), ds.Attrs.length ≤ n →
      buildID3 fo mi ds cfg depth = some t → P ds depth t := by
  intro n
  induction n with
  | zero =>
    intro ds depth t hlen ht
    have hne := buildID3_data_ne fo mi ds cfg depth t ht
    rcases buildID3_cases fo mi ds cfg depth t ht with ⟨label, rfl⟩ | ⟨ch, _, hb, _⟩
    · exact hleaf ds depth label hne
    · have := remaining_length_lt fo mi ds hb
      omega
  | succ n ih =>
    intro ds depth t hlen ht
    have hne := buildID3_data_ne fo mi ds cfg depth t ht
    rcases buildID3_cases fo mi ds cfg depth t ht with ⟨label, rfl⟩ | ⟨ch, rfl, hb, hch⟩
    · exact hleaf ds depth label hne
    · have hmem : (bestSplit fo mi ds).1 ∈ ds.Attrs := by
        rcases bestSplit_mem fo mi ds with h | h
        · exact absurd h hb
        · exact h
      have hlt := remaining_length_lt fo mi ds hb
      have hspec := (groupByValue_spec (bestSplit fo mi ds).1 ds.Data).2.1
      have hent := buildChildren_entries _ _ _ _ ch (fun g hg => (hspec g hg).1) hch
      apply hnode ds depth ch hne hmem
      refine forall₂_imp_mem hent ?_
      intro g e hg hh
      exact ⟨hh.1, (hspec g hg).1, (hspec g hg).2, ih _ _ _ (by simp only; omega) hh.2⟩

theorem forall₂_mem_right {α β : Type} {R : α → β → Prop} {l₁ : List α} {l₂ : List β}
    (h : List.Forall₂ R l₁ l₂) : ∀ b ∈ l₂, ∃ a ∈ l₁, R a b := by
  induction h with
  | nil => intro b hb; simp at hb
  | cons hh _ ih =>
    intro b hb
    rcases List.mem_cons.mp hb with rfl | hb
    · exact ⟨_, List.mem_cons_self _ _, hh⟩
    · obtain ⟨a, ha, hr⟩ := ih b hb
      exact ⟨a, List.mem_cons_of_mem _ ha, hr⟩

theorem forall₂_map_fst {β γ : Type} {R : String × β → String × γ → Prop}
    {l₁ : List (String × β)} {l₂ : List (String × γ)}
    (h : List.Forall₂ R l₁ l₂) (hR : ∀ a b, R a b → b.1 = a.1) :
    l₂.map Prod.fst = l₁.map Prod.fst := by
  induction h with
  | nil => rfl
  | cons hh _ ih => simp only [List.map_cons, ih, hR _ _ hh]

/-! ### Children of an Internal node -/

/-- C21: when `buildID3` returns an Internal node on attribute `a` for `ds`, the keys of
its `Children` are exactly the values that `a` takes among the examples of `ds`, each
once, and the child under `v` is the tree that `buildID3` returns at `depth + 1` for the
examples with `a = v` and the attribute list with `a` removed. -/
theorem C21_children_partition_by_value {F : Type} (fo : FloatOps F) (mi : MapIter)
    (ds : Dataset) (cfg : Config F) (depth : Int) (t : Node)
    (ht : buildID3 fo mi ds cfg depth = some t) (hi : t.IsLeaf = false) :
    (∀ v, v ∈ t.Children.keys ↔ ∃ ex ∈ ds.Data, ex.get t.Attr = v) ∧
    t.Children.keys.Nodup ∧
    (∀ v ∈ t.Children.keys, ∃ child, t.Children.find v = some child ∧
      buildID3 fo mi
        { ds with Attrs := ds.Attrs.filter (fun a => a != t.Attr),
                  Data := ds.Data.filter (fun ex => ex.get t.Attr == v) } cfg (depth + 1)
        = some child) := by
  rcases buildID3_cases fo mi ds cfg depth t ht with ⟨label, rfl⟩ | ⟨ch, rfl, hb, hch⟩
  · exact absurd hi (by simp [Node.leaf, Node.IsLeaf])
  · simp only [Node.Children, Node.Attr]
    obtain ⟨hnd, hspec, _⟩ := groupByValue_spec (bestSplit fo mi ds).1 ds.Data
    have hent := buildChildren_entries _ _ _ _ ch (fun g hg => (hspec g hg).1) hch
    have hkeys : ch.keys = (groupByValue ds.Data (bestSplit fo mi ds).1).map Prod.fst := by
      rw [← entries_keys]
      exact forall₂_map_fst hent (fun _ _ h => h.1)
    refine ⟨?_, ?_, ?_⟩
    · intro v
      rw [hkeys]
      exact groupByValue_keys _ _ v
    · rw [hkeys]; exact hnd
    · intro v hv
      rw [← entries_keys] at hv
      obtain ⟨e, he, hev⟩ := List.mem_map.mp hv
      obtain ⟨g, hg, hge, hf⟩ := forall₂_mem_right hent e he
      refine ⟨e.2, ?_, ?_⟩
      · apply find_of_entries ch v e.2
        · rw [entries_keys, hkeys]; exact hnd
        · rw [← hev]; exact he
      · rw [(hspec g hg).2, ← hge, hev] at hf
        exact hf

/-- C21 at a concrete input: the scenario dataset splits on `outlook` into the children
`sunny`, `overcast` and `rain`. -/
theorem C21_children_partition_by_value_witness :
    buildID3 exactOps MapIter.insertion scenarioData noPruning 0 = some (scenarioTree "no") ∧
    (scenarioTree "no").IsLeaf = false ∧
    (∀ v, v ∈ (scenarioTree "no").Children.keys
      ↔ ∃ ex ∈ scenarioData.Data, ex.get (scenarioTree "no").Attr = v) ∧
    (scenarioTree "no").Children.keys.Nodup ∧
    (∀ v ∈ (scenarioTree "no").Children.keys, ∃ child,
      (scenarioTree "no").Children.find v = some child ∧
      buildID3 exactOps MapIter.insertion
        { scenarioData with
            Attrs := scenarioData.Attrs.filter (fun a => a != (scenarioTree "no").Attr),
            Data := scenarioData.Data.filter
              (fun ex => ex.get (scenarioTree "no").Attr == v) } noPruning (0 + 1)
        = some child) :=
  ⟨by decide!, rfl,
    C21_children_partition_by_value exactOps MapIter.insertion scenarioData noPruning 0
      (scenarioTree "no") (by decide!) rfl⟩

/-! ### Recursive calls -/

theorem buildChildren_fallback_unused (f : List Example → Option Node)
    (maj maj' : String) (depth depth' : Int) :
    ∀ groups : List (String × List Example), (∀ g ∈ groups, g.2 ≠ []) →
      buildChildren f maj depth groups = buildChildren f maj' depth' groups := by
  intro groups
  induction groups with
  | nil => intro _; rfl
  | cons g rest ih =>
    obtain ⟨v, subset⟩ := g
    intro hne
    have hs : ¬ subset.length = 0 := by
      have := hne (v, subset) (List.mem_cons_self _ _)
      simpa using this
    simp only [buildChildren, if_neg hs, ih (fun g hg => hne g (List.mem_cons_of_mem _ hg))]

/-- C27: on a non-empty dataset `buildID3` returns a tree (the access `ds.Data[0]` of the
pure branch is in range); every group over which its loop runs is non-empty, whatever the
attribute, so every recursive call is on a non-empty partition; and the children do not
depend on the majority class and depth that only the empty-subset branch uses, that is,
this branch is never taken. -/
theorem C27_recursive_calls_on_nonempty {F : Type} (fo : FloatOps F) (mi : MapIter)
    (ds : Dataset) (cfg : Config F) (depth : Int) (hne : ds.Data ≠ []) :
    (∃ t, buildID3 fo mi ds cfg depth = some t) ∧
    (∀ a, ∀ g ∈ groupByValue ds.Data a,
      g.2 ≠ [] ∧ ∃ t, buildID3 fo mi
        { ds with Attrs := ds.Attrs.filter (fun b => b != a), Data := g.2 } cfg (depth + 1)
          = some t) ∧
    (∀ (f : List Example → Option Node) (a maj : String) (d : Int),
      buildChildren f (majorityClass mi ds.Data ds.ClassAttr) depth (groupByValue ds.Data a)
        = buildChildren f maj d (groupByValue ds.Data a)) := by
  refine ⟨buildID3_isSome fo mi cfg _ ds depth le_rfl hne, ?_, ?_⟩
  · intro a g hg
    have h := ((groupByValue_spec a ds.Data).2.1 g hg).1
    exact ⟨h, buildID3_isSome fo mi cfg _ _ (depth + 1) le_rfl h⟩
  · intro f a maj d
    exact buildChildren_fallback_unused f _ maj depth d _
      (fun g hg => ((groupByValue_spec a ds.Data).2.1 g hg).1)

/-- C27 at a concrete input: the scenario dataset. -/
theorem C27_recursive_calls_on_nonempty_witness :
    scenarioData.Data ≠ [] ∧
    (∃ t, buildID3 exactOps MapIter.insertion scenarioData noPruning 0 = some t) ∧
    (∀ a, ∀ g ∈ groupByValue scenarioData.Data a,
      g.2 ≠ [] ∧ ∃ t, buildID3 exactOps MapIter.insertion
        { scenarioData with Attrs := scenarioData.Attrs.filter (fun b => b != a), Data := g.2 }
          noPruning (0 + 1) = some t) ∧
    (∀ (f : List Example → Option Node) (a maj : String) (d : Int),
      buildChildren f (majorityClass MapIter.insertion scenarioData.Data scenarioData.ClassAttr)
          0 (groupByValue scenarioData.Data a)
        = buildChildren f maj d (groupByValue scenarioData.Data a)) :=
  ⟨by decide, C27_recursive_calls_on_nonempty exactOps MapIter.insertion scenarioData noPruning 0
    (by decide)⟩

/-! ### Depth fields -/

theorem depthsFrom_entries : ∀ (ch : ChildMap) (d : Int),
    ch.depthsFrom d = true ↔ ∀ e ∈ ch.entries, e.2.depthsFrom d = true
  | .nil, d => by simp [ChildMap.depthsFrom, ChildMap.entries]
  | .cons v c rest, d => by
    simp only [ChildMap.depthsFrom, ChildMap.entries, Bool.and_eq_true, List.mem_cons,
      forall_eq_or_imp, depthsFrom_entries rest d]

theorem buildID3_depthsFrom {F : Type} (fo : FloatOps F) (mi : MapIter) (cfg : Config F)
    (ds : Dataset) (depth : Int) (t : Node) (ht : buildID3 fo mi ds cfg depth = some t) :
    t.depthsFrom depth = true := by
  refine buildID3_induction fo mi cfg (fun _ d t => t.depthsFrom d = true) ?_ ?_
    ds.Attrs.length ds depth t le_rfl ht
  · intro ds depth label _
    simp [Node.leaf, Node.depthsFrom, ChildMap.depthsFrom]
  · intro ds depth ch _ _ hall
    simp only [Node.depthsFrom, decide_True, Bool.true_and]
    rw [depthsFrom_entries]
    intro e he
    obtain ⟨g, _, hg⟩ := forall₂_mem_right hall e he
    exact hg.2.2.2

mutual
theorem reducedErrorPrune_depthsFrom : ∀ (t : Node) (val : Dataset) (classAttr : String)
    (d : Int), t.depthsFrom d = true →
    (reducedErrorPrune t val classAttr).depthsFrom d = true
  | .mk isLeaf classLabel attr children maj depth, val, classAttr, d, h => by
    unfold reducedErrorPrune
    by_cases hl : isLeaf = true
    · rw [if_pos hl]; exact h
    · rw [if_neg hl]
      simp only [Node.depthsFrom, Bool.and_eq_true, decide_eq_true_eq] at h
      simp only
      split_ifs
      · simp [Node.leaf, Node.depthsFrom, ChildMap.depthsFrom, h.1]
      · simp only [Node.depthsFrom, Bool.and_eq_true, decide_eq_true_eq]
        exact ⟨h.1, pruneChildren_depthsFrom children val classAttr (d + 1) h.2⟩
theorem pruneChildren_depthsFrom : ∀ (ch : ChildMap) (val : Dataset) (classAttr : String)
    (d : Int), ch.depthsFrom d = true → (pruneChildren ch val classAttr).depthsFrom d = true
  | .nil, _, _, _, _ => by simp [pruneChildren, ChildMap.depthsFrom]
  | .cons k c rest, val, classAttr, d, h => by
    simp only [ChildMap.depthsFrom, Bool.and_eq_true] at h
    simp only [pruneChildren, ChildMap.depthsFrom, Bool.and_eq_true]
    exact ⟨reducedErrorPrune_depthsFrom c val classAttr d h.1,
      pruneChildren_depthsFrom rest val classAttr d h.2⟩
end

theorem reducedErrorPrune_Depth (t : Node) (val : Dataset) (classAttr : String) :
    (reducedErrorPrune t val classAttr).Depth = t.Depth := by
  obtain ⟨isLeaf, classLabel, attr, children, maj, depth⟩ := t
  unfold reducedErrorPrune
  simp only
  split_ifs <;> rfl

theorem depthsFrom_child : ∀ (ch : ChildMap) (d : Int) (v : String) (c : Node),
    ch.depthsFrom d = true → ch.find v = some c → c.Depth = d ∧ c.depthsFrom d = true
  | .nil, _, _, _, _, hf => by simp [ChildMap.find] at hf
  | .cons k c' rest, d, v, c, h, hf => by
    simp only [ChildMap.depthsFrom, Bool.and_eq_true] at h
    simp only [ChildMap.find] at hf
    split_ifs at hf with hk
    · simp only [Option.some.injEq] at hf
      subst hf
      refine ⟨?_, h.1⟩
      obtain ⟨_, _, _, _, _, depth⟩ := c'
      have := h.1
      simp only [Node.depthsFrom, Bool.and_eq_true, decide_eq_true_eq] at this
      exact this.1
    · exact depthsFrom_child rest d v c h.2 hf

/-- C23: in the tree that `buildID3` returns for depth `depth` (0 at the top call) the
root has `Depth = depth` and, all the way down, every child has the `Depth` of its
parent plus 1; `reducedErrorPrune` returns a tree with the same root `Depth` in which
this still holds, so a replacing leaf keeps the `Depth` of the node that it replaces. -/
theorem C23_depth_fields {F : Type} (fo : FloatOps F) (mi : MapIter) (cfg : Config F)
    (ds : Dataset) (depth : Int) (t : Node) (ht : buildID3 fo mi ds cfg depth = some t) :
    t.Depth = depth ∧ t.depthsFrom depth = true ∧
    (∀ v c, t.Children.find v = some c → c.Depth = t.Depth + 1) ∧
    ∀ (val : Dataset) (classAttr : String),
      (reducedErrorPrune t val classAttr).Depth = depth ∧
      (reducedErrorPrune t val classAttr).depthsFrom depth = true := by
  have h := buildID3_depthsFrom fo mi cfg ds depth t ht
  have hd : t.Depth = depth := by
    obtain ⟨_, _, _, _, _, d⟩ := t
    simp only [Node.depthsFrom, Bool.and_eq_true, decide_eq_true_eq] at h
    exact h.1
  refine ⟨hd, h, ?_, ?_⟩
  · intro v c hc
    obtain ⟨_, _, _, ch, _, d⟩ := t
    simp only [Node.depthsFrom, Bool.and_eq_true, decide_eq_true_eq] at h
    simp only [Node.Children] at hc
    simp only [Node.Depth] at hd ⊢
    rw [hd]
    exact (depthsFrom_child ch (depth + 1) v c h.2 hc).1
  · intro val classAttr
    exact ⟨by rw [reducedErrorPrune_Depth, hd],
      reducedErrorPrune_depthsFrom t val classAttr depth h⟩

/-- C23 at a concrete input: the tree of the scenario dataset, built at depth 0. -/
theorem C23_depth_fields_witness :
    buildID3 exactOps MapIter.insertion scenarioData noPruning 0 = some (scenarioTree "no") ∧
    (scenarioTree "no").Depth = 0 ∧ (scenarioTree "no").depthsFrom 0 = true ∧
    (∀ v c, (scenarioTree "no").Children.find v = some c
      → c.Depth = (scenarioTree "no").Depth + 1) ∧
    ∀ (val : Dataset) (classAttr : String),
      (reducedErrorPrune (scenarioTree "no") val classAttr).Depth = 0 ∧
      (reducedErrorPrune (scenarioTree "no") val classAttr).depthsFrom 0 = true :=
  ⟨by decide!, C23_depth_fields exactOps MapIter.insertion noPruning scenarioData 0
    (scenarioTree "no") (by decide!)⟩

/-! ### Height and attributes along a path -/

theorem height_entries : ∀ (ch : ChildMap) (n : Nat),
    ch.height ≤ n ↔ ∀ e ∈ ch.entries, e.2.height ≤ n
  | .nil, n => by simp [ChildMap.height, ChildMap.entries]
  | .cons v c rest, n => by
    simp only [ChildMap.height, ChildMap.entries, max_le_iff, List.mem_cons,
      forall_eq_or_imp, height_entries rest n]

theorem noRepeat_entries : ∀ (ch : ChildMap) (used : List String),
    ch.noRepeat used = true ↔ ∀ e ∈ ch.entries, e.2.noRepeat used = true
  | .nil, used => by simp [ChildMap.noRepeat, ChildMap.entries]
  | .cons v c rest, used => by
    simp only [ChildMap.noRepeat, ChildMap.entries, Bool.and_eq_true, List.mem_cons,
      forall_eq_or_imp, noRepeat_entries rest used]

theorem buildID3_height_noRepeat {F : Type} (fo : FloatOps F) (mi : MapIter) (cfg : Config F)
    (ds : Dataset) (depth : Int) (t : Node) (ht : buildID3 fo mi ds cfg depth = some t) :
    t.height ≤ ds.Attrs.length ∧
    ∀ used : List String, (∀ a ∈ used, a ∉ ds.Attrs) → t.noRepeat used = true := by
  refine buildID3_induction fo mi cfg
    (fun ds _ t => t.height ≤ ds.Attrs.length ∧
      ∀ used : List String, (∀ a ∈ used, a ∉ ds.Attrs) → t.noRepeat used = true) ?_ ?_
    ds.Attrs.length ds depth t le_rfl ht
  · intro ds depth label _
    simp [Node.leaf, Node.height, Node.noRepeat]
  · intro ds depth ch _ hmem hall
    have hlt : (ds.Attrs.filter (fun a => a != (bestSplit fo mi ds).1)).length
        < ds.Attrs.length := by
      apply List.length_filter_lt_length_iff_exists.mpr
      exact ⟨_, hmem, by simp⟩
    constructor
    · simp only [Node.height, Bool.false_eq_true, if_false]
      have : ch.height ≤ (ds.Attrs.filter (fun a => a != (bestSplit fo mi ds).1)).length := by
        rw [height_entries]
        intro e he
        obtain ⟨g, _, hg⟩ := forall₂_mem_right hall e he
        exact hg.2.2.2.1
      omega
    · intro used hused
      simp only [Node.noRepeat, Bool.false_or, Bool.and_eq_true, Bool.not_eq_true',
        List.contains_eq_any_beq, List.any_eq_false, beq_iff_eq]
      constructor
      · intro a ha hab
        exact hused a ha (hab ▸ hmem)
      · rw [noRepeat_entries]
        intro e he
        obtain ⟨g, _, hg⟩ := forall₂_mem_right hall e he
        apply hg.2.2.2.2
        intro a ha
        simp only [List.mem_filter, bne_iff_ne, ne_eq, not_and, not_not]
        rcases List.mem_cons.mp ha with rfl | ha
        · intro _; trivial
        · intro h; exact absurd h (hused a ha)

/-- C24: on every non-empty dataset `buildID3` returns a tree; every recursive call is
on an attribute list strictly shorter than `ds.Attrs`; the height of the tree is at most
the number of attributes of `ds.Attrs`; and no path from the root to a leaf tests an
attribute twice. -/
theorem C24_terminates_with_bounded_height {F : Type} (fo : FloatOps F) (mi : MapIter)
    (cfg : Config F) (ds : Dataset) (depth : Int) (hne : ds.Data ≠ []) :
    ∃ t, buildID3 fo mi ds cfg depth = some t ∧
      t.height ≤ ds.Attrs.length ∧ t.noRepeat [] = true ∧
      (t.IsLeaf = false →
        (ds.Attrs.filter (fun a => a != t.Attr)).length < ds.Attrs.length) := by
  obtain ⟨t, ht⟩ := buildID3_isSome fo mi cfg _ ds depth le_rfl hne
  obtain ⟨h1, h2⟩ := buildID3_height_noRepeat fo mi cfg ds depth t ht
  refine ⟨t, ht, h1, h2 [] (by simp), ?_⟩
  intro hi
  obtain ⟨ha, hb⟩ := buildID3_internal_attr fo mi ds cfg depth t ht hi
  rw [ha]
  exact remaining_length_lt fo mi ds hb

/-- C24 at a concrete input: the scenario dataset, of two attributes. -/
theorem C24_terminates_with_bounded_height_witness :
    scenarioData.Data ≠ [] ∧
    ∃ t, buildID3 exactOps MapIter.insertion scenarioData noPruning 0 = some t ∧
      t.height ≤ scenarioData.Attrs.length ∧ t.noRepeat [] = true ∧
      (t.IsLeaf = false →
        (scenarioData.Attrs.filter (fun a => a != t.Attr)).length
          < scenarioData.Attrs.length) :=
  ⟨by decide, C24_terminates_with_bounded_height exactOps MapIter.insertion noPruning
    scenarioData 0 (by decide)⟩

/-! ### The majority class of a node -/

theorem classCount_pos_iff (classAttr c : String) (data : List Example) :
    1 ≤ classCount classAttr c data ↔ ∃ ex ∈ data, ex.get classAttr = c := by
  unfold classCount
  rw [Nat.succ_le_iff, List.countP_pos_iff]
  simp

theorem isMostFrequent_iff (classAttr c : String) (data : List Example) :
    isMostFrequent classAttr c data = true ↔
      1 ≤ classCount classAttr c data ∧
      ∀ c', classCount classAttr c' data ≤ classCount classAttr c data := by
  simp only [isMostFrequent, Bool.and_eq_true, decide_eq_true_eq, List.all_eq_true]
  constructor
  · rintro ⟨h1, h2⟩
    refine ⟨h1, fun c' => ?_⟩
    by_cases hc : 1 ≤ classCount classAttr c' data
    · obtain ⟨ex, hex, rfl⟩ := (classCount_pos_iff classAttr c' data).mp hc
      exact h2 ex hex
    · omega
  · rintro ⟨h1, h2⟩
    exact ⟨h1, fun ex _ => h2 _⟩

theorem majorityOK_entries (classAttr attr : String) (data : List Example) :
    ∀ ch : ChildMap, ch.majorityOK classAttr attr data = true ↔
      ∀ e ∈ ch.entries,
        e.2.majorityOK classAttr (data.filter (fun ex => ex.get attr == e.1)) = true
  | .nil => by simp [ChildMap.majorityOK, ChildMap.entries]
  | .cons v c rest => by
    simp only [ChildMap.majorityOK, ChildMap.entries, Bool.and_eq_true, List.mem_cons,
      forall_eq_or_imp, majorityOK_entries classAttr attr data rest]

theorem buildID3_majorityOK {F : Type} (fo : FloatOps F) (mi : MapIter) (cfg : Config F)
    (ds : Dataset) (depth : Int) (t : Node) (ht : buildID3 fo mi ds cfg depth = some t) :
    t.majorityOK ds.ClassAttr ds.Data = true := by
  refine buildID3_induction fo mi cfg (fun ds _ t => t.majorityOK ds.ClassAttr ds.Data = true)
    ?_ ?_ ds.Attrs.length ds depth t le_rfl ht
  · intro ds depth label hne
    simp only [Node.leaf, Node.majorityOK, Bool.true_or, Bool.and_true]
    exact (isMostFrequent_iff _ _ _).mpr (majorityClass_spec mi ds.Data ds.ClassAttr hne)
  · intro ds depth ch hne _ hall
    simp only [Node.majorityOK, Bool.false_or, Bool.and_eq_true]
    refine ⟨(isMostFrequent_iff _ _ _).mpr (majorityClass_spec mi ds.Data ds.ClassAttr hne), ?_⟩
    rw [majorityOK_entries]
    intro e he
    obtain ⟨g, _, hg⟩ := forall₂_mem_right hall e he
    have h := hg.2.2.2
    simp only at h
    rw [hg.2.2.1, ← hg.1] at h
    exact h

mutual
theorem reducedErrorPrune_majorityOK (trainAttr : String) : ∀ (t : Node) (val : Dataset)
    (classAttr : String) (data : List Example), t.majorityOK trainAttr data = true →
    (reducedErrorPrune t val classAttr).majorityOK trainAttr data = true
  | .mk isLeaf classLabel attr children maj depth, val, classAttr, data, h => by
    unfold reducedErrorPrune
    by_cases hl : isLeaf = true
    · rw [if_pos hl]; exact h
    · rw [if_neg hl]
      simp only [Node.majorityOK, Bool.and_eq_true, Bool.or_eq_true] at h
      simp only
      split_ifs
      · simp [Node.leaf, Node.majorityOK, h.1]
      · simp only [Node.majorityOK, Bool.and_eq_true, Bool.or_eq_true]
        refine ⟨h.1, Or.inr ?_⟩
        rcases h.2 with h2 | h2
        · exact absurd h2 hl
        · exact pruneChildren_majorityOK trainAttr children val classAttr attr data h2
theorem pruneChildren_majorityOK (trainAttr : String) : ∀ (ch : ChildMap) (val : Dataset)
    (classAttr attr : String) (data : List Example),
    ch.majorityOK trainAttr attr data = true →
    (pruneChildren ch val classAttr).majorityOK trainAttr attr data = true
  | .nil, _, _, _, _, _ => by simp [pruneChildren, ChildMap.majorityOK]
  | .cons k c rest, val, classAttr, attr, data, h => by
    simp only [ChildMap.majorityOK, Bool.and_eq_true] at h
    simp only [pruneChildren, ChildMap.majorityOK, Bool.and_eq_true]
    exact ⟨reducedErrorPrune_majorityOK trainAttr c val classAttr _ h.1,
      pruneChildren_majorityOK trainAttr rest val classAttr attr data h.2⟩
end

/-- The root that `reducedErrorPrune` returns: the root itself with pruned children, or
a leaf whose label and majority class are the majority class of the root. -/
theorem reducedErrorPrune_root (t : Node) (val : Dataset) (classAttr : String) :
    (reducedErrorPrune t val classAttr).MajorityClass = t.MajorityClass ∧
    (reducedErrorPrune t val classAttr = t ∨
     reducedErrorPrune t val classAttr
       = Node.mk t.IsLeaf t.ClassLabel t.Attr (pruneChildren t.Children val classAttr)
           t.MajorityClass t.Depth ∨
     reducedErrorPrune t val classAttr = Node.leaf t.MajorityClass t.MajorityClass t.Depth) := by
  obtain ⟨isLeaf, classLabel, attr, children, maj, depth⟩ := t
  unfold reducedErrorPrune
  simp only [Node.IsLeaf, Node.ClassLabel, Node.Attr, Node.Children, Node.MajorityClass,
    Node.Depth]
  split_ifs
  · exact ⟨rfl, Or.inl rfl⟩
  · exact ⟨rfl, Or.inr (Or.inr rfl)⟩
  · exact ⟨rfl, Or.inr (Or.inl rfl)⟩

/-- C22: for every non-empty dataset and Config `buildID3` returns a tree in which every
node, leaf or Internal, carries in `MajorityClass` a most frequent class label of the
training examples that reach it (at the root: a label that occurs in `ds.Data` and that
no label outnumbers); the tree that `reducedErrorPrune` makes of it has the same
property for the same training examples, and at every node `reducedErrorPrune` either
keeps the node (with pruned children) or puts a leaf whose `ClassLabel` and
`MajorityClass` are both the `MajorityClass` of the node. -/
theorem C22_majority_class_of_every_node {F : Type} (fo : FloatOps F) (mi : MapIter)
    (cfg : Config F) (ds : Dataset) (depth : Int) (hne : ds.Data ≠ []) :
    ∃ t, buildID3 fo mi ds cfg depth = some t ∧
      t.majorityOK ds.ClassAttr ds.Data = true ∧
      (1 ≤ classCount ds.ClassAttr t.MajorityClass ds.Data ∧
        ∀ c, classCount ds.ClassAttr c ds.Data
          ≤ classCount ds.ClassAttr t.MajorityClass ds.Data) ∧
      (∀ (val : Dataset) (classAttr : String),
        (reducedErrorPrune t val classAttr).majorityOK ds.ClassAttr ds.Data = true) ∧
      ∀ (u : Node) (val : Dataset) (classAttr : String),
        (reducedErrorPrune u val classAttr).MajorityClass = u.MajorityClass ∧
        (reducedErrorPrune u val classAttr = u ∨
         reducedErrorPrune u val classAttr
           = Node.mk u.IsLeaf u.ClassLabel u.Attr (pruneChildren u.Children val classAttr)
               u.MajorityClass u.Depth ∨
         reducedErrorPrune u val classAttr
           = Node.leaf u.MajorityClass u.MajorityClass u.Depth) := by
  obtain ⟨t, ht⟩ := buildID3_isSome fo mi cfg _ ds depth le_rfl hne
  have hok := buildID3_majorityOK fo mi cfg ds depth t ht
  refine ⟨t, ht, hok, ?_, fun val classAttr =>
    reducedErrorPrune_majorityOK ds.ClassAttr t val classAttr ds.Data hok,
    reducedErrorPrune_root⟩
  obtain ⟨isLeaf, classLabel, attr, children, maj, d⟩ := t
  simp only [Node.majorityOK, Bool.and_eq_true] at hok
  exact (isMostFrequent_iff _ _ _).mp hok.1

/-- C22 at a concrete input: the scenario dataset. -/
theorem C22_majority_class_of_every_node_witness :
    scenarioData.Data ≠ [] ∧
    ∃ t, buildID3 exactOps MapIter.insertion scenarioData noPruning 0 = some t ∧
      t.majorityOK scenarioData.ClassAttr scenarioData.Data = true ∧
      (1 ≤ classCount scenarioData.ClassAttr t.MajorityClass scenarioData.Data ∧
        ∀ c, classCount scenarioData.ClassAttr c scenarioData.Data
          ≤ classCount scenarioData.ClassAttr t.MajorityClass scenarioData.Data) ∧
      (∀ (val : Dataset) (classAttr : String),
        (reducedErrorPrune t val classAttr).majorityOK scenarioData.ClassAttr
          scenarioData.Data = true) ∧
      ∀ (u : Node) (val : Dataset) (classAttr : String),
        (reducedErrorPrune u val classAttr).MajorityClass = u.MajorityClass ∧
        (reducedErrorPrune u val classAttr = u ∨
         reducedErrorPrune u val classAttr
           = Node.mk u.IsLeaf u.ClassLabel u.Attr (pruneChildren u.Children val classAttr)
               u.MajorityClass u.Depth ∨
         reducedErrorPrune u val classAttr
           = Node.leaf u.MajorityClass u.MajorityClass u.Depth) :=
  ⟨by decide, C22_majority_class_of_every_node exactOps MapIter.insertion noPruning
    scenarioData 0 (by decide)⟩

/-! ### Train ratios outside (0, 1) -/

/-- C25 (counterexample): `stratifiedSplit` called with the ratios 2 and -1 on the
seven-example dataset reports nothing and returns a split, with the per-class sizes
adjusted to 3 of 4 and 2 of 3 for ratio 2, and to 1 of 4 and 1 of 3 for ratio -1. -/
theorem C25_counterexample :
    stratifiedSplit exactOps MapIter.insertion rotateRand weatherData 2 0
      = some
        ({ weatherData with
            Data := [[("day", "1"), ("Class", "no")], [("day", "3"), ("Class", "no")],
                     [("day", "5"), ("Class", "no")], [("day", "4"), ("Class", "yes")],
                     [("day", "6"), ("Class", "yes")]] },
         { weatherData with
            Data := [[("day", "7"), ("Class", "no")], [("day", "2"), ("Class", "yes")]] },
         2) ∧
    stratifiedSplit exactOps MapIter.insertion rotateRand weatherData (-1) 0
      = some
        ({ weatherData with
            Data := [[("day", "1"), ("Class", "no")], [("day", "4"), ("Class", "yes")]] },
         { weatherData with
            Data := [[("day", "3"), ("Class", "no")], [("day", "5"), ("Class", "no")],
                     [("day", "7"), ("Class", "no")], [("day", "6"), ("Class", "yes")],
                     [("day", "2"), ("Class", "yes")]] },
         2) := by
  decide!

/-- C25 (amended): `stratifiedSplit` reports no error, whatever the ratio: it always
returns a split, and of every class with `n ≥ 2` examples the first dataset receives
`max(1, min(s, n - 1))` examples, where `s` is the integer that the conversion
`int(math.Round(float64(n) * trainRatio))` yields: exactly one example when `s ≤ 0` and
exactly `n - 1` examples when `s ≥ n`; the other examples of the class go to the second
dataset. The statement is about the converted integer `s`, not about the real product:
`fo.toInt` is an arbitrary function, so it covers every result of the conversion, also the
one Go gives when the rounded product is outside the range of `int`. -/
theorem C25_split_clamps_any_ratio {F σ : Type} (fo : FloatOps F) (mi : MapIter) (R : Rand σ)
    (ds : Dataset) (trainRatio : F) (rng : σ) :
    ∃ a b rng', stratifiedSplit fo mi R ds trainRatio rng = some (a, b, rng') ∧
      ∀ c, 2 ≤ classCount ds.ClassAttr c ds.Data →
        (classCount ds.ClassAttr c a.Data : Int)
          = max 1 (min
              (fo.toInt (fo.round
                (fo.mul (fo.ofInt (classCount ds.ClassAttr c ds.Data)) trainRatio)))
              ((classCount ds.ClassAttr c ds.Data : Int) - 1)) ∧
        (fo.toInt (fo.round (fo.mul (fo.ofInt (classCount ds.ClassAttr c ds.Data)) trainRatio))
            ≤ 0 → classCount ds.ClassAttr c a.Data = 1) ∧
        ((classCount ds.ClassAttr c ds.Data : Int)
            ≤ fo.toInt (fo.round
                (fo.mul (fo.ofInt (classCount ds.ClassAttr c ds.Data)) trainRatio))
          → classCount ds.ClassAttr c a.Data + 1 = classCount ds.ClassAttr c ds.Data) ∧
        classCount ds.ClassAttr c a.Data + classCount ds.ClassAttr c b.Data
          = classCount ds.ClassAttr c ds.Data := by
  obtain ⟨g1, g2, g3⟩ := groupByClass_spec ds.ClassAttr ds.Data
  have hp := mi.perm (groupByClass ds.Data ds.ClassAttr)
  have hnd : ((mi.order (groupByClass ds.Data ds.ClassAttr)).map Prod.fst).Nodup :=
    ((hp.map Prod.fst).nodup_iff).mpr g1
  have hcls : ∀ g ∈ mi.order (groupByClass ds.Data ds.ClassAttr),
      g.2 ≠ [] ∧ ∀ ex ∈ g.2, ex.get ds.ClassAttr = g.1 :=
    fun g hg => g2 g (hp.mem_iff.mp hg)
  have hflat : ((mi.order (groupByClass ds.Data ds.ClassAttr)).map Prod.snd).flatten.Perm
      ds.Data := ((hp.map Prod.snd).flatten).trans g3
  obtain ⟨tr, te, rng', h1, _, _⟩ := splitLoop_spec fo R trainRatio ds.ClassAttr ""
    (mi.order (groupByClass ds.Data ds.ClassAttr)) [] [] rng hnd hcls
  refine ⟨{ ds with Data := tr }, { ds with Data := te }, rng', ?_, ?_⟩
  · simp only [stratifiedSplit, h1]
  · intro c hn
    have hcount : classCount ds.ClassAttr c
        ((mi.order (groupByClass ds.Data ds.ClassAttr)).map Prod.snd).flatten
          = classCount ds.ClassAttr c ds.Data := List.Perm.countP_eq _ hflat
    obtain ⟨tr2, te2, rng2, k1, k2, k3⟩ := splitLoop_spec fo R trainRatio ds.ClassAttr c
      (mi.order (groupByClass ds.Data ds.ClassAttr)) [] [] rng hnd hcls
    rw [h1] at k1
    simp only [Option.some.injEq, Prod.mk.injEq] at k1
    obtain ⟨rfl, rfl, rfl⟩ := k1
    rw [hcount] at k2 k3
    have hne : ¬ classCount ds.ClassAttr c ds.Data = 0 := by omega
    have h0 : classCount ds.ClassAttr c [] = 0 := rfl
    rw [if_neg hne, h0, Nat.zero_add] at k2
    simp only [h0, Nat.zero_add] at k3
    have hclamp := splitPoint_clamp fo (classCount ds.ClassAttr c ds.Data) trainRatio hn
    show (classCount ds.ClassAttr c tr : Int) = _
      ∧ (_ → classCount ds.ClassAttr c tr = 1)
      ∧ (_ → classCount ds.ClassAttr c tr + 1 = classCount ds.ClassAttr c ds.Data)
      ∧ classCount ds.ClassAttr c tr + classCount ds.ClassAttr c te
          = classCount ds.ClassAttr c ds.Data
    refine ⟨?_, ?_, ?_, k3⟩
    · rw [k2, hclamp]
      exact Int.toNat_of_nonneg (le_max_of_le_left (by decide))
    · intro hle
      rw [k2, hclamp]
      have : max 1 (min (fo.toInt (fo.round
          (fo.mul (fo.ofInt (classCount ds.ClassAttr c ds.Data)) trainRatio)))
          ((classCount ds.ClassAttr c ds.Data : Int) - 1)) = 1 := by omega
      rw [this]; rfl
    · intro hge
      rw [k2, hclamp]
      have : max 1 (min (fo.toInt (fo.round
          (fo.mul (fo.ofInt (classCount ds.ClassAttr c ds.Data)) trainRatio)))
          ((classCount ds.ClassAttr c ds.Data : Int) - 1))
            = (classCount ds.ClassAttr c ds.Data : Int) - 1 := by omega
      rw [this]
      omega

/-! ### Fold counts below 2 -/

theorem buildID3_empty {F : Type} (fo : FloatOps F) (mi : MapIter) (ds : Dataset)
    (cfg : Config F) (depth : Int) (hd : ds.Data = []) :
    buildID3 fo mi ds cfg depth = none := by
  rw [buildID3_unfold]
  unfold buildID3Step
  simp [hd, isPure]

theorem order_nil {α : Type} (mi : MapIter) : mi.order ([] : List (String × α)) = [] :=
  List.Perm.eq_nil (mi.perm [])

theorem stratifiedSplit_empty {F σ : Type} (fo : FloatOps F) (mi : MapIter) (R : Rand σ)
    (ds : Dataset) (trainRatio : F) (rng : σ) (hd : ds.Data = []) :
    stratifiedSplit fo mi R ds trainRatio rng
      = some ({ ds with Data := [] }, { ds with Data := [] }, rng) := by
  simp only [stratifiedSplit, hd, groupByClass, List.foldl_nil, order_nil, splitLoop]

/-- On a training set without examples `trainWithOptionalPostPruning` panics, with
post-pruning or without: `buildID3` indexes `ds.Data[0]` of an empty slice. -/
theorem trainWithOptionalPostPruning_empty {F σ : Type} (fo : FloatOps F) (mi : MapIter)
    (R : Rand σ) (train : Dataset) (cfg : Config F) (rng : σ) (hd : train.Data = []) :
    trainWithOptionalPostPruning fo mi R train cfg rng = none := by
  unfold trainWithOptionalPostPruning
  split_ifs
  · rw [stratifiedSplit_empty fo mi R train _ rng hd]
    simp only [buildID3_empty fo mi { train with Data := [] } cfg 0 rfl]
  · simp only [buildID3_empty fo mi train cfg 0 hd]

theorem foldLoop_zero {σ : Type} (R : Rand σ) (g : String × List Example)
    (rest : List (String × List Example)) (folds : List (List Example)) (rng : σ)
    (hg : g.2 ≠ []) : foldLoop R 0 (g :: rest) folds rng = none := by
  obtain ⟨v, arr⟩ := g
  have hperm := applyPerm_perm R rng arr
  have hne : applyPerm (R.shuffle rng arr.length).1 arr ≠ [] := by
    intro h
    rw [h] at hperm
    exact hg (List.Perm.eq_nil hperm.symm)
  simp only [foldLoop]
  cases hs : applyPerm (R.shuffle rng arr.length).1 arr with
  | nil => exact absurd hs hne
  | cons ex tl => simp [placeInFolds]

/-- C26 (counterexample): `stratifiedKFoldCV` called on the seven-example dataset with 0
folds and with 1 fold reports no error and returns no accuracies: it fails at run time.
With 2 folds the same call returns two accuracies. -/
theorem C26_counterexample :
    weatherData.Data ≠ [] ∧
    stratifiedKFoldCV exactOps MapIter.insertion rotateRand weatherData 0 noPruning 0 = none ∧
    stratifiedKFoldCV exactOps MapIter.insertion rotateRand weatherData 1 noPruning 0 = none ∧
    stratifiedKFoldCV exactOps MapIter.insertion rotateRand weatherData 2 noPruning 0
      = some ([1 / 2, 2 / 3], 2) := by
  decide!

/-- C26 (amended): `stratifiedKFoldCV` checks nothing about `k` and has no error result,
so a fold count of 0 or 1 is not reported: with `k = 0` on any non-empty dataset the call
fails at run time on the division by zero in `i % k`; with `k = 1` it fails at run time in
the first round, where `trainWithOptionalPostPruning` receives the empty complement of the
only fold and `buildID3` indexes `ds.Data[0]`. In neither case are accuracies returned. -/
theorem C26_fold_count_below_two_panics {F σ : Type} (fo : FloatOps F) (mi : MapIter)
    (R : Rand σ) (train : Dataset) (cfg : Config F) (rng : σ) :
    (train.Data ≠ [] → stratifiedKFoldCV fo mi R train 0 cfg rng = none) ∧
    stratifiedKFoldCV fo mi R train 1 cfg rng = none := by
  constructor
  · intro hne
    obtain ⟨_, g2, g3⟩ := groupByClass_spec train.ClassAttr train.Data
    have hp := mi.perm (groupByClass train.Data train.ClassAttr)
    have hgne : mi.order (groupByClass train.Data train.ClassAttr) ≠ [] := by
      intro h
      rw [h] at hp
      have h0 := List.Perm.eq_nil hp.symm
      rw [h0] at g3
      exact hne (List.Perm.eq_nil g3.symm)
    simp only [stratifiedKFoldCV, buildFolds, lt_self_iff_false, if_false, Int.toNat_zero]
    cases hord : mi.order (groupByClass train.Data train.ClassAttr) with
    | nil => exact absurd hord hgne
    | cons g rest =>
      have hg : g.2 ≠ [] :=
        (g2 g (hp.mem_iff.mp (by rw [hord]; exact List.mem_cons_self _ _))).1
      rw [foldLoop_zero R g rest _ rng hg]
  · obtain ⟨folds, rng', hf, hlen, _, _⟩ := buildFolds_spec mi R train 1 rng le_rfl
    simp only [stratifiedKFoldCV, hf]
    have h1 : (1 : Int).toNat = 1 := rfl
    rw [h1] at hlen ⊢
    match folds, hlen with
    | [f], _ =>
      simp only [List.range_succ, List.range_zero, List.nil_append, cvLoop]
      rw [trainWithOptionalPostPruning_empty fo mi R _ cfg rng' (by simp [otherFolds, List.enum])]

/-- C26 (amended) at a concrete input: the seven-example dataset under the default pruning
configuration, with 0 folds and with 1 fold. -/
theorem C26_fold_count_below_two_panics_witness :
    (weatherData.Data ≠ [] →
      stratifiedKFoldCV exactOps MapIter.insertion rotateRand weatherData 0
        (configWith "2" true 10 true 5 true true) 0 = none) ∧
    stratifiedKFoldCV exactOps MapIter.insertion rotateRand weatherData 1
      (configWith "2" true 10 true 5 true true) 0 = none :=
  C26_fold_count_below_two_panics exactOps MapIter.insertion rotateRand weatherData
    (configWith "2" true 10 true 5 true true) 0

/-! ### Training on a set in which every class has one example -/

theorem eq_nil_of_classCount_zero (classAttr : String) (l : List Example)
    (h : ∀ c, classCount classAttr c l = 0) : l = [] := by
  cases l with
  | nil => rfl
  | cons ex rest =>
    have := h (ex.get classAttr)
    simp [classCount] at this

/-- When no class has more than one example, `stratifiedSplit` puts every example into
its second dataset and leaves the first one empty. -/
theorem stratifiedSplit_singleton_classes {F σ : Type} (fo : FloatOps F) (mi : MapIter)
    (R : Rand σ) (ds : Dataset) (trainRatio : F) (rng : σ)
    (h1 : ∀ c, classCount ds.ClassAttr c ds.Data ≤ 1) :
    ∃ b rng', stratifiedSplit fo mi R ds trainRatio rng
      = some ({ ds with Data := [] }, b, rng') := by
  obtain ⟨g1, g2, g3⟩ := groupByClass_spec ds.ClassAttr ds.Data
  have hp := mi.perm (groupByClass ds.Data ds.ClassAttr)
  have hnd : ((mi.order (groupByClass ds.Data ds.ClassAttr)).map Prod.fst).Nodup :=
    ((hp.map Prod.fst).nodup_iff).mpr g1
  have hcls : ∀ g ∈ mi.order (groupByClass ds.Data ds.ClassAttr),
      g.2 ≠ [] ∧ ∀ ex ∈ g.2, ex.get ds.ClassAttr = g.1 :=
    fun g hg => g2 g (hp.mem_iff.mp hg)
  have hflat : ((mi.order (groupByClass ds.Data ds.ClassAttr)).map Prod.snd).flatten.Perm
      ds.Data := ((hp.map Prod.snd).flatten).trans g3
  obtain ⟨tr, te, rng', h, _, _⟩ := splitLoop_spec fo R trainRatio ds.ClassAttr ""
    (mi.order (groupByClass ds.Data ds.ClassAttr)) [] [] rng hnd hcls
  have htr : tr = [] := by
    apply eq_nil_of_classCount_zero ds.ClassAttr
    intro c
    have hcount : classCount ds.ClassAttr c
        ((mi.order (groupByClass ds.Data ds.ClassAttr)).map Prod.snd).flatten
          = classCount ds.ClassAttr c ds.Data := List.Perm.countP_eq _ hflat
    obtain ⟨tr2, te2, rng2, k1, k2, _⟩ := splitLoop_spec fo R trainRatio ds.ClassAttr c
      (mi.order (groupByClass ds.Data ds.ClassAttr)) [] [] rng hnd hcls
    rw [h] at k1
    simp only [Option.some.injEq, Prod.mk.injEq] at k1
    obtain ⟨rfl, rfl, rfl⟩ := k1
    rw [hcount] at k2
    have h0 : classCount ds.ClassAttr c [] = 0 := rfl
    rw [k2, h0]
    split_ifs with hz
    · rfl
    · have hone : classCount ds.ClassAttr c ds.Data = 1 := by
        have := h1 c
        omega
      rw [hone, splitPoint_one]
      rfl
  subst htr
  exact ⟨{ ds with Data := te }, rng', by simp only [stratifiedSplit, h]⟩

theorem classCount_le_one_of_nodup (classAttr : String) (l : List Example)
    (h : (l.map (fun ex => ex.get classAttr)).Nodup) (c : String) :
    classCount classAttr c l ≤ 1 := by
  have hc : classCount classAttr c l = (l.map (fun ex => ex.get classAttr)).count c := by
    simp only [classCount, List.count, List.countP_map]
    rfl
  rw [hc]
  exact List.nodup_iff_count_le_one.mp h c

/-- C28 (the code at the failing inputs): with post-pruning enabled and a training set
in which no two examples share a class label, `trainWithOptionalPostPruning` panics:
`stratifiedSplit` leaves the subtrain part empty and `buildID3` indexes `ds.Data[0]`. -/
theorem C28_training_panics_on_singleton_classes {F σ : Type} (fo : FloatOps F)
    (mi : MapIter) (R : Rand σ) (train : Dataset) (cfg : Config F) (rng : σ)
    (hE : cfg.UsePostE = true)
    (h1 : (train.Data.map (fun ex => ex.get train.ClassAttr)).Nodup) :
    trainWithOptionalPostPruning fo mi R train cfg rng = none := by
  obtain ⟨b, rng', h⟩ := stratifiedSplit_singleton_classes fo mi R train
    (fo.sub (fo.ofInt 1) cfg.ValRatioInTrain) rng
    (classCount_le_one_of_nodup train.ClassAttr train.Data h1)
  unfold trainWithOptionalPostPruning
  rw [if_pos hE, h]
  simp only [buildID3_empty fo mi { train with Data := [] } cfg 0 rfl]

/-- C28 at a concrete input: the non-empty two-example dataset, one example per class,
under the default configuration (mode "2": every pre-pruning rule and post-pruning). -/
theorem C28_training_panics_on_singleton_classes_witness :
    twoClassData.Data ≠ [] ∧
    (configWith "2" true 10 true 5 true true).UsePostE = true ∧
    (twoClassData.Data.map (fun ex => ex.get twoClassData.ClassAttr)).Nodup ∧
    trainWithOptionalPostPruning exactOps MapIter.insertion rotateRand twoClassData
      (configWith "2" true 10 true 5 true true) 0 = none :=
  ⟨by decide, rfl, by decide,
    C28_training_panics_on_singleton_classes exactOps MapIter.insertion rotateRand twoClassData
      (configWith "2" true 10 true 5 true true) 0 rfl (by decide)⟩

/-! ### What the replace-or-keep decision scores -/

/-- C30 (the code at the failing input): `nestedChild` is the Internal node of
`nestedTree` under `A = a1`, with leaves as children. The full tree with the node kept
has validation accuracy 1 and with the node replaced by the leaf `no` only 1/2, so a
decision made on the whole tree keeps the node; `reducedErrorPrune` replaces it, in the
recursive call and in the loop over the root's children, because it scores the subtree
rooted at the node and the leaf alone against the whole validation set, 1/2 against
1/2. -/
theorem C30_decision_scores_subtree :
    nestedTreeWith nestedChild = nestedTree ∧
    (pruneChildren nestedChild.Children nestedVal "Class").entries
      = nestedChild.Children.entries ∧
    accuracy (nestedTreeWith nestedChild) nestedVal = 1 ∧
    accuracy (nestedTreeWith (Node.leaf "no" "no" 1)) nestedVal = 1 / 2 ∧
    reducedErrorPrune nestedChild nestedVal "Class" = Node.leaf "no" "no" 1 ∧
    (pruneChildren nestedTree.Children nestedVal "Class").find "a1"
      = some (Node.leaf "no" "no" 1) ∧
    accuracy nestedChild nestedVal = 1 / 2 ∧
    accuracy (Node.leaf "no" "no" 1) nestedVal = 1 / 2 := by
  decide!

/-! ### The pruning input -/

theorem contains_iff (l : List Char) (c : Char) : l.contains c = true ↔ c ∈ l := by
  simp

theorem any_NKG (l : List Char) :
    l.any (fun c => ['N', 'K', 'G'].contains c)
      = (l.contains 'N' || l.contains 'K' || l.contains 'G') := by
  rw [Bool.eq_iff_iff]
  simp only [List.any_eq_true, Bool.or_eq_true, contains_iff, List.mem_cons,
    List.mem_singleton, List.not_mem_nil, or_false]
  constructor
  · rintro ⟨c, hc, rfl | rfl | rfl⟩
    · exact Or.inl (Or.inl hc)
    · exact Or.inl (Or.inr hc)
    · exact Or.inr hc
  · rintro ((h | h) | h)
    · exact ⟨_, h, Or.inl rfl⟩
    · exact ⟨_, h, Or.inr (Or.inl rfl)⟩
    · exact ⟨_, h, Or.inr (Or.inr rfl)⟩

theorem upperContainsAny_NKG (t : String) :
    upperContainsAny t "NKG"
      = (upperContains t 'N' || upperContains t 'K' || upperContains t 'G') := by
  unfold upperContainsAny upperContains
  exact any_NKG _

/-- One round of the loop over the words: a switch is on afterwards when it was on
before or the word names it and the mode covers it; nothing else changes. -/
theorem parseToken_spec {F : Type} (mode : String) (cfg : Config F) (t : String) :
    parseToken mode cfg t =
      { cfg with
        Pre := { cfg.Pre with
          UseN := cfg.Pre.UseN || (upperContains t 'N' && (mode == "0" || mode == "2")),
          UseK := cfg.Pre.UseK || (upperContains t 'K' && (mode == "0" || mode == "2")),
          UseG := cfg.Pre.UseG || (upperContains t 'G' && (mode == "0" || mode == "2")) },
        UsePostE := cfg.UsePostE || (upperContains t 'E' && (mode == "1" || mode == "2")) } := by
  obtain ⟨m, ⟨n, nn, k, kk, g, gg⟩, e, seed, tr, vr, fl, mp⟩ := cfg
  unfold parseToken
  rw [upperContainsAny_NKG]
  cases upperContains t 'N' <;> cases upperContains t 'K' <;> cases upperContains t 'G' <;>
    cases upperContains t 'E' <;> cases (mode == "0" || mode == "2") <;>
    cases (mode == "1" || mode == "2") <;> simp

theorem or_and_or_and (n a r p : Bool) : (n || a && p || r && p) = (n || (a || r) && p) := by
  cases n <;> cases a <;> cases r <;> cases p <;> rfl

/-- The loop over the words: a switch is on afterwards when it was on before or a word
names it and the mode covers it; nothing else changes. -/
theorem parseTokens_spec {F : Type} (mode : String) :
    ∀ (toks : List String) (cfg : Config F),
      toks.foldl (parseToken mode) cfg =
        { cfg with
          Pre := { cfg.Pre with
            UseN := cfg.Pre.UseN || (named toks 'N' && (mode == "0" || mode == "2")),
            UseK := cfg.Pre.UseK || (named toks 'K' && (mode == "0" || mode == "2")),
            UseG := cfg.Pre.UseG || (named toks 'G' && (mode == "0" || mode == "2")) },
          UsePostE := cfg.UsePostE || (named toks 'E' && (mode == "1" || mode == "2")) } := by
  intro toks
  induction toks with
  | nil =>
    intro cfg
    obtain ⟨m, ⟨n, nn, k, kk, g, gg⟩, e, seed, tr, vr, fl, mp⟩ := cfg
    simp [named]
  | cons t rest ih =>
    intro cfg
    obtain ⟨m, ⟨n, nn, k, kk, g, gg⟩, e, seed, tr, vr, fl, mp⟩ := cfg
    rw [List.foldl_cons, parseToken_spec, ih]
    simp only [named, List.any_cons, or_and_or_and]

/-- C29 (counterexample): with the subset `K` given in mode "2", post-pruning E is
enabled although no word names it, and with the subset `E` given the rules N, K and G
are enabled although no word names them. -/
theorem C29_counterexample :
    fields "2 K" = ["2", "K"] ∧ named ["K"] 'E' = false ∧
    toggles (parseInputPruning "2 K" defaultConfig) = (false, true, false, true) ∧
    fields "2 E" = ["2", "E"] ∧
    named ["E"] 'N' = false ∧ named ["E"] 'K' = false ∧ named ["E"] 'G' = false ∧
    toggles (parseInputPruning "2 E" defaultConfig) = (true, true, true, true) := by
  decide!

/-- The switches after a mode "0" or "2" followed by at least one word: the pre-pruning
rules that the words name, all three when they name none; E off in mode "0" and on in
mode "2". -/
theorem parseParts_pre {F : Type} (cfg : Config F) (mode t : String) (rest : List String)
    (hm : mode = "0" ∨ mode = "2") :
    toggles (parseParts (mode :: t :: rest) cfg)
      = if named (t :: rest) 'N' || named (t :: rest) 'K' || named (t :: rest) 'G' then
          (named (t :: rest) 'N', named (t :: rest) 'K', named (t :: rest) 'G',
            decide (mode = "2"))
        else (true, true, true, decide (mode = "2")) := by
  obtain ⟨m, ⟨n, nn, k, kk, g, gg⟩, e, seed, tr, vr, fl, mp⟩ := cfg
  rcases hm with rfl | rfl
  · simp only [parseParts, String.reduceEq, reduceIte, false_or, or_false, setPre,
      List.length_cons, parseTokens_spec, toggles, gt_iff_lt, Nat.lt_add_left_iff_pos,
      Nat.zero_lt_succ, or_true, true_or, true_and, false_and]
    generalize named (t :: rest) 'N' = a
    generalize named (t :: rest) 'K' = b
    generalize named (t :: rest) 'G' = c
    generalize named (t :: rest) 'E' = d
    cases a <;> cases b <;> cases c <;> cases d <;> simp
  · simp only [parseParts, String.reduceEq, reduceIte, false_or, or_false, setPre,
      List.length_cons, parseTokens_spec, toggles, gt_iff_lt, Nat.lt_add_left_iff_pos,
      Nat.zero_lt_succ, or_true, true_or, true_and, false_and]
    generalize named (t :: rest) 'N' = a
    generalize named (t :: rest) 'K' = b
    generalize named (t :: rest) 'G' = c
    generalize named (t :: rest) 'E' = d
    cases a <;> cases b <;> cases c <;> cases d <;> simp

/-- The switches after mode "1" followed by at least one word: E alone. -/
theorem parseParts_post {F : Type} (cfg : Config F) (t : String) (rest : List String) :
    toggles (parseParts ("1" :: t :: rest) cfg) = (false, false, false, true) := by
  obtain ⟨m, ⟨n, nn, k, kk, g, gg⟩, e, seed, tr, vr, fl, mp⟩ := cfg
  simp only [parseParts, String.reduceEq, reduceIte, false_or, or_false, setPre,
    List.length_cons, parseTokens_spec, toggles, gt_iff_lt, Nat.lt_add_left_iff_pos,
    Nat.zero_lt_succ, or_true, true_or, true_and, false_and]
  generalize named (t :: rest) 'E' = d
  cases d <;> simp

/-- C29 (amended): `parseInputPruning` sets the switches as its doc comment says: "0"
enables N, K and G and disables E, "1" disables N, K and G and enables E, "2" enables all
four, "0 K" enables K alone, "1 E" enables E alone and "2 NKG E" enables N, K, G and E.
In general, when words follow the mode, each family of rules is set on its own: in modes
"0" and "2" exactly the pre-pruning rules that the words name are enabled, or all three
when the words name none; E is off in mode "0" and on in modes "1" and "2", named or
not; in mode "1" no pre-pruning rule is enabled. -/
theorem C29_toggles_by_family {F : Type} (cfg : Config F) :
    toggles (parseInputPruning "0" cfg) = (true, true, true, false) ∧
    toggles (parseInputPruning "1" cfg) = (false, false, false, true) ∧
    toggles (parseInputPruning "2" cfg) = (true, true, true, true) ∧
    toggles (parseInputPruning "0 K" cfg) = (false, true, false, false) ∧
    toggles (parseInputPruning "1 E" cfg) = (false, false, false, true) ∧
    toggles (parseInputPruning "2 NKG E" cfg) = (true, true, true, true) ∧
    toggles (parseInputPruning "2 K" cfg) = (false, true, false, true) ∧
    ∀ (s mode : String) (toks : List String), fields s = mode :: toks → toks ≠ [] →
      (mode = "0" →
        toggles (parseInputPruning s cfg)
          = if named toks 'N' || named toks 'K' || named toks 'G' then
              (named toks 'N', named toks 'K', named toks 'G', false)
            else (true, true, true, false)) ∧
      (mode = "1" → toggles (parseInputPruning s cfg) = (false, false, false, true)) ∧
      (mode = "2" →
        toggles (parseInputPruning s cfg)
          = if named toks 'N' || named toks 'K' || named toks 'G' then
              (named toks 'N', named toks 'K', named toks 'G', true)
            else (true, true, true, true)) := by
  refine ⟨rfl, rfl, rfl, rfl, rfl, rfl, rfl, ?_⟩
  intro s mode toks hs hne
  cases toks with
  | nil => exact absurd rfl hne
  | cons t rest =>
    simp only [parseInputPruning, hs]
    refine ⟨?_, ?_, ?_⟩
    · rintro rfl
      rw [parseParts_pre cfg "0" t rest (Or.inl rfl)]
      rfl
    · rintro rfl
      exact parseParts_post cfg t rest
    · rintro rfl
      rw [parseParts_pre cfg "2" t rest (Or.inr rfl)]
      rfl

/-! ### The mode gate of the pre-pruning rules -/

theorem buildID3Step_pre_irrelevant {F : Type} (fo : FloatOps F) (mi : MapIter)
    (r₁ r₂ : Dataset → Config F → Int → Option Node) (ds : Dataset) (cfg₁ cfg₂ : Config F)
    (depth : Int)
    (h1 : (cfg₁.Mode == "0" || cfg₁.Mode == "2") = false)
    (h2 : (cfg₂.Mode == "0" || cfg₂.Mode == "2") = false)
    (h : ∀ s,
      r₁ { ds with Attrs := ds.Attrs.filter (fun a => a != (bestSplit fo mi ds).1), Data := s }
          cfg₁ (depth + 1)
        = r₂ { ds with Attrs := ds.Attrs.filter (fun a => a != (bestSplit fo mi ds).1),
                       Data := s } cfg₂ (depth + 1)) :
    buildID3Step fo mi r₁ ds cfg₁ depth = buildID3Step fo mi r₂ ds cfg₂ depth := by
  unfold buildID3Step
  simp only [h1, h2, Bool.false_and, funext h]

theorem buildID3Aux_pre_irrelevant {F : Type} (fo : FloatOps F) (mi : MapIter)
    (cfg₁ cfg₂ : Config F)
    (h1 : (cfg₁.Mode == "0" || cfg₁.Mode == "2") = false)
    (h2 : (cfg₂.Mode == "0" || cfg₂.Mode == "2") = false) :
    ∀ (fuel : Nat) (ds : Dataset) (depth : Int),
      buildID3Aux fo mi fuel ds cfg₁ depth = buildID3Aux fo mi fuel ds cfg₂ depth := by
  intro fuel
  induction fuel with
  | zero =>
    intro ds depth
    exact buildID3Step_pre_irrelevant fo mi _ _ ds cfg₁ cfg₂ depth h1 h2 (fun _ => rfl)
  | succ n ih =>
    intro ds depth
    exact buildID3Step_pre_irrelevant fo mi _ _ ds cfg₁ cfg₂ depth h1 h2 (fun _ => ih _ _)

/-- C32: for a Config whose `Mode` is neither "0" nor "2", `buildID3` returns the same
result whatever the fields of `cfg.Pre` are: replacing `Pre` by any other value changes
nothing, for every dataset and depth. -/
theorem C32_pre_ignored_outside_modes {F : Type} (fo : FloatOps F) (mi : MapIter)
    (ds : Dataset) (cfg : Config F) (pre : PrePrune F) (depth : Int)
    (h0 : cfg.Mode ≠ "0") (h2 : cfg.Mode ≠ "2") :
    buildID3 fo mi ds { cfg with Pre := pre } depth = buildID3 fo mi ds cfg depth := by
  have hg : (cfg.Mode == "0" || cfg.Mode == "2") = false := by
    simp [h0, h2]
  exact buildID3Aux_pre_irrelevant fo mi { cfg with Pre := pre } cfg hg hg _ ds depth

/-- C32 at a concrete input: in mode "1" the scenario dataset gives the same tree with
every pre-pruning rule enabled at the thresholds N = 0, K = 100, G = 5 as with none. -/
theorem C32_pre_ignored_outside_modes_witness :
    (configWith "1" false 10 false 5 false false).Mode ≠ "0" ∧
    (configWith "1" false 10 false 5 false false).Mode ≠ "2" ∧
    buildID3 exactOps MapIter.insertion scenarioData
        { configWith "1" false 10 false 5 false false with
          Pre := { UseN := true, N := 0, UseK := true, K := 100, UseG := true, G := 5 } } 0
      = buildID3 exactOps MapIter.insertion scenarioData
          (configWith "1" false 10 false 5 false false) 0 :=
  ⟨by decide, by decide,
    C32_pre_ignored_outside_modes exactOps MapIter.insertion scenarioData
      (configWith "1" false 10 false 5 false false)
      { UseN := true, N := 0, UseK := true, K := 100, UseG := true, G := 5 } 0
      (by decide) (by decide)⟩

/-! ### Pruning against the majority leaf -/

/-- C33: for every tree with an Internal root and every validation dataset, the tree
that `reducedErrorPrune` returns is at least as accurate on the validation dataset as
the single leaf that carries the root's `MajorityClass`; on an empty validation dataset
it is that leaf. -/
theorem C33_pruned_at_least_majority_leaf (t : Node) (val : Dataset) (classAttr : String)
    (hi : t.IsLeaf = false) :
    accuracy (Node.leaf t.MajorityClass t.MajorityClass t.Depth) val
      ≤ accuracy (reducedErrorPrune t val classAttr) val ∧
    (val.Data = [] →
      reducedErrorPrune t val classAttr
        = Node.leaf t.MajorityClass t.MajorityClass t.Depth) := by
  obtain ⟨isLeaf, classLabel, attr, children, maj, depth⟩ := t
  simp only [Node.IsLeaf] at hi
  subst hi
  simp only [Node.MajorityClass, Node.Depth, reducedErrorPrune, Bool.false_eq_true, if_false]
  constructor
  · split_ifs with h
    · exact le_refl _
    · exact le_of_lt (not_le.mp h)
  · intro hv
    have h0 : ∀ r : Node, accuracy r val = 0 := by
      intro r
      simp [accuracy, hv]
    rw [h0, h0]
    simp

/-- C33 at a concrete input: the nested tree against its validation set. -/
theorem C33_pruned_at_least_majority_leaf_witness :
    nestedTree.IsLeaf = false ∧
    accuracy (Node.leaf nestedTree.MajorityClass nestedTree.MajorityClass nestedTree.Depth)
        nestedVal
      ≤ accuracy (reducedErrorPrune nestedTree nestedVal "Class") nestedVal ∧
    (nestedVal.Data = [] →
      reducedErrorPrune nestedTree nestedVal "Class"
        = Node.leaf nestedTree.MajorityClass nestedTree.MajorityClass nestedTree.Depth) :=
  ⟨rfl, C33_pruned_at_least_majority_leaf nestedTree nestedVal "Class" rfl⟩

/-! ### Pruning only simplifies -/

mutual
theorem reducedErrorPrune_nodeCount : ∀ (t : Node) (val : Dataset) (classAttr : String),
    (reducedErrorPrune t val classAttr).nodeCount ≤ t.nodeCount
  | .mk isLeaf classLabel attr children maj depth, val, classAttr => by
    unfold reducedErrorPrune
    by_cases hl : isLeaf = true
    · rw [if_pos hl]
    · rw [if_neg hl]
      simp only
      split_ifs
      · simp [Node.leaf, Node.nodeCount, ChildMap.nodeCount]
      · simp only [Node.nodeCount, Nat.add_le_add_iff_right]
        exact pruneChildren_nodeCount children val classAttr
theorem pruneChildren_nodeCount : ∀ (ch : ChildMap) (val : Dataset) (classAttr : String),
    (pruneChildren ch val classAttr).nodeCount ≤ ch.nodeCount
  | .nil, _, _ => by simp [pruneChildren]
  | .cons k c rest, val, classAttr => by
    simp only [pruneChildren, ChildMap.nodeCount]
    exact Nat.add_le_add (reducedErrorPrune_nodeCount c val classAttr)
      (pruneChildren_nodeCount rest val classAttr)
end

theorem pruneChildren_find : ∀ (ch : ChildMap) (val : Dataset) (classAttr v : String),
    (pruneChildren ch val classAttr).find v
      = (ch.find v).map (fun c => reducedErrorPrune c val classAttr)
  | .nil, _, _, _ => rfl
  | .cons k c rest, val, classAttr, v => by
    simp only [pruneChildren, ChildMap.find]
    split_ifs
    · rfl
    · exact pruneChildren_find rest val classAttr v

theorem reducedErrorPrune_subtreeAt (val : Dataset) (classAttr : String) :
    ∀ (path : List String) (t n : Node),
      subtreeAt path (reducedErrorPrune t val classAttr) = some n → n.IsLeaf = false →
      ∃ m, subtreeAt path t = some m ∧ m.IsLeaf = false ∧ m.Attr = n.Attr ∧
        n.nodeCount ≤ m.nodeCount := by
  intro path
  induction path with
  | nil =>
    intro t n h hn
    simp only [subtreeAt, Option.some.injEq] at h
    subst h
    refine ⟨t, rfl, ?_, ?_, reducedErrorPrune_nodeCount t val classAttr⟩
    · rcases (reducedErrorPrune_root t val classAttr).2 with h | h | h
      · rw [h] at hn; exact hn
      · rw [h] at hn; exact hn
      · rw [h] at hn; exact absurd hn (by simp [Node.leaf, Node.IsLeaf])
    · rcases (reducedErrorPrune_root t val classAttr).2 with h | h | h
      · rw [h]
      · rw [h]; rfl
      · rw [h] at hn; exact absurd hn (by simp [Node.leaf, Node.IsLeaf])
  | cons v rest ih =>
    intro t n h hn
    rcases (reducedErrorPrune_root t val classAttr).2 with ht | ht | ht
    · rw [ht] at h
      exact ⟨n, h, hn, rfl, le_refl _⟩
    · rw [ht] at h
      simp only [subtreeAt] at h
      have hch : (Node.mk t.IsLeaf t.ClassLabel t.Attr (pruneChildren t.Children val classAttr)
          t.MajorityClass t.Depth).Children = pruneChildren t.Children val classAttr := rfl
      rw [hch, pruneChildren_find] at h
      cases hf : t.Children.find v with
      | none => rw [hf] at h; simp at h
      | some c =>
        rw [hf] at h
        simp only [Option.map_some'] at h
        obtain ⟨m, hm, hml, hma, hmc⟩ := ih c n h hn
        exact ⟨m, by simp only [subtreeAt, hf, hm], hml, hma, hmc⟩
    · rw [ht] at h
      simp [subtreeAt, Node.leaf, Node.Children, ChildMap.find] at h

/-- C34: `reducedErrorPrune` only simplifies: the tree it returns has at most as many
nodes as the tree it is given, and every Internal node of the result, reached from the
root by a path of attribute values, stands in the place of an Internal node of the given
tree that is reached by the same path and tests the same attribute. -/
theorem C34_pruning_only_simplifies (t : Node) (val : Dataset) (classAttr : String) :
    (reducedErrorPrune t val classAttr).nodeCount ≤ t.nodeCount ∧
    ∀ (path : List String) (n : Node),
      subtreeAt path (reducedErrorPrune t val classAttr) = some n → n.IsLeaf = false →
      ∃ m, subtreeAt path t = some m ∧ m.IsLeaf = false ∧ m.Attr = n.Attr :=
  ⟨reducedErrorPrune_nodeCount t val classAttr, fun path n h hn => by
    obtain ⟨m, h1, h2, h3, _⟩ := reducedErrorPrune_subtreeAt val classAttr path t n h hn
    exact ⟨m, h1, h2, h3⟩⟩

/-! ### The split is a partition -/

theorem splitLoop_perm {F σ : Type} (fo : FloatOps F) (R : Rand σ) (trainRatio : F) :
    ∀ (gs : List (String × List Example)) (tr te : List Example) (rng : σ),
      (∀ g ∈ gs, g.2 ≠ []) →
      ∃ tr' te' rng', splitLoop fo R trainRatio gs tr te rng = some (tr', te', rng') ∧
        (tr' ++ te').Perm (tr ++ te ++ (gs.map Prod.snd).flatten) := by
  intro gs
  induction gs with
  | nil =>
    intro tr te rng _
    exact ⟨tr, te, rng, rfl, by simp⟩
  | cons g rest ih =>
    obtain ⟨v, arr⟩ := g
    intro tr te rng hne
    have harr : arr ≠ [] := hne (v, arr) (List.mem_cons_self _ _)
    have hperm := applyPerm_perm R rng arr
    have hlen : (applyPerm (R.shuffle rng arr.length).1 arr).length = arr.length :=
      hperm.length_eq
    have hpos : 1 ≤ arr.length := Nat.pos_of_ne_zero (fun h => harr (List.length_eq_zero.mp h))
    have hrange := splitPoint_range fo (applyPerm (R.shuffle rng arr.length).1 arr).length
      trainRatio (by omega)
    simp only [splitLoop]
    rw [if_pos ⟨hrange.1, by omega⟩]
    obtain ⟨tr', te', rng', h1, h2⟩ := ih
      (tr ++ (applyPerm (R.shuffle rng arr.length).1 arr).take
        (splitPoint fo (applyPerm (R.shuffle rng arr.length).1 arr).length trainRatio).toNat)
      (te ++ (applyPerm (R.shuffle rng arr.length).1 arr).drop
        (splitPoint fo (applyPerm (R.shuffle rng arr.length).1 arr).length trainRatio).toNat)
      (R.shuffle rng arr.length).2 (fun g hg => hne g (List.mem_cons_of_mem _ hg))
    refine ⟨tr', te', rng', h1, h2.trans ?_⟩
    generalize (splitPoint fo (applyPerm (R.shuffle rng arr.length).1 arr).length
      trainRatio).toNat = k
    generalize applyPerm (R.shuffle rng arr.length).1 arr = sh at hperm
    simp only [List.map_cons, List.flatten_cons]
    have hsh : (sh.take k ++ sh.drop k).Perm arr := by
      rw [List.take_append_drop]; exact hperm
    have e1 : tr ++ sh.take k ++ (te ++ sh.drop k) ++ (rest.map Prod.snd).flatten
        = tr ++ (sh.take k ++ (te ++ sh.drop k)) ++ (rest.map Prod.snd).flatten := by
      simp only [List.append_assoc]
    have e2 : tr ++ te ++ (arr ++ (rest.map Prod.snd).flatten)
        = tr ++ (te ++ arr) ++ (rest.map Prod.snd).flatten := by
      simp only [List.append_assoc]
    rw [e1, e2]
    refine List.Perm.append_right _ (List.Perm.append_left _ ?_)
    have e3 : (sh.take k ++ (te ++ sh.drop k)).Perm (te ++ (sh.take k ++ sh.drop k)) := by
      rw [← List.append_assoc, ← List.append_assoc]
      exact List.Perm.append_right _ List.perm_append_comm
    exact e3.trans (List.Perm.append_left _ hsh)

/-- C35: for every dataset, ratio, arithmetic, map iteration order and shuffle,
`stratifiedSplit` returns two datasets (no slice bound is out of range); the examples of
the first followed by those of the second are a permutation of `ds.Data`, so the two
sizes add up to the size of `ds.Data`; and both keep `Attrs`, `ClassAttr` and `AttrVals`
of the input. -/
theorem C35_split_is_partition {F σ : Type} (fo : FloatOps F) (mi : MapIter) (R : Rand σ)
    (ds : Dataset) (trainRatio : F) (rng : σ) :
    ∃ a b rng', stratifiedSplit fo mi R ds trainRatio rng = some (a, b, rng') ∧
      (a.Data ++ b.Data).Perm ds.Data ∧
      a.Data.length + b.Data.length = ds.Data.length ∧
      a.Attrs = ds.Attrs ∧ a.ClassAttr = ds.ClassAttr ∧ a.AttrVals = ds.AttrVals ∧
      b.Attrs = ds.Attrs ∧ b.ClassAttr = ds.ClassAttr ∧ b.AttrVals = ds.AttrVals := by
  obtain ⟨_, g2, g3⟩ := groupByClass_spec ds.ClassAttr ds.Data
  have hp := mi.perm (groupByClass ds.Data ds.ClassAttr)
  have hne : ∀ g ∈ mi.order (groupByClass ds.Data ds.ClassAttr), g.2 ≠ [] :=
    fun g hg => (g2 g (hp.mem_iff.mp hg)).1
  have hflat : ((mi.order (groupByClass ds.Data ds.ClassAttr)).map Prod.snd).flatten.Perm
      ds.Data := ((hp.map Prod.snd).flatten).trans g3
  obtain ⟨tr, te, rng', h1, h2⟩ := splitLoop_perm fo R trainRatio
    (mi.order (groupByClass ds.Data ds.ClassAttr)) [] [] rng hne
  have hperm : (tr ++ te).Perm ds.Data := by
    simpa using h2.trans (by simpa using hflat)
  refine ⟨{ ds with Data := tr }, { ds with Data := te }, rng', ?_, hperm, ?_,
    rfl, rfl, rfl, rfl, rfl, rfl⟩
  · simp only [stratifiedSplit, h1]
  · have := hperm.length_eq
    simpa using this

/-! ### Training accuracy on consistent data -/

theorem forall₂_mem_left {α β : Type} {R : α → β → Prop} {l₁ : List α} {l₂ : List β}
    (h : List.Forall₂ R l₁ l₂) : ∀ a ∈ l₁, ∃ b ∈ l₂, R a b := by
  induction h with
  | nil => intro a ha; simp at ha
  | cons hh _ ih =>
    intro a ha
    rcases List.mem_cons.mp ha with rfl | ha
    · exact ⟨_, List.mem_cons_self _ _, hh⟩
    · obtain ⟨b, hb, hr⟩ := ih a ha
      exact ⟨b, List.mem_cons_of_mem _ hb, hr⟩

/-- When the gain of the first attribute exceeds the initial `-1.0`, the selection loop
ends with an attribute of the list. -/
theorem bestSplit_selected {F : Type} (fo : FloatOps F) (mi : MapIter) (ds : Dataset)
    (hsel : ∀ a ∈ ds.Attrs, fo.lt (fo.ofInt (-1))
      (fo.sub (entropy fo mi ds.Data ds.ClassAttr)
        (condEntropy fo mi ds.Data a ds.ClassAttr)) = true)
    (hattrs : ds.Attrs ≠ []) : (bestSplit fo mi ds).1 ∈ ds.Attrs := by
  unfold bestSplit
  cases hA : ds.Attrs with
  | nil => exact absurd hA hattrs
  | cons a rest =>
    have ha := hsel a (by rw [hA]; exact List.mem_cons_self _ _)
    simp only [List.foldl_cons, ha, if_true]
    rcases bestSplit_fold_mem fo
      (fun a => fo.sub (entropy fo mi ds.Data ds.ClassAttr)
        (condEntropy fo mi ds.Data a ds.ClassAttr)) rest
      (a, fo.sub (entropy fo mi ds.Data ds.ClassAttr)
        (condEntropy fo mi ds.Data a ds.ClassAttr)) with h | h
    · rw [h]; exact List.mem_cons_self _ _
    · exact List.mem_cons_of_mem _ h

/-- With no pre-pruning rule active, on consistent data with non-empty attribute names, the tree
that `buildID3` returns predicts the label of every example it was built from. -/
theorem buildID3_predicts_training {F : Type} (fo : FloatOps F) (mi : MapIter)
    (cfg : Config F) (cls : String) (D : List Example) (A : List String)
    (hnp : ((cfg.Mode == "0" || cfg.Mode == "2")
      && (cfg.Pre.UseN || cfg.Pre.UseK || cfg.Pre.UseG)) = false)
    (hnames : "" ∉ A)
    (hsel : ∀ data : List Example, data.Sublist D → data ≠ [] → ∀ a ∈ A,
      fo.lt (fo.ofInt (-1))
        (fo.sub (entropy fo mi data cls) (condEntropy fo mi data a cls)) = true) :
    ∀ (n : Nat) (d : Dataset) (depth : Int) (t : Node), d.Attrs.length ≤ n →
      d.ClassAttr = cls → d.Data.Sublist D → d.Attrs ⊆ A →
      (∀ e₁ ∈ d.Data, ∀ e₂ ∈ d.Data, (∀ a ∈ d.Attrs, e₁.get a = e₂.get a) →
        e₁.get cls = e₂.get cls) →
      buildID3 fo mi d cfg depth = some t →
      ∀ ex ∈ d.Data, predict t ex = ex.get cls := by
  intro n
  induction n with
  | zero =>
    intro d depth t hlen hcls hsub hA hcons ht ex hex
    have hne := buildID3_data_ne fo mi d cfg depth t ht
    have h0 : d.Attrs = [] := List.length_eq_zero.mp (by omega)
    cases hd : d.Data with
    | nil => exact absurd hd hne
    | cons e rest =>
      have hall : ∀ x ∈ e :: rest, x.get d.ClassAttr = e.get d.ClassAttr := by
        intro x hx
        rw [hcls]
        exact hcons x (hd ▸ hx) e (hd ▸ List.mem_cons_self _ _) (by simp [h0])
      rw [buildID3_of_pure fo mi d cfg depth _ e rest hd hall, Option.some.injEq] at ht
      subst ht
      rw [hd] at hex
      rw [← hcls, hall ex hex]
      simp [predict, Node.leaf]
  | succ n ih =>
    intro d depth t hlen hcls hsub hA hcons ht ex hex
    have hne := buildID3_data_ne fo mi d cfg depth t ht
    have ht0 := ht
    rw [buildID3_unfold] at ht
    unfold buildID3Step at ht
    have hG : ∀ b, ((cfg.Mode == "0" || cfg.Mode == "2") && cfg.Pre.UseG && b) = false := by
      intro b
      revert hnp
      cases (cfg.Mode == "0" || cfg.Mode == "2") <;> cases cfg.Pre.UseN <;>
        cases cfg.Pre.UseK <;> cases cfg.Pre.UseG <;> simp
    simp only [hnp, hG, Bool.false_and, Bool.false_eq_true, if_false] at ht
    split_ifs at ht with h1 h3 h4
    · cases hd : d.Data with
      | nil => exact absurd hd hne
      | cons e rest =>
        rw [hd] at h1 hex
        have hall := isPure_all d.ClassAttr e rest h1
        simp only [hd, Option.some.injEq] at ht
        subst ht
        rw [← hcls, hall ex hex]
        simp [predict, Node.leaf]
    · have h0 : d.Attrs = [] := List.length_eq_zero.mp h3
      cases hd : d.Data with
      | nil => exact absurd hd hne
      | cons e rest =>
        have hall : ∀ x ∈ e :: rest, x.get d.ClassAttr = e.get d.ClassAttr := by
          intro x hx
          rw [hcls]
          exact hcons x (hd ▸ hx) e (hd ▸ List.mem_cons_self _ _) (by simp [h0])
        have := isPure_same d.ClassAttr _ (e :: rest) hall
        rw [hd] at h1
        exact absurd this h1
    · have hmem := bestSplit_selected fo mi d
        (fun a ha => by rw [hcls]; exact hsel d.Data hsub hne a (hA ha))
        (fun h => h3 (by rw [h]; rfl))
      rw [h4] at hmem
      exact absurd (hA hmem) hnames
    · split at ht
      · rename_i ch hch
        simp only [Option.some.injEq] at ht
        subst ht
        obtain ⟨hnd, hspec, hkeys⟩ := groupByValue_spec (bestSplit fo mi d).1 d.Data
        have hent := buildChildren_entries _ _ _ _ ch (fun g hg => (hspec g hg).1) hch
        have hkeq : ch.entries.map Prod.fst
            = (groupByValue d.Data (bestSplit fo mi d).1).map Prod.fst :=
          forall₂_map_fst hent (fun _ _ h => h.1)
        obtain ⟨g, hg, hgv⟩ := List.mem_map.mp (hkeys ex hex)
        obtain ⟨e, he, hek, hbuild⟩ := forall₂_mem_left hent g hg
        have hfind : ch.find (ex.get (bestSplit fo mi d).1) = some e.2 := by
          apply find_of_entries ch _ e.2 (by rw [hkeq]; exact hnd)
          rw [← hgv, ← hek]
          exact he
        rw [predict_unfold]
        simp only [Node.IsLeaf, Node.Attr, Node.Children, Bool.false_eq_true, if_false, hfind]
        have hg2 := (hspec g hg).2
        have hexg : ex ∈ g.2 := by
          rw [hg2, List.mem_filter]
          exact ⟨hex, by simp [hgv]⟩
        have hlt := remaining_length_lt fo mi d h4
        refine ih { d with Attrs := d.Attrs.filter (fun a => a != (bestSplit fo mi d).1),
                           Data := g.2 } (depth + 1) e.2 (by simp only; omega) hcls
          ?_ ?_ ?_ hbuild ex hexg
        · show g.2.Sublist D
          rw [hg2]
          exact (List.filter_sublist _).trans hsub
        · show d.Attrs.filter (fun a => a != (bestSplit fo mi d).1) ⊆ A
          exact fun a ha => hA (List.mem_filter.mp ha).1
        · show ∀ e₁ ∈ g.2, ∀ e₂ ∈ g.2,
            (∀ a ∈ d.Attrs.filter (fun a => a != (bestSplit fo mi d).1),
              e₁.get a = e₂.get a) → e₁.get cls = e₂.get cls
          intro e₁ h₁ e₂ h₂ hag
          rw [hg2, List.mem_filter] at h₁ h₂
          apply hcons e₁ h₁.1 e₂ h₂.1
          intro a ha
          by_cases hab : a = (bestSplit fo mi d).1
          · rw [hab, beq_iff_eq.mp h₁.2, beq_iff_eq.mp h₂.2]
          · exact hag a (List.mem_filter.mpr ⟨ha, by simpa using hab⟩)
      · exact absurd ht (by simp)

/-- C31: with no pre-pruning rule active (the mode is neither "0" nor "2", or N, K and G
are all switched off), for every non-empty dataset that is consistent (two examples that
agree on every attribute of `ds.Attrs` carry the same class label) and whose attribute
names are non-empty strings, `buildID3(ds, cfg, 0)` returns a tree that predicts the
label of every training example, so its accuracy on `ds` is 1. The arithmetic is assumed
to give every attribute, on every non-empty part of the data, a gain that compares
greater than the initial `-1.0`, as any gain computed by `float64` does. -/
theorem C31_consistent_training_accuracy {F : Type} (fo : FloatOps F) (mi : MapIter)
    (ds : Dataset) (cfg : Config F)
    (hne : ds.Data ≠ [])
    (hnp : ((cfg.Mode == "0" || cfg.Mode == "2")
      && (cfg.Pre.UseN || cfg.Pre.UseK || cfg.Pre.UseG)) = false)
    (hnames : "" ∉ ds.Attrs)
    (hcons : ∀ e₁ ∈ ds.Data, ∀ e₂ ∈ ds.Data, (∀ a ∈ ds.Attrs, e₁.get a = e₂.get a) →
      e₁.get ds.ClassAttr = e₂.get ds.ClassAttr)
    (hsel : ∀ data ∈ ds.Data.sublists, data ≠ [] → ∀ a ∈ ds.Attrs,
      fo.lt (fo.ofInt (-1))
        (fo.sub (entropy fo mi data ds.ClassAttr)
          (condEntropy fo mi data a ds.ClassAttr)) = true) :
    ∃ t, buildID3 fo mi ds cfg 0 = some t ∧
      (∀ ex ∈ ds.Data, predict t ex = ex.get ds.ClassAttr) ∧ accuracy t ds = 1 := by
  obtain ⟨t, ht⟩ := buildID3_isSome fo mi cfg _ ds 0 le_rfl hne
  have hp := buildID3_predicts_training fo mi cfg ds.ClassAttr ds.Data ds.Attrs hnp hnames
    (fun data hsub hd a ha => hsel data (List.mem_sublists.mpr hsub) hd a ha)
    ds.Attrs.length ds 0 t le_rfl rfl (List.Sublist.refl _) (fun _ h => h) hcons ht
  refine ⟨t, ht, hp, ?_⟩
  have hlen : ds.Data.length ≠ 0 := fun h => hne (List.length_eq_zero.mp h)
  have hcount : correctCount t ds = ds.Data.length := by
    unfold correctCount
    rw [List.countP_eq_length]
    intro ex hex
    simp [hp ex hex]
  rw [accuracy_of_ne_nil t ds hne, hcount]
  exact div_self (by exact_mod_cast hlen)

/-- C31 at a concrete input: the four-example scenario dataset with every pruning rule
switched off. -/
theorem C31_consistent_training_accuracy_witness :
    scenarioData.Data ≠ [] ∧
    ((noPruning.Mode == "0" || noPruning.Mode == "2")
      && (noPruning.Pre.UseN || noPruning.Pre.UseK || noPruning.Pre.UseG)) = false ∧
    "" ∉ scenarioData.Attrs ∧
    (∀ e₁ ∈ scenarioData.Data, ∀ e₂ ∈ scenarioData.Data,
      (∀ a ∈ scenarioData.Attrs, e₁.get a = e₂.get a) →
      e₁.get scenarioData.ClassAttr = e₂.get scenarioData.ClassAttr) ∧
    (∀ data ∈ scenarioData.Data.sublists, data ≠ [] → ∀ a ∈ scenarioData.Attrs,
      exactOps.lt (exactOps.ofInt (-1))
        (exactOps.sub (entropy exactOps MapIter.insertion data scenarioData.ClassAttr)
          (condEntropy exactOps MapIter.insertion data a scenarioData.ClassAttr)) = true) ∧
    ∃ t, buildID3 exactOps MapIter.insertion scenarioData noPruning 0 = some t ∧
      (∀ ex ∈ scenarioData.Data, predict t ex = ex.get scenarioData.ClassAttr) ∧
      accuracy t scenarioData = 1 :=
  ⟨by decide, by decide, by decide, by decide!, by decide!,
    C31_consistent_training_accuracy exactOps MapIter.insertion scenarioData noPruning
      (by decide) (by decide) (by decide) (by decide!) (by decide!)⟩

/-! ### Information gain over the reals -/

/-- The value of `entropy` in exact real arithmetic: the sum of `-p * ln p` over the
class counts, divided by `ln 2`. -/
theorem entropy_real {F : Type} (fo : FloatOps F) (mi : MapIter) (v : F → ℝ)
    (hv : RealArith fo v) (data : List Example) (classAttr : String) (hne : data ≠ []) :
    v (entropy fo mi data classAttr)
      = ((classCounts data classAttr).map
          (fun kc => Real.negMulLog ((kc.2 : ℝ) / (data.length : ℝ)))).sum / Real.log 2 := by
  have hN : (0 : ℝ) < (data.length : ℝ) := by
    have : 0 < data.length := List.length_pos.mpr hne
    exact_mod_cast this
  have hfold : ∀ (l : List (String × Nat)) (h : F), (∀ kc ∈ l, 1 ≤ kc.2) →
      v (l.foldl (fun h kc =>
          if fo.lt (fo.ofInt 0) (fo.div (fo.ofInt kc.2) (fo.ofInt data.length)) then
            fo.sub h (fo.mul (fo.div (fo.ofInt kc.2) (fo.ofInt data.length))
              (log2 fo (fo.div (fo.ofInt kc.2) (fo.ofInt data.length))))
          else h) h)
        = v h + (l.map (fun kc => Real.negMulLog ((kc.2 : ℝ) / (data.length : ℝ)))).sum
            / Real.log 2 := by
    intro l
    induction l with
    | nil => intro h _; simp
    | cons kc rest ih =>
      intro h hpos
      have hk : (0 : ℝ) < (kc.2 : ℝ) := by
        have := hpos kc (List.mem_cons_self _ _)
        exact_mod_cast this
      have hp : v (fo.div (fo.ofInt kc.2) (fo.ofInt data.length))
          = (kc.2 : ℝ) / (data.length : ℝ) := by
        rw [hv.div, hv.ofInt, hv.ofInt]
        push_cast
        rfl
      have hlt : fo.lt (fo.ofInt 0) (fo.div (fo.ofInt kc.2) (fo.ofInt data.length)) = true := by
        rw [hv.lt, hp, hv.ofInt]
        push_cast
        exact div_pos hk hN
      rw [List.foldl_cons, if_pos hlt, ih _ (fun x hx => hpos x (List.mem_cons_of_mem _ hx))]
      rw [hv.sub, hv.mul, hp]
      simp only [log2]
      rw [hv.div, hv.log, hv.log, hp, hv.ofInt, List.map_cons, List.sum_cons,
        Real.negMulLog]
      push_cast
      ring
  have hpos : ∀ kc ∈ mi.order (classCounts data classAttr), 1 ≤ kc.2 := by
    intro kc hkc
    exact ((classCounts_spec classAttr data).2.1 kc
      ((mi.perm (classCounts data classAttr)).mem_iff.mp hkc)).2
  unfold entropy
  simp only
  rw [hfold _ _ hpos, hv.ofInt]
  have hperm := ((mi.perm (classCounts data classAttr)).map
    (fun kc => Real.negMulLog ((kc.2 : ℝ) / (data.length : ℝ)))).sum_eq
  rw [hperm]
  push_cast
  ring

theorem classCount_eq_zero (classAttr c : String) (data : List Example)
    (h : ∀ ex ∈ data, ex.get classAttr ≠ c) : classCount classAttr c data = 0 := by
  by_contra hne
  have hpos : 1 ≤ classCount classAttr c data := Nat.pos_of_ne_zero hne
  obtain ⟨ex, hex, he⟩ := (classCount_pos_iff classAttr c data).mp hpos
  exact h ex hex he

/-- The same value as a sum over any finite set of labels that holds every label of the
data: a label that does not occur contributes `0`. -/
theorem entropy_real_finset {F : Type} (fo : FloatOps F) (mi : MapIter) (v : F → ℝ)
    (hv : RealArith fo v) (data : List Example) (classAttr : String) (hne : data ≠ [])
    (C : Finset String) (hC : ∀ ex ∈ data, ex.get classAttr ∈ C) :
    v (entropy fo mi data classAttr)
      = (∑ c ∈ C, Real.negMulLog
          ((classCount classAttr c data : ℝ) / (data.length : ℝ))) / Real.log 2 := by
  rw [entropy_real fo mi v hv data classAttr hne]
  congr 1
  obtain ⟨hnd, hcount, hkeys⟩ := classCounts_spec classAttr data
  have h1 : (classCounts data classAttr).map
      (fun kc => Real.negMulLog ((kc.2 : ℝ) / (data.length : ℝ)))
      = ((classCounts data classAttr).map Prod.fst).map
          (fun c => Real.negMulLog ((classCount classAttr c data : ℝ) / (data.length : ℝ))) := by
    rw [List.map_map]
    apply List.map_congr_left
    intro kc hkc
    simp only [Function.comp, (hcount kc hkc).1]
  rw [h1, ← List.sum_toFinset _ hnd]
  apply Finset.sum_subset
  · intro c hc
    rw [List.mem_toFinset] at hc
    obtain ⟨kc, hkc, rfl⟩ := List.mem_map.mp hc
    have hpos : 1 ≤ classCount classAttr kc.1 data := by
      rw [← (hcount kc hkc).1]; exact (hcount kc hkc).2
    obtain ⟨ex, hex, he⟩ := (classCount_pos_iff classAttr kc.1 data).mp hpos
    rw [← he]
    exact hC ex hex
  · intro c _ hc
    rw [List.mem_toFinset] at hc
    have h0 : classCount classAttr c data = 0 := by
      apply classCount_eq_zero
      intro ex hex he
      exact hc (he ▸ hkeys ex hex)
    rw [h0]
    simp

/-- The value of `condEntropy` in exact real arithmetic: the entropies of the groups,
weighted by their shares of the data. -/
theorem condEntropy_real {F : Type} (fo : FloatOps F) (mi : MapIter) (v : F → ℝ)
    (hv : RealArith fo v) (data : List Example) (attr classAttr : String) :
    v (condEntropy fo mi data attr classAttr)
      = ((groupByValue data attr).map
          (fun g => (g.2.length : ℝ) / (data.length : ℝ)
            * v (entropy fo mi g.2 classAttr))).sum := by
  have hfold : ∀ (l : List (String × List Example)) (s : F), (∀ g ∈ l, g.2 ≠ []) →
      v (l.foldl (fun sum vs =>
          if vs.2.length = 0 then sum
          else fo.add sum (fo.mul (fo.div (fo.ofInt vs.2.length) (fo.ofInt data.length))
            (entropy fo mi vs.2 classAttr))) s)
        = v s + (l.map (fun g => (g.2.length : ℝ) / (data.length : ℝ)
            * v (entropy fo mi g.2 classAttr))).sum := by
    intro l
    induction l with
    | nil => intro s _; simp
    | cons g rest ih =>
      intro s hne
      have hg : ¬ g.2.length = 0 := by
        have := hne g (List.mem_cons_self _ _)
        simpa using this
      rw [List.foldl_cons, if_neg hg, ih _ (fun x hx => hne x (List.mem_cons_of_mem _ hx)),
        hv.add, hv.mul, hv.div, hv.ofInt, hv.ofInt, List.map_cons, List.sum_cons]
      push_cast
      ring
  have hne : ∀ g ∈ mi.order (groupByValue data attr), g.2 ≠ [] := by
    intro g hg
    exact ((groupByValue_spec attr data).2.1 g
      ((mi.perm (groupByValue data attr)).mem_iff.mp hg)).1
  unfold condEntropy
  simp only
  rw [hfold _ _ hne, hv.ofInt]
  have hperm := ((mi.perm (groupByValue data attr)).map
    (fun g => (g.2.length : ℝ) / (data.length : ℝ) * v (entropy fo mi g.2 classAttr))).sum_eq
  rw [hperm]
  push_cast
  ring

/-- A sum over the groups of `groupByValue`, rewritten as a sum over the values of the
attribute. -/
theorem sum_over_groups {M : Type} [AddCommMonoid M] (data : List Example) (attr : String)
    (f : List Example → M) :
    ((groupByValue data attr).map (fun g => f g.2)).sum
      = ∑ x ∈ ((groupByValue data attr).map Prod.fst).toFinset,
          f (data.filter (fun ex => ex.get attr == x)) := by
  obtain ⟨hnd, hspec, _⟩ := groupByValue_spec attr data
  rw [List.sum_toFinset _ hnd, List.map_map]
  congr 1
  apply List.map_congr_left
  intro g hg
  simp only [Function.comp]
  rw [← (hspec g hg).2]

theorem groups_flatten_perm (data : List Example) (attr : String) :
    ((groupByValue data attr).map Prod.snd).flatten.Perm data :=
  (groupByClass_spec attr data).2.2

theorem sum_group_lengths (data : List Example) (attr : String) :
    ∑ x ∈ ((groupByValue data attr).map Prod.fst).toFinset,
        (data.filter (fun ex => ex.get attr == x)).length = data.length := by
  rw [← sum_over_groups data attr (fun l => l.length),
    ← (groups_flatten_perm data attr).length_eq, List.length_flatten, List.map_map]
  rfl

theorem sum_group_counts (data : List Example) (attr classAttr c : String) :
    ∑ x ∈ ((groupByValue data attr).map Prod.fst).toFinset,
        classCount classAttr c (data.filter (fun ex => ex.get attr == x))
      = classCount classAttr c data := by
  rw [← sum_over_groups data attr (fun l => classCount classAttr c l)]
  unfold classCount
  rw [← (groups_flatten_perm data attr).countP_eq, List.countP_flatten, List.map_map]
  rfl

theorem classCount_le_length (classAttr c : String) (l : List Example) :
    classCount classAttr c l ≤ l.length :=
  List.countP_le_length _

/-- Over the reals the conditional entropy lies between `0` and the entropy of the data:
each class frequency of the data is the weighted mean of its frequencies in the groups,
and `-p * ln p` is concave. -/
theorem condEntropy_real_bounds {F : Type} (fo : FloatOps F) (mi : MapIter) (v : F → ℝ)
    (hv : RealArith fo v) (data : List Example) (attr classAttr : String) (hne : data ≠ []) :
    0 ≤ v (condEntropy fo mi data attr classAttr) ∧
    v (condEntropy fo mi data attr classAttr) ≤ v (entropy fo mi data classAttr) := by
  have hNpos : 0 < data.length := List.length_pos.mpr hne
  have hN : (0 : ℝ) < (data.length : ℝ) := by exact_mod_cast hNpos
  have hlog2 : (0 : ℝ) < Real.log 2 := Real.log_pos (by norm_num)
  obtain ⟨hnd, hspec, hkeys⟩ := groupByValue_spec attr data
  -- the labels of the data, and the entropy of each group as a sum over them
  have hgroup : ∀ g ∈ groupByValue data attr,
      v (entropy fo mi g.2 classAttr)
        = (∑ c ∈ (data.map (fun ex => ex.get classAttr)).toFinset,
            Real.negMulLog ((classCount classAttr c g.2 : ℝ) / (g.2.length : ℝ)))
          / Real.log 2 := by
    intro g hg
    apply entropy_real_finset fo mi v hv g.2 classAttr (hspec g hg).1
    intro ex hex
    rw [(hspec g hg).2] at hex
    rw [List.mem_toFinset]
    exact List.mem_map_of_mem _ (List.mem_filter.mp hex).1
  have hcond : v (condEntropy fo mi data attr classAttr)
      = ∑ x ∈ ((groupByValue data attr).map Prod.fst).toFinset,
          ((data.filter (fun ex => ex.get attr == x)).length : ℝ) / (data.length : ℝ)
            * ((∑ c ∈ (data.map (fun ex => ex.get classAttr)).toFinset,
                Real.negMulLog
                  ((classCount classAttr c (data.filter (fun ex => ex.get attr == x)) : ℝ)
                    / ((data.filter (fun ex => ex.get attr == x)).length : ℝ)))
              / Real.log 2) := by
    rw [condEntropy_real fo mi v hv]
    rw [← sum_over_groups data attr (fun l => (l.length : ℝ) / (data.length : ℝ)
      * ((∑ c ∈ (data.map (fun ex => ex.get classAttr)).toFinset,
          Real.negMulLog ((classCount classAttr c l : ℝ) / (l.length : ℝ))) / Real.log 2))]
    congr 1
    apply List.map_congr_left
    intro g hg
    rw [hgroup g hg]
  have hfilter_pos : ∀ x ∈ ((groupByValue data attr).map Prod.fst).toFinset,
      0 < (data.filter (fun ex => ex.get attr == x)).length := by
    intro x hx
    rw [List.mem_toFinset] at hx
    obtain ⟨g, hg, rfl⟩ := List.mem_map.mp hx
    rw [← (hspec g hg).2]
    exact List.length_pos.mpr (hspec g hg).1
  constructor
  · rw [hcond]
    apply Finset.sum_nonneg
    intro x _
    apply mul_nonneg (div_nonneg (Nat.cast_nonneg _) hN.le)
    apply div_nonneg _ hlog2.le
    apply Finset.sum_nonneg
    intro c _
    apply Real.negMulLog_nonneg (div_nonneg (Nat.cast_nonneg _) (Nat.cast_nonneg _))
    apply div_le_one_of_le₀ _ (Nat.cast_nonneg _)
    exact_mod_cast classCount_le_length classAttr c _
  · rw [hcond, entropy_real_finset fo mi v hv data classAttr hne
      (data.map (fun ex => ex.get classAttr)).toFinset
      (fun ex hex => List.mem_toFinset.mpr (List.mem_map_of_mem _ hex))]
    simp only [mul_div_assoc']
    rw [← Finset.sum_div]
    apply div_le_div_of_nonneg_right _ hlog2.le
    simp only [Finset.mul_sum]
    rw [Finset.sum_comm]
    apply Finset.sum_le_sum
    intro c _
    have hJ := Real.concaveOn_negMulLog.le_map_sum
      (t := ((groupByValue data attr).map Prod.fst).toFinset)
      (w := fun x => ((data.filter (fun ex => ex.get attr == x)).length : ℝ)
        / (data.length : ℝ))
      (p := fun x =>
        (classCount classAttr c (data.filter (fun ex => ex.get attr == x)) : ℝ)
          / ((data.filter (fun ex => ex.get attr == x)).length : ℝ))
      (fun x _ => div_nonneg (Nat.cast_nonneg _) hN.le)
      (by
        rw [← Finset.sum_div, ← Nat.cast_sum, sum_group_lengths]
        exact div_self (ne_of_gt hN))
      (fun x _ => Set.mem_Ici.mpr (div_nonneg (Nat.cast_nonneg _) (Nat.cast_nonneg _)))
    simp only [smul_eq_mul] at hJ
    have hmean : ∑ x ∈ ((groupByValue data attr).map Prod.fst).toFinset,
        ((data.filter (fun ex => ex.get attr == x)).length : ℝ) / (data.length : ℝ)
          * ((classCount classAttr c (data.filter (fun ex => ex.get attr == x)) : ℝ)
              / ((data.filter (fun ex => ex.get attr == x)).length : ℝ))
        = (classCount classAttr c data : ℝ) / (data.length : ℝ) := by
      rw [← sum_group_counts data attr classAttr c, Nat.cast_sum, Finset.sum_div]
      apply Finset.sum_congr rfl
      intro x hx
      have hpos : (0 : ℝ) < ((data.filter (fun ex => ex.get attr == x)).length : ℝ) := by
        exact_mod_cast hfilter_pos x hx
      field_simp
      ring
    rw [hmean] at hJ
    exact hJ

/-- The pair that the selection loop ends with is the pair it started from or an
attribute of the list together with its gain. -/
theorem bestSplit_fold_pair {F : Type} (fo : FloatOps F) (g : String → F) :
    ∀ (attrs : List String) (init : String × F),
      attrs.foldl (fun (best : String × F) a => if fo.lt best.2 (g a) then (a, g a) else best)
          init = init ∨
      ∃ a ∈ attrs,
        attrs.foldl (fun (best : String × F) a => if fo.lt best.2 (g a) then (a, g a) else best)
          init = (a, g a) := by
  intro attrs
  induction attrs with
  | nil => intro init; exact Or.inl rfl
  | cons a rest ih =>
    intro init
    rw [List.foldl_cons]
    by_cases h : fo.lt init.2 (g a) = true
    · rw [if_pos h]
      rcases ih (a, g a) with h1 | ⟨b, hb, h1⟩
      · exact Or.inr ⟨a, List.mem_cons_self _ _, h1⟩
      · exact Or.inr ⟨b, List.mem_cons_of_mem _ hb, h1⟩
    · rw [if_neg h]
      rcases ih init with h1 | ⟨b, hb, h1⟩
      · exact Or.inl h1
      · exact Or.inr ⟨b, List.mem_cons_of_mem _ hb, h1⟩

/-- C36: in an arithmetic that computes exactly over the reals, for every non-empty list
of examples and every attribute, the information gain that `buildID3` computes,
`entropy(data) - condEntropy(data, attr)`, is non-negative and at most `entropy(data)`;
hence, when `ds.Attrs` is not empty, the selection loop ends with an attribute of
`ds.Attrs` and a `bestIG` greater than the initial `-1.0`. -/
theorem C36_gain_bounds_over_reals {F : Type} (fo : FloatOps F) (mi : MapIter) (v : F → ℝ)
    (hv : RealArith fo v) (ds : Dataset) (hne : ds.Data ≠ []) :
    (∀ a, 0 ≤ v (infoGain fo mi ds a) ∧
      v (infoGain fo mi ds a) ≤ v (entropy fo mi ds.Data ds.ClassAttr)) ∧
    (ds.Attrs ≠ [] →
      (bestSplit fo mi ds).1 ∈ ds.Attrs ∧
      fo.lt (fo.ofInt (-1)) (bestSplit fo mi ds).2 = true) := by
  have hgain : ∀ a, 0 ≤ v (infoGain fo mi ds a) ∧
      v (infoGain fo mi ds a) ≤ v (entropy fo mi ds.Data ds.ClassAttr) := by
    intro a
    obtain ⟨h1, h2⟩ := condEntropy_real_bounds fo mi v hv ds.Data a ds.ClassAttr hne
    simp only [infoGain, hv.sub]
    constructor <;> linarith
  have hlt : ∀ a, fo.lt (fo.ofInt (-1)) (infoGain fo mi ds a) = true := by
    intro a
    rw [hv.lt, hv.ofInt]
    have := (hgain a).1
    push_cast
    linarith
  refine ⟨hgain, fun hattrs => ?_⟩
  cases hA : ds.Attrs with
  | nil => exact absurd hA hattrs
  | cons a rest =>
    have hfirst : fo.lt (fo.ofInt (-1))
        (fo.sub (entropy fo mi ds.Data ds.ClassAttr)
          (condEntropy fo mi ds.Data a ds.ClassAttr)) = true := hlt a
    have hpair := bestSplit_fold_pair fo
      (fun a => fo.sub (entropy fo mi ds.Data ds.ClassAttr)
        (condEntropy fo mi ds.Data a ds.ClassAttr)) rest
      (a, fo.sub (entropy fo mi ds.Data ds.ClassAttr)
        (condEntropy fo mi ds.Data a ds.ClassAttr))
    have hb : bestSplit fo mi ds
        = rest.foldl (fun (best : String × F) a =>
            if fo.lt best.2 (fo.sub (entropy fo mi ds.Data ds.ClassAttr)
                (condEntropy fo mi ds.Data a ds.ClassAttr)) then
              (a, fo.sub (entropy fo mi ds.Data ds.ClassAttr)
                (condEntropy fo mi ds.Data a ds.ClassAttr))
            else best)
          (a, fo.sub (entropy fo mi ds.Data ds.ClassAttr)
            (condEntropy fo mi ds.Data a ds.ClassAttr)) := by
      unfold bestSplit
      simp only [hA, List.foldl_cons, hfirst, if_true]
    rw [hb]
    rcases hpair with h | ⟨b, hbm, h⟩
    · rw [h]
      exact ⟨List.mem_cons_self _ _, hlt a⟩
    · rw [h]
      exact ⟨List.mem_cons_of_mem _ hbm, hlt b⟩

/-- C36 at a concrete input: the arithmetic of the real numbers itself, on the
four-example scenario dataset. -/
theorem C36_gain_bounds_over_reals_witness :
    ∃ (fo : FloatOps ℝ) (v : ℝ → ℝ), RealArith fo v ∧ scenarioData.Data ≠ [] ∧
      (∀ a, 0 ≤ v (infoGain fo MapIter.insertion scenarioData a) ∧
        v (infoGain fo MapIter.insertion scenarioData a)
          ≤ v (entropy fo MapIter.insertion scenarioData.Data scenarioData.ClassAttr)) ∧
      (scenarioData.Attrs ≠ [] →
        (bestSplit fo MapIter.insertion scenarioData).1 ∈ scenarioData.Attrs ∧
        fo.lt (fo.ofInt (-1)) (bestSplit fo MapIter.insertion scenarioData).2 = true) :=
  have laws : RealArith (F := ℝ)
      { ofInt := fun n => (n : ℝ), add := fun x y => x + y, sub := fun x y => x - y,
        mul := fun x y => x * y, div := fun x y => x / y, log := Real.log,
        round := fun x => x, toInt := fun x => ⌊x⌋, lt := fun x y => decide (x < y) }
      (fun x => x) :=
    { ofInt := fun _ => rfl, add := fun _ _ => rfl, sub := fun _ _ => rfl,
      mul := fun _ _ => rfl, div := fun _ _ => rfl, log := fun _ => rfl,
      lt := fun _ _ => decide_eq_true_iff }
  ⟨_, _, laws, by decide,
    C36_gain_bounds_over_reals _ MapIter.insertion _ laws scenarioData (by decide)⟩

/-! ### The min-examples rule over the whole tree -/

theorem splitsAtLeast_entries (k : Int) (attr : String) (data : List Example) :
    ∀ ch : ChildMap, ch.splitsAtLeast k attr data = true ↔
      ∀ e ∈ ch.entries,
        e.2.splitsAtLeast k (data.filter (fun ex => ex.get attr == e.1)) = true
  | .nil => by simp [ChildMap.splitsAtLeast, ChildMap.entries]
  | .cons v c rest => by
    simp only [ChildMap.splitsAtLeast, ChildMap.entries, Bool.and_eq_true, List.mem_cons,
      forall_eq_or_imp, splitsAtLeast_entries k attr data rest]

/-- Under the min-examples rule every Internal node of a tree that `buildID3` returns was
built by a call on at least `K` examples: the call that built the child under `v` of a node
on `attr` received the examples of its parent with `attr = v`. -/
theorem buildID3_splitsAtLeast {F : Type} (fo : FloatOps F) (mi : MapIter) (cfg : Config F)
    (hmode : cfg.Mode = "0" ∨ cfg.Mode = "2") (hK : cfg.Pre.UseK = true) :
    ∀ (n : Nat) (ds : Dataset) (depth : Int) (t : Node), ds.Attrs.length ≤ n →
      buildID3 fo mi ds cfg depth = some t → t.splitsAtLeast cfg.Pre.K ds.Data = true := by
  intro n
  induction n with
  | zero =>
    intro ds depth t hlen ht
    rcases buildID3_cases fo mi ds cfg depth t ht with ⟨label, rfl⟩ | ⟨ch, _, hb, _⟩
    · simp only [Node.leaf, Node.splitsAtLeast, Bool.true_or]
    · have := remaining_length_lt fo mi ds hb
      omega
  | succ n ih =>
    intro ds depth t hlen ht
    have hne := buildID3_data_ne fo mi ds cfg depth t ht
    rcases buildID3_cases fo mi ds cfg depth t ht with ⟨label, rfl⟩ | ⟨ch, rfl, hb, hch⟩
    · simp only [Node.leaf, Node.splitsAtLeast, Bool.true_or]
    · have hge : cfg.Pre.K ≤ (ds.Data.length : Int) := by
        by_contra hlt
        obtain ⟨u, hu, hleaf⟩ :=
          buildID3_small_is_leaf fo mi ds cfg depth hne hmode hK (not_le.mp hlt)
        rw [ht] at hu
        simp only [Option.some.injEq] at hu
        rw [← hu] at hleaf
        exact absurd hleaf (by simp [Node.IsLeaf])
      have hlt := remaining_length_lt fo mi ds hb
      have hspec := (groupByValue_spec (bestSplit fo mi ds).1 ds.Data).2.1
      have hent := buildChildren_entries _ _ _ _ ch (fun g hg => (hspec g hg).1) hch
      simp only [Node.splitsAtLeast, Bool.false_or, Bool.and_eq_true, decide_eq_true_eq]
      refine ⟨hge, ?_⟩
      rw [splitsAtLeast_entries]
      intro e he
      obtain ⟨g, hg, hh⟩ := forall₂_mem_right hent e he
      have h := ih _ _ _ (by simp only; omega) hh.2
      simp only at h
      rw [(hspec g hg).2, ← hh.1] at h
      exact h

/-- C3 (amended): when `buildID3` applies its pre-pruning rules (`Mode` is "0" or "2") and
the min-examples rule is enabled with threshold `K`, `buildID3`, at any depth, returns a
tree on every non-empty dataset; the tree is a leaf, never an Internal node, when the
dataset has fewer than `K` examples; and every Internal node of the tree, at the root or
below it, was built by a call whose dataset had at least `K` examples (`splitsAtLeast`
follows the examples of `ds` down the tree to the partition each child was built on). -/
theorem C3_small_partition_is_leaf {F : Type} (fo : FloatOps F) (mi : MapIter) (ds : Dataset)
    (cfg : Config F) (depth : Int) (hne : ds.Data ≠ [])
    (hmode : cfg.Mode = "0" ∨ cfg.Mode = "2") (hK : cfg.Pre.UseK = true) :
    ∃ t, buildID3 fo mi ds cfg depth = some t ∧
      ((ds.Data.length : Int) < cfg.Pre.K → t.IsLeaf = true) ∧
      t.splitsAtLeast cfg.Pre.K ds.Data = true := by
  obtain ⟨t, ht⟩ := buildID3_isSome fo mi cfg ds.Attrs.length ds depth (le_refl _) hne
  refine ⟨t, ht, ?_, buildID3_splitsAtLeast fo mi cfg hmode hK ds.Attrs.length ds depth t
    (le_refl _) ht⟩
  intro hlt
  obtain ⟨u, hu, hleaf⟩ := buildID3_small_is_leaf fo mi ds cfg depth hne hmode hK hlt
  rw [ht] at hu
  simp only [Option.some.injEq] at hu
  rw [hu]
  exact hleaf

/-- C3 (amended) at a concrete input: the seven-example dataset with `Mode` "0" and
`K = 5`. -/
theorem C3_small_partition_is_leaf_witness :
    weatherData.Data ≠ [] ∧
    ((configWith "0" false 10 true 5 false false).Mode = "0" ∨
      (configWith "0" false 10 true 5 false false).Mode = "2") ∧
    (configWith "0" false 10 true 5 false false).Pre.UseK = true ∧
    ∃ t, buildID3 exactOps MapIter.insertion weatherData
          (configWith "0" false 10 true 5 false false) 0 = some t ∧
      ((weatherData.Data.length : Int) < (configWith "0" false 10 true 5 false false).Pre.K →
        t.IsLeaf = true) ∧
      t.splitsAtLeast (configWith "0" false 10 true 5 false false).Pre.K weatherData.Data
        = true :=
  ⟨by decide, by decide, rfl,
    C3_small_partition_is_leaf exactOps MapIter.insertion weatherData
      (configWith "0" false 10 true 5 false false) 0 (by decide) (by decide) rfl⟩

end ID3

namespace SlidingPuzzle

/-! ## Properties of the sliding puzzle -/

/-- Truncating division of a non-negative number: quotient and remainder are determined
by `k * r + c = a` with `0 ≤ c < |k|`. -/
theorem tdiv_tmod_unique (a k r c : Int) (hk : k ≠ 0) (ha : 0 ≤ a) (h : k * r + c = a)
    (hc0 : 0 ≤ c) (hc : c < |k|) : a.tdiv k = r ∧ a.tmod k = c := by
  rcases lt_or_gt_of_ne hk with hneg | hpos
  · have hm : 0 < -k := by omega
    have habs : |k| = -k := abs_of_neg hneg
    rw [habs] at hc
    have hu := (Int.ediv_emod_unique (a := a) (q := -r) (r := c) hm).mpr
      ⟨by rw [← h]; ring, hc0, hc⟩
    have e1 : a.tdiv k = -(a.tdiv (-k)) := by
      rw [Int.tdiv_neg, neg_neg]
    have e2 : a.tmod k = a.tmod (-k) := by
      rw [Int.tmod_neg]
    rw [e1, e2, Int.tdiv_eq_ediv ha (le_of_lt hm), Int.tmod_eq_emod ha (le_of_lt hm), hu.1, hu.2]
    exact ⟨by ring, rfl⟩
  · have habs : |k| = k := abs_of_pos hpos
    rw [habs] at hc
    have hu := (Int.ediv_emod_unique (a := a) (q := r) (r := c) hpos).mpr
      ⟨by rw [← h]; ring, hc0, hc⟩
    rw [Int.tdiv_eq_ediv ha (le_of_lt hpos), Int.tmod_eq_emod ha (le_of_lt hpos)]
    exact hu

/-- The coordinates of a cell `0 ≤ z < k * k`: the remainder lies in `[0, |k|)`, and the
bounds on the quotient depend on the sign of `k`. -/
theorem coords_bounds (z k : Int) (hz : 0 ≤ z) (hlt : z < k * k) :
    k ≠ 0 ∧ k * z.tdiv k + z.tmod k = z ∧ 0 ≤ z.tmod k ∧ z.tmod k < |k| ∧
    (0 < k → 0 ≤ z.tdiv k ∧ z.tdiv k < k) ∧
    (k < 0 → k < z.tdiv k ∧ z.tdiv k ≤ 0) := by
  have hk : k ≠ 0 := by
    rintro rfl
    simp at hlt
    omega
  have h1 := Int.tdiv_add_tmod z k
  have h2 := Int.tmod_nonneg k hz
  have h3 : z.tmod k < |k| := by
    rcases lt_or_gt_of_ne hk with hneg | hpos
    · rw [abs_of_neg hneg, ← Int.tmod_neg]
      exact Int.tmod_lt_of_pos z (by omega)
    · rw [abs_of_pos hpos]
      exact Int.tmod_lt_of_pos z hpos
  refine ⟨hk, h1, h2, h3, ?_, ?_⟩
  · intro hpos
    rw [abs_of_pos hpos] at h3
    constructor
    · by_contra hcon
      have : z.tdiv k ≤ -1 := by omega
      nlinarith
    · by_contra hcon
      have : k ≤ z.tdiv k := by omega
      nlinarith
  · intro hneg
    rw [abs_of_neg hneg] at h3
    constructor
    · by_contra hcon
      have : z.tdiv k ≤ k := by omega
      nlinarith
    · by_contra hcon
      have : 1 ≤ z.tdiv k := by omega
      nlinarith

theorem count_ge_of_getElem (l : List Int) (i : Nat) (hi : i < l.length) (b : Int) :
    (if l[i] == b then 1 else 0) ≤ l.count b := by
  split_ifs with h
  · have hb : l[i] = b := by simpa using h
    exact List.count_pos_iff.mpr (hb ▸ List.getElem_mem _)
  · exact Nat.zero_le _

/-- Exchanging two cells of a list gives a permutation of it. -/
theorem swap_perm (l : List Int) (i j : Nat) (hi : i < l.length) (hj : j < l.length) :
    ((l.set i l[j]).set j l[i]).Perm l := by
  rw [List.perm_iff_count]
  intro b
  have hj' : j < (l.set i l[j]).length := by simpa using hj
  rw [List.count_set _ _ _ _ hj', List.count_set _ _ _ _ hi]
  have h1 := count_ge_of_getElem l i hi b
  have hget : (l.set i l[j])[j] = l[j] := by
    by_cases hij : i = j
    · subst hij; simp
    · simp [List.getElem_set_ne hij]
  rw [hget]
  omega

/-- The cells of a list after two of them are exchanged. -/
theorem swap_getElem? (l : List Int) (i j : Nat) (hi : i < l.length) (hj : j < l.length)
    (n : Nat) :
    ((l.set i l[j]).set j l[i])[n]?
      = if n = j then l[i]? else if n = i then l[j]? else l[n]? := by
  rw [List.getElem?_set, List.getElem?_set]
  by_cases h1 : j = n
  · subst h1
    simp [hj, hi]
  · have h1' : ¬ n = j := fun h => h1 h.symm
    by_cases h2 : i = n
    · subst h2
      simp [h1, h1', hi, hj]
    · have h2' : ¬ n = i := fun h => h2 h.symm
      simp [h1, h1', h2, h2']

/-- The result of `doMove` when the blank goes from cell `z` to the cell `(r, c)`, in
range and with `0 ≤ c < |k|`: the new blank index, its coordinates and the exchanged
tiles. -/
theorem doMove_to (p : Puzzle) (m : Move) (r c : Int)
    (hlen : (p.tiles.length : Int) = p.size * p.size) (hz0 : 0 ≤ p.zero)
    (hzlt : p.zero < p.size * p.size)
    (hrc : (if m = Left then (p.zero.tdiv p.size, p.zero.tmod p.size - 1)
      else if m = Right then (p.zero.tdiv p.size, p.zero.tmod p.size + 1)
      else if m = Up then (p.zero.tdiv p.size - 1, p.zero.tmod p.size)
      else if m = Down then (p.zero.tdiv p.size + 1, p.zero.tmod p.size)
      else (p.zero.tdiv p.size, p.zero.tmod p.size)) = (r, c))
    (hc0 : 0 ≤ c) (hc : c < |p.size|) (ha0 : 0 ≤ r * p.size + c)
    (ha : r * p.size + c < p.size * p.size) :
    doMove p m = some
      { size := p.size,
        tiles := (p.tiles.set p.zero.toNat (p.tiles.getD (r * p.size + c).toNat 0)).set
          (r * p.size + c).toNat (p.tiles.getD p.zero.toNat 0),
        zero := r * p.size + c } ∧
    indexToCoords (r * p.size + c) p.size = some (r, c) := by
  have hk : p.size ≠ 0 := (coords_bounds p.zero p.size hz0 hzlt).1
  constructor
  · unfold doMove
    simp only [indexToCoords, if_neg hk, hrc, coordsToIndex]
    rw [if_pos ⟨hz0, by rw [hlen]; exact hzlt, ha0, by rw [hlen]; exact ha⟩]
  · unfold indexToCoords
    rw [if_neg hk]
    have hu := tdiv_tmod_unique (r * p.size + c) p.size r c hk ha0 (by ring) hc0 hc
    rw [hu.1, hu.2]

/-- The board after the blank at `z` and the cell `a` are exchanged. -/
theorem exchanged_tiles (tiles : List Int) (z a : Int) (hz0 : 0 ≤ z)
    (hzlt : z < tiles.length) (ha : a < tiles.length)
    (hz : tiles[z.toNat]? = some 0) :
    ((tiles.set z.toNat (tiles.getD a.toNat 0)).set a.toNat (tiles.getD z.toNat 0)).length
      = tiles.length ∧
    (∀ n, ((tiles.set z.toNat (tiles.getD a.toNat 0)).set a.toNat (tiles.getD z.toNat 0))[n]?
      = if n = a.toNat then tiles[z.toNat]? else if n = z.toNat then tiles[a.toNat]?
        else tiles[n]?) ∧
    ((tiles.set z.toNat (tiles.getD a.toNat 0)).set a.toNat (tiles.getD z.toNat 0)).Perm tiles ∧
    ((tiles.set z.toNat (tiles.getD a.toNat 0)).set a.toNat (tiles.getD z.toNat 0))[a.toNat]?
      = some 0 := by
  have hi : z.toNat < tiles.length := by omega
  have hj : a.toNat < tiles.length := by omega
  have e1 : tiles.getD a.toNat 0 = tiles[a.toNat] := by
    simp [List.getD_eq_getElem?_getD, List.getElem?_eq_getElem hj]
  have e2 : tiles.getD z.toNat 0 = tiles[z.toNat] := by
    simp [List.getD_eq_getElem?_getD, List.getElem?_eq_getElem hi]
  rw [e1, e2]
  refine ⟨by simp, swap_getElem? tiles _ _ hi hj, swap_perm tiles _ _ hi hj, ?_⟩
  rw [swap_getElem? tiles _ _ hi hj, if_pos rfl, hz]

/-- C37: for every puzzle with `len(tiles) = size * size` and `tiles[zero] = 0`,
`neighbors` returns a list of moves, and for each move `m` of it `doMove` returns a
puzzle of the same size whose blank index is in range and orthogonally adjacent to the
old one, whose tiles are the old tiles with those two cells exchanged, hence a
permutation of them with the blank under the new index. `doMove` works on a copy, so the
tiles of the puzzle it is given are not written. -/
theorem C37_moves_keep_board_well_formed (p : Puzzle) (last : Move)
    (hlen : (p.tiles.length : Int) = p.size * p.size) (hz0 : 0 ≤ p.zero)
    (hz : p.tiles[p.zero.toNat]? = some 0) :
    ∃ ms, neighbors p last = some ms ∧
      ∀ m ∈ ms, ∃ q old new, doMove p m = some q ∧
        q.size = p.size ∧ q.tiles.length = p.tiles.length ∧
        0 ≤ q.zero ∧ q.zero < q.tiles.length ∧
        indexToCoords p.zero p.size = some old ∧ indexToCoords q.zero q.size = some new ∧
        adjacent old new = true ∧
        (∀ n, q.tiles[n]? = if n = q.zero.toNat then p.tiles[p.zero.toNat]?
          else if n = p.zero.toNat then p.tiles[q.zero.toNat]? else p.tiles[n]?) ∧
        q.tiles.Perm p.tiles ∧ q.tiles[q.zero.toNat]? = some 0 := by
  have hzn : p.zero.toNat < p.tiles.length := by
    by_contra hcon
    rw [List.getElem?_eq_none (by omega)] at hz
    exact absurd hz (by simp)
  have hzl : p.zero < p.tiles.length := by omega
  have hzlt : p.zero < p.size * p.size := by rw [← hlen]; exact hzl
  obtain ⟨hk, hdm, hc0, hc, hpos, hneg⟩ := coords_bounds p.zero p.size hz0 hzlt
  have hold : indexToCoords p.zero p.size = some (p.zero.tdiv p.size, p.zero.tmod p.size) := by
    simp [indexToCoords, hk]
  have key : ∀ (m : Move) (r c : Int),
      (if m = Left then (p.zero.tdiv p.size, p.zero.tmod p.size - 1)
        else if m = Right then (p.zero.tdiv p.size, p.zero.tmod p.size + 1)
        else if m = Up then (p.zero.tdiv p.size - 1, p.zero.tmod p.size)
        else if m = Down then (p.zero.tdiv p.size + 1, p.zero.tmod p.size)
        else (p.zero.tdiv p.size, p.zero.tmod p.size)) = (r, c) →
      0 ≤ c → c < |p.size| → 0 ≤ r * p.size + c → r * p.size + c < p.size * p.size →
      adjacent (p.zero.tdiv p.size, p.zero.tmod p.size) (r, c) = true →
      ∃ q old new, doMove p m = some q ∧
        q.size = p.size ∧ q.tiles.length = p.tiles.length ∧
        0 ≤ q.zero ∧ q.zero < q.tiles.length ∧
        indexToCoords p.zero p.size = some old ∧ indexToCoords q.zero q.size = some new ∧
        adjacent old new = true ∧
        (∀ n, q.tiles[n]? = if n = q.zero.toNat then p.tiles[p.zero.toNat]?
          else if n = p.zero.toNat then p.tiles[q.zero.toNat]? else p.tiles[n]?) ∧
        q.tiles.Perm p.tiles ∧ q.tiles[q.zero.toNat]? = some 0 := by
    intro m r c hrc h1 h2 h3 h4 hadj
    obtain ⟨hdo, hnew⟩ := doMove_to p m r c hlen hz0 hzlt hrc h1 h2 h3 h4
    obtain ⟨e1, e2, e3, e4⟩ := exchanged_tiles p.tiles p.zero (r * p.size + c) hz0 hzl
      (by rw [hlen]; exact h4) hz
    exact ⟨_, _, _, hdo, rfl, e1, h3, by rw [e1, hlen]; exact h4, hold, hnew, hadj, e2, e3, e4⟩
  have hms : neighbors p last = some
      ((((if p.zero.tmod p.size > 0 ∧ last ≠ Right then [Left] else [])
        ++ (if p.zero.tmod p.size < p.size - 1 ∧ last ≠ Left then [Right] else []))
        ++ (if p.zero.tdiv p.size > 0 ∧ last ≠ Down then [Up] else []))
        ++ (if p.zero.tdiv p.size < p.size - 1 ∧ last ≠ Up then [Down] else [])) := by
    simp only [neighbors, hold]
    split_ifs <;> rfl
  refine ⟨_, hms, ?_⟩
  intro m hm
  have hcases : (m = Left ∧ p.zero.tmod p.size > 0)
      ∨ (m = Right ∧ p.zero.tmod p.size < p.size - 1)
      ∨ (m = Up ∧ p.zero.tdiv p.size > 0)
      ∨ (m = Down ∧ p.zero.tdiv p.size < p.size - 1) := by
    simp only [List.mem_append] at hm
    rcases hm with ((h | h) | h) | h
    · split_ifs at h with hg
      · exact Or.inl ⟨List.mem_singleton.mp h, hg.1⟩
      · simp at h
    · split_ifs at h with hg
      · exact Or.inr (Or.inl ⟨List.mem_singleton.mp h, hg.1⟩)
      · simp at h
    · split_ifs at h with hg
      · exact Or.inr (Or.inr (Or.inl ⟨List.mem_singleton.mp h, hg.1⟩))
      · simp at h
    · split_ifs at h with hg
      · exact Or.inr (Or.inr (Or.inr ⟨List.mem_singleton.mp h, hg.1⟩))
      · simp at h
  have hsz : 0 < p.size ∨ p.size < 0 := by omega
  rcases hcases with ⟨rfl, hg⟩ | ⟨rfl, hg⟩ | ⟨rfl, hg⟩ | ⟨rfl, hg⟩
  · refine key Left (p.zero.tdiv p.size) (p.zero.tmod p.size - 1) (by simp) (by omega) (by omega) ?_ ?_ (by simp [adjacent])
    · rcases hsz with h | h
      · have := hpos h; nlinarith
      · have := hneg h; nlinarith
    · rcases hsz with h | h
      · have := hpos h; nlinarith
      · have := hneg h; nlinarith
  · have h : 0 < p.size := by omega
    rw [abs_of_pos h] at hc
    have := hpos h
    refine key Right (p.zero.tdiv p.size) (p.zero.tmod p.size + 1) (by simp [Left, Right]) (by omega) (by rw [abs_of_pos h]; omega) ?_ ?_
      (by simp [adjacent])
    · nlinarith
    · nlinarith
  · have h : 0 < p.size := by
      rcases hsz with h | h
      · exact h
      · have := hneg h; omega
    rw [abs_of_pos h] at hc
    have := hpos h
    refine key Up (p.zero.tdiv p.size - 1) (p.zero.tmod p.size) (by simp [Left, Right, Up]) hc0 (by rw [abs_of_pos h]; exact hc) ?_ ?_
      (by simp [adjacent])
    · nlinarith
    · nlinarith
  · have h : 0 < p.size := by
      rcases hsz with h | h
      · exact h
      · have := hneg h; omega
    rw [abs_of_pos h] at hc
    have := hpos h
    refine key Down (p.zero.tdiv p.size + 1) (p.zero.tmod p.size)
      (by simp [Left, Right, Up, Down]) hc0
      (by rw [abs_of_pos h]; exact hc) ?_ ?_ (by simp [adjacent])
    · nlinarith
    · nlinarith

/-- C37 at a concrete input: the 3 x 3 board with the blank in the middle, after no
earlier move. -/
theorem C37_moves_keep_board_well_formed_witness :
    (middleBlank.tiles.length : Int) = middleBlank.size * middleBlank.size ∧
    0 ≤ middleBlank.zero ∧ middleBlank.tiles[middleBlank.zero.toNat]? = some 0 ∧
    ∃ ms, neighbors middleBlank (-1) = some ms ∧
      ∀ m ∈ ms, ∃ q old new, doMove middleBlank m = some q ∧
        q.size = middleBlank.size ∧ q.tiles.length = middleBlank.tiles.length ∧
        0 ≤ q.zero ∧ q.zero < q.tiles.length ∧
        indexToCoords middleBlank.zero middleBlank.size = some old ∧
        indexToCoords q.zero q.size = some new ∧ adjacent old new = true ∧
        (∀ n, q.tiles[n]? = if n = q.zero.toNat then
            middleBlank.tiles[middleBlank.zero.toNat]?
          else if n = middleBlank.zero.toNat then middleBlank.tiles[q.zero.toNat]?
          else middleBlank.tiles[n]?) ∧
        q.tiles.Perm middleBlank.tiles ∧ q.tiles[q.zero.toNat]? = some 0 :=
  ⟨by decide, by decide, by decide,
    C37_moves_keep_board_well_formed middleBlank (-1) (by decide) (by decide) (by decide)⟩

end SlidingPuzzle

namespace Crossover

/-! ## Properties of the ordered crossover -/

theorem mem_cities (n : Nat) (x : Int) : x ∈ cities n ↔ ∃ c : Nat, c < n ∧ x = (c : Int) := by
  simp only [cities, List.mem_map, List.mem_range]
  constructor
  · rintro ⟨c, hc, rfl⟩; exact ⟨c, hc, rfl⟩
  · rintro ⟨c, hc, rfl⟩; exact ⟨c, hc, rfl⟩

theorem cities_ne_neg_one (n : Nat) (x : Int) (h : x ∈ cities n) : x ≠ -1 := by
  obtain ⟨c, _, rfl⟩ := (mem_cities n x).mp h
  omega

theorem cities_nodup (n : Nat) : (cities n).Nodup :=
  List.Nodup.map (fun _ _ h => Int.ofNat.inj h) (List.nodup_range n)

theorem cities_length (n : Nat) : (cities n).length = n := by
  simp [cities]

/-- The search for an empty slot succeeds when one of the next `fuel` slots is empty. -/
theorem findSlot_spec (n : Nat) (child : List Int) :
    ∀ (fuel pos : Nat), pos < n →
      (∃ t, t < fuel ∧ child[(pos + t) % n]? = some (-1)) →
      ∃ slot, findSlot n fuel child pos = some slot ∧ slot < n ∧ child[slot]? = some (-1) := by
  intro fuel
  induction fuel with
  | zero =>
    rintro pos _ ⟨t, ht, _⟩
    exact absurd ht (Nat.not_lt_zero _)
  | succ fuel ih =>
    rintro pos hpos ⟨t, ht, hget⟩
    by_cases h : child[pos]? = some (-1)
    · refine ⟨pos, ?_, hpos, h⟩
      simp [findSlot, List.getD_eq_getElem?_getD, h]
    · have ht0 : t ≠ 0 := by
        rintro rfl
        rw [Nat.add_zero, Nat.mod_eq_of_lt hpos] at hget
        exact h hget
      obtain ⟨t', rfl⟩ := Nat.exists_eq_succ_of_ne_zero ht0
      have hne : child.getD pos 0 ≠ -1 := by
        rw [List.getD_eq_getElem?_getD]
        intro hh
        cases hc : child[pos]? with
        | none => rw [hc] at hh; simp at hh
        | some y =>
          rw [hc] at hh h
          simp only [Option.getD_some] at hh
          exact h (by rw [hh])
      have hn : 0 < n := by omega
      obtain ⟨slot, hs, hlt, hg⟩ := ih ((pos + 1) % n) (Nat.mod_lt _ hn)
        ⟨t', by omega, by
          rw [Nat.mod_add_mod]
          have : pos + 1 + t' = pos + (t' + 1) := by omega
          rw [this]
          exact hget⟩
      exact ⟨slot, by simp only [findSlot, hne, ne_eq, not_false_eq_true, if_true, hs], hlt, hg⟩

theorem exists_offset (n pos idx : Nat) (hpos : pos < n) (hidx : idx < n) :
    ∃ t, t < n ∧ (pos + t) % n = idx := by
  refine ⟨(idx + n - pos) % n, Nat.mod_lt _ (by omega), ?_⟩
  rw [Nat.add_mod_mod]
  have : pos + (idx + n - pos) = idx + n := by omega
  rw [this, Nat.add_mod_right, Nat.mod_eq_of_lt hidx]

/-- A child route in which every filled slot holds a city, no city twice, and which does
not hold the city `g`, has an empty slot. -/
theorem exists_empty_slot (n : Nat) (child : List Int) (g : Int) (hlen : child.length = n)
    (hmem : ∀ x ∈ child, x = -1 ∨ x ∈ cities n)
    (hinj : ∀ (i j : Nat) (x : Int), child[i]? = some x → child[j]? = some x → x ≠ -1 → i = j)
    (hg : g ∈ cities n) (hgc : g ∉ child) :
    ∃ idx, idx < n ∧ child[idx]? = some (-1) := by
  by_contra hcon
  have hno : ∀ x ∈ child, x ≠ -1 := by
    rintro x hx rfl
    obtain ⟨idx, hidx⟩ := List.mem_iff_getElem?.mp hx
    have hlt : idx < child.length := by
      by_contra h
      rw [List.getElem?_eq_none (by omega)] at hidx
      exact absurd hidx (by simp)
    exact hcon ⟨idx, hlen ▸ hlt, hidx⟩
  have hnd : child.Nodup := by
    rw [List.nodup_iff_getElem?_ne_getElem?]
    intro i j hij hj heq
    have hi : i < child.length := by omega
    rw [List.getElem?_eq_getElem hi, List.getElem?_eq_getElem hj] at heq
    have hx := hno child[i] (List.getElem_mem _)
    have := hinj i j child[i] (List.getElem?_eq_getElem hi)
      (by rw [List.getElem?_eq_getElem hj, heq]) hx
    omega
  have hnd2 : (g :: child).Nodup := List.nodup_cons.mpr ⟨hgc, hnd⟩
  have hsub : g :: child ⊆ cities n := by
    intro x hx
    rcases List.mem_cons.mp hx with rfl | hx
    · exact hg
    · rcases hmem x hx with h | h
      · exact absurd h (hno x hx)
      · exact h
  have := (List.subperm_of_subset hnd2 hsub).length_le
  rw [cities_length, List.length_cons, hlen] at this
  omega

/-- The loop of `fillFrom` ends, keeps every filled slot, and leaves a route that holds
every city of the donor, each filled slot a city and no city twice. -/
theorem fill_fold (n : Nat) :
    ∀ (donor child : List Int) (pos : Nat), child.length = n →
      (∀ x ∈ child, x = -1 ∨ x ∈ cities n) →
      (∀ (i j : Nat) (x : Int), child[i]? = some x → child[j]? = some x → x ≠ -1 → i = j) →
      pos < n → (∀ g ∈ donor, g ∈ cities n) →
      ∃ child' pos', donor.foldl (fillStep n) (some (child, pos)) = some (child', pos') ∧
        child'.length = n ∧ (∀ x ∈ child', x = -1 ∨ x ∈ cities n) ∧
        (∀ (i j : Nat) (x : Int), child'[i]? = some x → child'[j]? = some x → x ≠ -1 → i = j) ∧
        (∀ (idx : Nat) (x : Int), child[idx]? = some x → x ≠ -1 → child'[idx]? = some x) ∧
        ∀ g ∈ donor, g ∈ child' := by
  intro donor
  induction donor with
  | nil =>
    intro child pos hlen hmem hinj _ _
    exact ⟨child, pos, rfl, hlen, hmem, hinj, fun _ _ h _ => h, fun g hg => by simp at hg⟩
  | cons g rest ih =>
    intro child pos hlen hmem hinj hpos hdonor
    have hg : g ∈ cities n := hdonor g (List.mem_cons_self _ _)
    have hg1 : g ≠ -1 := cities_ne_neg_one n g hg
    have hrest : ∀ x ∈ rest, x ∈ cities n := fun x hx => hdonor x (List.mem_cons_of_mem _ hx)
    by_cases hc : g ∈ child
    · have hstep : fillStep n (some (child, pos)) g = some (child, pos) := by
        simp [fillStep, hc]
      obtain ⟨child', pos', h1, h2, h3, h4, h5, h6⟩ := ih child pos hlen hmem hinj hpos hrest
      refine ⟨child', pos', by rw [List.foldl_cons, hstep, h1], h2, h3, h4, h5, ?_⟩
      intro x hx
      rcases List.mem_cons.mp hx with rfl | hx
      · obtain ⟨idx, hidx⟩ := List.mem_iff_getElem?.mp hc
        exact List.mem_iff_getElem?.mpr ⟨idx, h5 idx _ hidx hg1⟩
      · exact h6 x hx
    · obtain ⟨idx, hidx, hempty⟩ := exists_empty_slot n child g hlen hmem hinj hg hc
      obtain ⟨t, ht, hoff⟩ := exists_offset n pos idx hpos hidx
      obtain ⟨slot, hfind, hslot, hsl⟩ := findSlot_spec n child n pos hpos
        ⟨t, ht, by rw [hoff]; exact hempty⟩
      have hstep : fillStep n (some (child, pos)) g
          = some (child.set slot g, (slot + 1) % n) := by
        simp [fillStep, hc, hfind]
      have hslotlen : slot < child.length := by omega
      have hget : ∀ k : Nat, (child.set slot g)[k]?
          = if slot = k then some g else child[k]? := by
        intro k
        rw [List.getElem?_set]
        split_ifs <;> rfl
      have hlen1 : (child.set slot g).length = n := by simpa using hlen
      have hmem1 : ∀ x ∈ child.set slot g, x = -1 ∨ x ∈ cities n := by
        intro x hx
        rcases List.mem_or_eq_of_mem_set hx with h | h
        · exact hmem x h
        · exact Or.inr (h ▸ hg)
      have hinj1 : ∀ (i j : Nat) (x : Int), (child.set slot g)[i]? = some x →
          (child.set slot g)[j]? = some x → x ≠ -1 → i = j := by
        intro i j x hi hj hx
        rw [hget] at hi hj
        by_cases h1 : slot = i <;> by_cases h2 : slot = j
        · omega
        · rw [if_pos h1] at hi
          rw [if_neg h2] at hj
          simp only [Option.some.injEq] at hi
          subst hi
          exact absurd (List.mem_iff_getElem?.mpr ⟨j, hj⟩) hc
        · rw [if_neg h1] at hi
          rw [if_pos h2] at hj
          simp only [Option.some.injEq] at hj
          subst hj
          exact absurd (List.mem_iff_getElem?.mpr ⟨i, hi⟩) hc
        · rw [if_neg h1] at hi
          rw [if_neg h2] at hj
          exact hinj i j x hi hj hx
      have hext : ∀ (k : Nat) (x : Int), child[k]? = some x → x ≠ -1 →
          (child.set slot g)[k]? = some x := by
        intro k x hk hx
        rw [hget]
        by_cases h1 : slot = k
        · subst h1
          rw [hsl] at hk
          simp only [Option.some.injEq] at hk
          exact absurd hk.symm hx
        · rw [if_neg h1]; exact hk
      have hgin : g ∈ child.set slot g :=
        List.mem_iff_getElem?.mpr ⟨slot, by rw [hget, if_pos rfl]⟩
      have hn : 0 < n := by omega
      obtain ⟨child', pos', h1, h2, h3, h4, h5, h6⟩ := ih (child.set slot g) ((slot + 1) % n)
        hlen1 hmem1 hinj1 (Nat.mod_lt _ hn) hrest
      refine ⟨child', pos', by rw [List.foldl_cons, hstep, h1], h2, h3, h4,
        fun k x hk hx => h5 k x (hext k x hk hx) hx, ?_⟩
      intro x hx
      rcases List.mem_cons.mp hx with rfl | hx
      · obtain ⟨k, hk⟩ := List.mem_iff_getElem?.mp hgin
        exact List.mem_iff_getElem?.mpr ⟨k, h5 k _ hk hg1⟩
      · exact h6 x hx

/-- The slots of a route after the copy loop has run over `len` indices from `i` on. -/
theorem copy_fold (parent : List Int) :
    ∀ (len i : Nat) (ch : List Int) (idx : Nat), i + len ≤ ch.length →
      ((List.range' i len).foldl (fun child k => child.set k (parent.getD k 0)) ch)[idx]?
        = if i ≤ idx ∧ idx < i + len then some (parent.getD idx 0) else ch[idx]? := by
  intro len
  induction len with
  | zero =>
    intro i ch idx _
    have : ¬ (i ≤ idx ∧ idx < i + 0) := by omega
    simp only [List.range'_zero, List.foldl_nil, this, if_false]
  | succ len ih =>
    intro i ch idx hle
    simp only [List.range'_succ, List.foldl_cons]
    rw [ih (i + 1) (ch.set i (parent.getD i 0)) idx (by simp only [List.length_set]; omega),
      List.getElem?_set]
    by_cases h1 : i + 1 ≤ idx ∧ idx < i + 1 + len
    · rw [if_pos h1, if_pos (by omega)]
    · rw [if_neg h1]
      by_cases h2 : i = idx
      · subst h2
        rw [if_pos rfl, if_pos (by omega), if_pos (by omega)]
      · rw [if_neg h2, if_neg (by omega)]

/-- The child route before `fillFrom`: the parent's cities in the slots `i..j` and `-1`
in the others. -/
theorem copySlice_getElem? (n i j : Nat) (parent : List Int) (hij : i ≤ j) (hj : j < n)
    (idx : Nat) :
    (copySlice n i j parent)[idx]?
      = if i ≤ idx ∧ idx ≤ j then some (parent.getD idx 0)
        else if idx < n then some (-1) else none := by
  unfold copySlice
  rw [copy_fold parent (j + 1 - i) i _ idx (by simp only [List.length_replicate]; omega)]
  by_cases h : i ≤ idx ∧ idx ≤ j
  · rw [if_pos (by omega), if_pos h]
  · rw [if_neg (by omega), if_neg h]
    rw [List.getElem?_replicate]

/-- The result of `fillFrom` on the copied slice of one parent with the other parent as
donor: a permutation of the cities that keeps the slice. -/
theorem fillFrom_copySlice (n i j : Nat) (parent donor : List Int) (hij : i ≤ j) (hj : j < n)
    (hp : parent.Perm (cities n)) (hd : donor.Perm (cities n)) :
    ∃ child, fillFrom n j (copySlice n i j parent) donor = some child ∧
      child.Perm (cities n) ∧
      ∀ idx, i ≤ idx → idx ≤ j → child[idx]? = parent[idx]? := by
  have hplen : parent.length = n := by rw [hp.length_eq, cities_length]
  have hpnd : parent.Nodup := hp.nodup_iff.mpr (cities_nodup n)
  have hpget : ∀ idx, idx < n → parent[idx]? = some (parent.getD idx 0) := by
    intro idx hidx
    rw [List.getD_eq_getElem?_getD, List.getElem?_eq_getElem (by omega)]
    rfl
  have hlen0 : (copySlice n i j parent).length = n := by
    by_contra hne
    rcases Nat.lt_or_gt_of_ne hne with h | h
    · have h1 := copySlice_getElem? n i j parent hij hj (copySlice n i j parent).length
      rw [List.getElem?_eq_none (le_refl _)] at h1
      split_ifs at h1
    · have h1 := copySlice_getElem? n i j parent hij hj n
      rw [List.getElem?_eq_getElem h, if_neg (by omega), if_neg (by omega)] at h1
      exact absurd h1 (by simp)
  have hmem0 : ∀ x ∈ copySlice n i j parent, x = -1 ∨ x ∈ cities n := by
    intro x hx
    obtain ⟨idx, hidx⟩ := List.mem_iff_getElem?.mp hx
    rw [copySlice_getElem? n i j parent hij hj] at hidx
    split_ifs at hidx with h1 h2
    · simp only [Option.some.injEq] at hidx
      right
      rw [← hidx]
      apply hp.subset
      apply List.mem_iff_getElem?.mpr
      exact ⟨idx, hpget idx (by omega)⟩
    · simp only [Option.some.injEq] at hidx
      exact Or.inl hidx.symm
  have hinj0 : ∀ (a b : Nat) (x : Int), (copySlice n i j parent)[a]? = some x →
      (copySlice n i j parent)[b]? = some x → x ≠ -1 → a = b := by
    intro a b x ha hb hx
    rw [copySlice_getElem? n i j parent hij hj] at ha hb
    split_ifs at ha hb with h1 h2 h3 h4 h5 h6
    · rw [← hpget a (by omega)] at ha
      rw [← hpget b (by omega)] at hb
      have ha' : a < parent.length := by omega
      have hb' : b < parent.length := by omega
      rw [List.getElem?_eq_getElem ha'] at ha
      rw [List.getElem?_eq_getElem hb'] at hb
      simp only [Option.some.injEq] at ha hb
      exact (List.Nodup.getElem_inj_iff hpnd).mp (ha.trans hb.symm)
    · simp only [Option.some.injEq] at hb
      exact absurd hb.symm hx
    · simp only [Option.some.injEq] at ha
      exact absurd ha.symm hx
    · simp only [Option.some.injEq] at ha
      exact absurd ha.symm hx
  have hn : 0 < n := by omega
  obtain ⟨child, pos, h1, h2, h3, h4, h5, h6⟩ := fill_fold n donor (copySlice n i j parent)
    ((j + 1) % n) hlen0 hmem0 hinj0 (Nat.mod_lt _ hn) (fun g hg => hd.subset hg)
  refine ⟨child, by simp only [fillFrom, h1, Option.map_some'], ?_, ?_⟩
  · have hsub : cities n ⊆ child := fun x hx => h6 x (hd.symm.subset hx)
    have hsp := List.subperm_of_subset (cities_nodup n) hsub
    exact (hsp.perm_of_length_le (by rw [h2, cities_length])).symm
  · intro idx hi hj'
    have hc := copySlice_getElem? n i j parent hij hj idx
    rw [if_pos ⟨hi, hj'⟩] at hc
    have hx : parent.getD idx 0 ≠ -1 := by
      apply cities_ne_neg_one n
      apply hp.subset
      exact List.mem_iff_getElem?.mpr ⟨idx, hpget idx (by omega)⟩
    rw [h5 idx _ hc hx, hpget idx (by omega)]

/-- C38: for every pair of parent routes that are permutations of `0..n-1` and every two
draws `a, b < n` (so `n ≥ 1`), with cut points `i = min a b` and `j = max a b`,
`crossover` returns two child routes (both fill loops end); each is a permutation of
`0..n-1`, so no slot is left at `-1` and no city is repeated; and the slots `i..j` of the
first child hold the cities of the first parent, those of the second child the cities of
the second parent. -/
theorem C38_crossover_children_are_tours (parent1 parent2 : List Int) (n a b : Nat)
    (hp1 : parent1.Perm (cities n)) (hp2 : parent2.Perm (cities n))
    (ha : a < n) (hb : b < n) :
    ∃ child1 child2, crossover parent1 parent2 a b = some (child1, child2) ∧
      child1.Perm (cities n) ∧ child2.Perm (cities n) ∧
      -1 ∉ child1 ∧ -1 ∉ child2 ∧ child1.Nodup ∧ child2.Nodup ∧
      ∀ idx, min a b ≤ idx → idx ≤ max a b →
        child1[idx]? = parent1[idx]? ∧ child2[idx]? = parent2[idx]? := by
  have hl1 : parent1.length = n := by rw [hp1.length_eq, cities_length]
  have hl2 : parent2.length = n := by rw [hp2.length_eq, cities_length]
  have hi : (if a > b then b else a) = min a b := by
    split_ifs <;> omega
  have hj : (if a > b then a else b) = max a b := by
    split_ifs <;> omega
  have hij : min a b ≤ max a b := by omega
  have hjn : max a b < n := by omega
  obtain ⟨c1, h1, p1, k1⟩ := fillFrom_copySlice n (min a b) (max a b) parent1 parent2 hij hjn
    hp1 hp2
  obtain ⟨c2, h2, p2, k2⟩ := fillFrom_copySlice n (min a b) (max a b) parent2 parent1 hij hjn
    hp2 hp1
  refine ⟨c1, c2, ?_, p1, p2, ?_, ?_, p1.nodup_iff.mpr (cities_nodup n),
    p2.nodup_iff.mpr (cities_nodup n), fun idx h3 h4 => ⟨k1 idx h3 h4, k2 idx h3 h4⟩⟩
  · unfold crossover
    simp only [hl1, hl2, hi, hj]
    rw [if_neg (by omega), if_pos ⟨hjn, hjn⟩, h1, h2]
  · exact fun h => cities_ne_neg_one n (-1) (p1.subset h) rfl
  · exact fun h => cities_ne_neg_one n (-1) (p2.subset h) rfl

/-- C38 at a concrete input: five cities, the second parent the reverse of the first,
draws 3 and 1. -/
theorem C38_crossover_children_are_tours_witness :
    [0, 1, 2, 3, 4].Perm (cities 5) ∧ [4, 3, 2, 1, 0].Perm (cities 5) ∧ 3 < 5 ∧ 1 < 5 ∧
    ∃ child1 child2, crossover [0, 1, 2, 3, 4] [4, 3, 2, 1, 0] 3 1 = some (child1, child2) ∧
      child1.Perm (cities 5) ∧ child2.Perm (cities 5) ∧
      -1 ∉ child1 ∧ -1 ∉ child2 ∧ child1.Nodup ∧ child2.Nodup ∧
      ∀ idx, min 3 1 ≤ idx → idx ≤ max 3 1 →
        child1[idx]? = ([0, 1, 2, 3, 4] : List Int)[idx]? ∧
        child2[idx]? = ([4, 3, 2, 1, 0] : List Int)[idx]? :=
  ⟨by decide, by decide, by decide, by decide,
    C38_crossover_children_are_tours [0, 1, 2, 3, 4] [4, 3, 2, 1, 0] 5 3 1
      (by decide) (by decide) (by decide) (by decide)⟩

end Crossover

namespace TicTacToe

/-! ## Properties of the tic-tac-toe search -/

theorem terminal_score (b : Board) (m d : Int) (h : (evaluateTerminal b m d).1 = true)
    (hd0 : 0 ≤ d) (hd : d ≤ 20) :
    -10 ≤ (evaluateTerminal b m d).2 ∧ (evaluateTerminal b m d).2 ≤ 10 := by
  unfold evaluateTerminal at h ⊢
  simp only at h ⊢
  split_ifs at h ⊢ <;> simp only [WIN_SCORE] <;> omega

theorem not_terminal_empty (b : Board) (m d : Int) (h : (evaluateTerminal b m d).1 = false) :
    ∃ i, i < 9 ∧ b.getD i 0 = EMPTY := by
  unfold evaluateTerminal at h
  simp only at h
  split_ifs at h with h1 h2 h3
  · simp only [isBoardFull, CELLS, Bool.not_eq_true, List.all_eq_false, List.mem_range] at h3
    obtain ⟨i, hi, hne⟩ := h3
    exact ⟨i, hi, by simpa using hne⟩

theorem getD_eq_getElem (b : Board) (i : Nat) (hi : i < b.length) : b.getD i 0 = b[i] := by
  simp [List.getD_eq_getElem?_getD, List.getElem?_eq_getElem hi]

theorem set_restore (b : Board) (i : Nat) (t : Int) (hi : i < b.length)
    (he : b.getD i 0 = EMPTY) : (b.set i t).set i EMPTY = b := by
  rw [List.set_set]
  rw [getD_eq_getElem b i hi] at he
  apply List.ext_getElem?
  intro n
  rw [List.getElem?_set]
  split_ifs with h1
  · subst h1
    rw [List.getElem?_eq_getElem hi, he]
  · rfl

theorem emptyCells_set_le (b : Board) (i : Nat) (t : Int) (hi : i < b.length)
    (he : b.getD i 0 = EMPTY) : emptyCells (b.set i t) ≤ emptyCells b := by
  rw [getD_eq_getElem b i hi] at he
  unfold emptyCells
  rw [List.countP_set _ _ _ _ hi]
  have h1 : 1 ≤ b.countP (fun x => x == EMPTY) :=
    List.countP_pos_iff.mpr ⟨b[i], List.getElem_mem _, by simp [he]⟩
  simp only [he, beq_self_eq_true, if_true]
  split_ifs <;> omega

theorem emptyCells_set_lt (b : Board) (i : Nat) (t : Int) (hi : i < b.length)
    (he : b.getD i 0 = EMPTY) (ht : t ≠ EMPTY) : emptyCells (b.set i t) < emptyCells b := by
  rw [getD_eq_getElem b i hi] at he
  unfold emptyCells
  rw [List.countP_set _ _ _ _ hi]
  have h1 : 1 ≤ b.countP (fun x => x == EMPTY) :=
    List.countP_pos_iff.mpr ⟨b[i], List.getElem_mem _, by simp [he]⟩
  have h2 : (t == EMPTY) = false := by simpa using ht
  simp only [he, beq_self_eq_true, if_true, h2, Bool.false_eq_true, if_false]
  omega

theorem emptyCells_le (b : Board) : emptyCells b ≤ b.length :=
  List.countP_le_length _

theorem otherPlayer_ne_empty (p : Int) : otherPlayer p ≠ EMPTY := by
  unfold otherPlayer
  split_ifs <;> decide

/-- The loop of `maxValue`: when every call at an empty cell returns a score within
`[-10, 10]` and restores the board, so does the loop, unless it meets no empty cell and
returns the `best` it started from. -/
theorem maxLoop_spec (child : Board → Int → Int → Option (Int × Board)) (turn beta : Int)
    (b : Board) (hlen : b.length = 9)
    (hchild : ∀ (i : Nat) (a be : Int), i < 9 → b.getD i 0 = EMPTY →
      ∃ s, child (b.set i turn) a be = some (s, b.set i turn) ∧ -10 ≤ s ∧ s ≤ 10) :
    ∀ (cells : List Nat) (best alpha : Int), (∀ i ∈ cells, i < 9) →
      ((-10 ≤ best ∧ best ≤ 10) ∨ best = -INF) →
      ∃ best', maxLoop child turn beta cells b best alpha = some (best', b) ∧
        ((-10 ≤ best' ∧ best' ≤ 10) ∨
          (best' = best ∧ ∀ i ∈ cells, b.getD i 0 ≠ EMPTY)) := by
  intro cells
  induction cells with
  | nil =>
    intro best alpha _ _
    exact ⟨best, rfl, Or.inr ⟨rfl, fun i hi => by simp at hi⟩⟩
  | cons i rest ih =>
    intro best alpha hcells hbest
    have hi : i < 9 := hcells i (List.mem_cons_self _ _)
    have hrest : ∀ k ∈ rest, k < 9 := fun k hk => hcells k (List.mem_cons_of_mem _ hk)
    by_cases he : b.getD i 0 = EMPTY
    · obtain ⟨s, hs, hs1, hs2⟩ := hchild i alpha beta hi he
      have hb1 : -10 ≤ (if s > best then s else best) ∧ (if s > best then s else best) ≤ 10 := by
        rcases hbest with h | h
        · split_ifs <;> omega
        · rw [h, if_pos (by simp only [INF]; omega)]
          exact ⟨hs1, hs2⟩
      simp only [maxLoop, he, if_true, hs, set_restore b i turn (by omega) he]
      generalize (if s > best then s else best) = best₁ at hb1 ⊢
      generalize (if best₁ > alpha then best₁ else alpha) = alpha₁
      by_cases hbreak : alpha₁ ≥ beta
      · rw [if_pos hbreak]
        exact ⟨_, rfl, Or.inl hb1⟩
      · rw [if_neg hbreak]
        obtain ⟨best', h1, h2⟩ := ih best₁ alpha₁ hrest (Or.inl hb1)
        refine ⟨best', h1, Or.inl ?_⟩
        rcases h2 with h2 | ⟨h2, _⟩
        · exact h2
        · rw [h2]; exact hb1
    · obtain ⟨best', h1, h2⟩ := ih best alpha hrest hbest
      refine ⟨best', by simp only [maxLoop, he, if_false, h1], ?_⟩
      rcases h2 with h2 | ⟨h2, h3⟩
      · exact Or.inl h2
      · refine Or.inr ⟨h2, ?_⟩
        intro k hk
        rcases List.mem_cons.mp hk with rfl | hk
        · exact he
        · exact h3 k hk

/-- The loop of `minValue`, like `maxLoop_spec`. -/
theorem minLoop_spec (child : Board → Int → Int → Option (Int × Board)) (turn alpha : Int)
    (b : Board) (hlen : b.length = 9)
    (hchild : ∀ (i : Nat) (a be : Int), i < 9 → b.getD i 0 = EMPTY →
      ∃ s, child (b.set i turn) a be = some (s, b.set i turn) ∧ -10 ≤ s ∧ s ≤ 10) :
    ∀ (cells : List Nat) (best beta : Int), (∀ i ∈ cells, i < 9) →
      ((-10 ≤ best ∧ best ≤ 10) ∨ best = INF) →
      ∃ best', minLoop child turn alpha cells b best beta = some (best', b) ∧
        ((-10 ≤ best' ∧ best' ≤ 10) ∨
          (best' = best ∧ ∀ i ∈ cells, b.getD i 0 ≠ EMPTY)) := by
  intro cells
  induction cells with
  | nil =>
    intro best beta _ _
    exact ⟨best, rfl, Or.inr ⟨rfl, fun i hi => by simp at hi⟩⟩
  | cons i rest ih =>
    intro best beta hcells hbest
    have hi : i < 9 := hcells i (List.mem_cons_self _ _)
    have hrest : ∀ k ∈ rest, k < 9 := fun k hk => hcells k (List.mem_cons_of_mem _ hk)
    by_cases he : b.getD i 0 = EMPTY
    · obtain ⟨s, hs, hs1, hs2⟩ := hchild i alpha beta hi he
      have hb1 : -10 ≤ (if s < best then s else best) ∧ (if s < best then s else best) ≤ 10 := by
        rcases hbest with h | h
        · split_ifs <;> omega
        · rw [h, if_pos (by simp only [INF]; omega)]
          exact ⟨hs1, hs2⟩
      simp only [minLoop, he, if_true, hs, set_restore b i turn (by omega) he]
      generalize (if s < best then s else best) = best₁ at hb1 ⊢
      generalize (if best₁ < beta then best₁ else beta) = beta₁
      by_cases hbreak : alpha ≥ beta₁
      · rw [if_pos hbreak]
        exact ⟨_, rfl, Or.inl hb1⟩
      · rw [if_neg hbreak]
        obtain ⟨best', h1, h2⟩ := ih best₁ beta₁ hrest (Or.inl hb1)
        refine ⟨best', h1, Or.inl ?_⟩
        rcases h2 with h2 | ⟨h2, _⟩
        · exact h2
        · rw [h2]; exact hb1
    · obtain ⟨best', h1, h2⟩ := ih best beta hrest hbest
      refine ⟨best', by simp only [minLoop, he, if_false, h1], ?_⟩
      rcases h2 with h2 | ⟨h2, h3⟩
      · exact Or.inl h2
      · refine Or.inr ⟨h2, ?_⟩
        intro k hk
        rcases List.mem_cons.mp hk with rfl | hk
        · exact he
        · exact h3 k hk

/-- On a board of nine cells, with a player to move who is not the empty rune and more
`fuel` than empty cells, `maxValue` and `minValue` return a score within `[-10, 10]` and
the board as they received it. -/
theorem value_spec (maxFor : Int) :
    ∀ (fuel : Nat) (b : Board) (turn depth alpha beta : Int), b.length = 9 →
      turn ≠ EMPTY → emptyCells b < fuel → 0 ≤ depth → depth + emptyCells b ≤ 20 →
      (∃ s, maxValue fuel b turn maxFor depth alpha beta = some (s, b) ∧ -10 ≤ s ∧ s ≤ 10) ∧
      (∃ s, minValue fuel b turn maxFor depth alpha beta = some (s, b) ∧ -10 ≤ s ∧ s ≤ 10) := by
  intro fuel
  induction fuel with
  | zero =>
    intro b turn depth alpha beta _ _ h
    exact absurd h (Nat.not_lt_zero _)
  | succ fuel ih =>
    intro b turn depth alpha beta hlen hturn hfuel hd0 hd
    by_cases hterm : (evaluateTerminal b maxFor depth).1 = true
    · have hs := terminal_score b maxFor depth hterm hd0 (by omega)
      exact ⟨⟨_, by simp only [maxValue, hterm, if_true], hs⟩,
        ⟨_, by simp only [minValue, hterm, if_true], hs⟩⟩
    · have hterm' : (evaluateTerminal b maxFor depth).1 = false := by
        simpa using hterm
      obtain ⟨k, hk, hke⟩ := not_terminal_empty b maxFor depth hterm'
      have hcells : ∀ i ∈ List.range CELLS, i < 9 := fun i hi => by
        simpa [CELLS] using hi
      have hkmem : k ∈ List.range CELLS := by simpa [CELLS] using hk
      have hsub : ∀ (i : Nat), i < 9 → b.getD i 0 = EMPTY →
          (b.set i turn).length = 9 ∧ emptyCells (b.set i turn) < fuel
            ∧ depth + 1 + emptyCells (b.set i turn) ≤ 20 := by
        intro i hi he
        have := emptyCells_set_lt b i turn (by omega) he hturn
        exact ⟨by simpa using hlen, by omega, by omega⟩
      constructor
      · obtain ⟨best', h1, h2⟩ := maxLoop_spec
          (fun b a be => minValue fuel b (otherPlayer turn) maxFor (depth + 1) a be)
          turn beta b hlen
          (fun i a be hi he =>
            (ih (b.set i turn) (otherPlayer turn) (depth + 1) a be (hsub i hi he).1
              (otherPlayer_ne_empty turn) (hsub i hi he).2.1 (by omega) (hsub i hi he).2.2).2)
          (List.range CELLS) (-INF) alpha hcells (Or.inr rfl)
        refine ⟨best', by simp only [maxValue, hterm', Bool.false_eq_true, if_false, h1], ?_⟩
        rcases h2 with h2 | ⟨_, h3⟩
        · exact h2
        · exact absurd hke (h3 k hkmem)
      · obtain ⟨best', h1, h2⟩ := minLoop_spec
          (fun b a be => maxValue fuel b (otherPlayer turn) maxFor (depth + 1) a be)
          turn alpha b hlen
          (fun i a be hi he =>
            (ih (b.set i turn) (otherPlayer turn) (depth + 1) a be (hsub i hi he).1
              (otherPlayer_ne_empty turn) (hsub i hi he).2.1 (by omega) (hsub i hi he).2.2).1)
          (List.range CELLS) INF beta hcells (Or.inr rfl)
        refine ⟨best', by simp only [minValue, hterm', Bool.false_eq_true, if_false, h1], ?_⟩
        rcases h2 with h2 | ⟨_, h3⟩
        · exact h2
        · exact absurd hke (h3 k hkmem)

/-- Every call of `minimax` that `findBestMove` makes, after `player` is written into an
empty cell, returns a score within `[-10, 10]` and the board as it received it. -/
theorem minimax_spec (b : Board) (player : Int) (i : Nat) (hlen : b.length = 9) (hi : i < 9)
    (he : b.getD i 0 = EMPTY) :
    ∃ s, minimax (CELLS + 1) (b.set i player) (otherPlayer player) player 1 (-INF) INF
        = some (s, b.set i player) ∧ -10 ≤ s ∧ s ≤ 10 := by
  have h1 := emptyCells_set_le b i player (by omega) he
  have h2 := emptyCells_le b
  have h := value_spec player (CELLS + 1) (b.set i player) (otherPlayer player) 1 (-INF) INF
    (by simpa using hlen) (otherPlayer_ne_empty player) (by simp only [CELLS]; omega)
    (by omega) (by omega)
  unfold minimax
  split_ifs
  · exact h.1
  · exact h.2

/-- The loop of `findBestMove`: it restores the board and ends with an empty cell as
`bestCell`, unless it meets no empty cell and returns the `bestCell` it started from. -/
theorem bestLoop_spec (player : Int) (b : Board) (hlen : b.length = 9) :
    ∀ (cells : List Nat) (bestScore bestCell : Int), (∀ i ∈ cells, i < 9) →
      (((∃ i : Nat, bestCell = (i : Int) ∧ i < 9 ∧ b.getD i 0 = EMPTY)
          ∧ -10 ≤ bestScore ∧ bestScore ≤ 10) ∨ bestScore = -INF) →
      ∃ cell, bestLoop player cells b bestScore bestCell = some (cell, b) ∧
        ((∃ i : Nat, cell = (i : Int) ∧ i < 9 ∧ b.getD i 0 = EMPTY) ∨
          (cell = bestCell ∧ ∀ i ∈ cells, b.getD i 0 ≠ EMPTY)) := by
  intro cells
  induction cells with
  | nil =>
    intro bestScore bestCell _ _
    exact ⟨bestCell, rfl, Or.inr ⟨rfl, fun i hi => by simp at hi⟩⟩
  | cons i rest ih =>
    intro bestScore bestCell hcells hinv
    have hi : i < 9 := hcells i (List.mem_cons_self _ _)
    have hrest : ∀ k ∈ rest, k < 9 := fun k hk => hcells k (List.mem_cons_of_mem _ hk)
    by_cases he : b.getD i 0 = EMPTY
    · obtain ⟨s, hs, hs1, hs2⟩ := minimax_spec b player i hlen hi he
      simp only [bestLoop, he, if_true, hs, set_restore b i player (by omega) he]
      by_cases hgt : s > bestScore
      · rw [if_pos hgt]
        obtain ⟨cell, h1, h2⟩ := ih s (i : Int) hrest (Or.inl ⟨⟨i, rfl, hi, he⟩, hs1, hs2⟩)
        refine ⟨cell, h1, Or.inl ?_⟩
        rcases h2 with h2 | ⟨h2, _⟩
        · exact h2
        · exact ⟨i, h2, hi, he⟩
      · rw [if_neg hgt]
        have hvalid : (∃ k : Nat, bestCell = (k : Int) ∧ k < 9 ∧ b.getD k 0 = EMPTY)
            ∧ -10 ≤ bestScore ∧ bestScore ≤ 10 := by
          rcases hinv with h | h
          · exact h
          · rw [h] at hgt
            simp only [INF] at hgt
            omega
        obtain ⟨cell, h1, h2⟩ := ih bestScore bestCell hrest (Or.inl hvalid)
        refine ⟨cell, h1, Or.inl ?_⟩
        rcases h2 with h2 | ⟨h2, _⟩
        · exact h2
        · rw [h2]; exact hvalid.1
    · obtain ⟨cell, h1, h2⟩ := ih bestScore bestCell hrest hinv
      refine ⟨cell, by simp only [bestLoop, he, if_false, h1], ?_⟩
      rcases h2 with h2 | ⟨h2, h3⟩
      · exact Or.inl h2
      · refine Or.inr ⟨h2, ?_⟩
        intro k hk
        rcases List.mem_cons.mp hk with rfl | hk
        · exact he
        · exact h3 k hk

/-- C39: for every board of nine cells with at least one empty cell, and every rune as
`player`, `findBestMove` returns a row and a column within `0..2` of a cell that is empty
on the board, never `(-1, -1)`, and leaves the board as it was; every score that it
compares with `bestScore` comes from a call of `minimax` that returns, lies within
`[-10, 10]` and so strictly between `-INF` and `INF`. -/
theorem C39_findBestMove_returns_empty_cell (b : Board) (player : Int)
    (hlen : b.length = 9) (hempty : ∃ i, i < 9 ∧ b.getD i 0 = EMPTY) :
    (∃ r c, findBestMove b player = some ((r, c), b) ∧
      0 ≤ r ∧ r < 3 ∧ 0 ≤ c ∧ c < 3 ∧ b.getD (idx r c).toNat 0 = EMPTY) ∧
    ∀ i, i < 9 → b.getD i 0 = EMPTY →
      ∃ s, minimax (CELLS + 1) (b.set i player) (otherPlayer player) player 1 (-INF) INF
          = some (s, b.set i player) ∧ -INF < s ∧ s < INF := by
  constructor
  · obtain ⟨k, hk, hke⟩ := hempty
    obtain ⟨cell, h1, h2⟩ := bestLoop_spec player b hlen [4, 0, 2, 6, 8, 1, 3, 5, 7] (-INF) (-1)
      (by decide) (Or.inr rfl)
    have hv : ∃ i : Nat, cell = (i : Int) ∧ i < 9 ∧ b.getD i 0 = EMPTY := by
      rcases h2 with h2 | ⟨_, h3⟩
      · exact h2
      · have hmem : k ∈ [4, 0, 2, 6, 8, 1, 3, 5, 7] := by
          have : k = 0 ∨ k = 1 ∨ k = 2 ∨ k = 3 ∨ k = 4 ∨ k = 5 ∨ k = 6 ∨ k = 7 ∨ k = 8 := by
            omega
          rcases this with h | h | h | h | h | h | h | h | h <;> subst h <;> decide
        exact absurd hke (h3 k hmem)
    obtain ⟨i, rfl, hi, hie⟩ := hv
    have hne : ¬ ((i : Int) = -1) := by omega
    have hdiv : ((i : Int).tdiv SIZE) = (i : Int) / 3 :=
      Int.tdiv_eq_ediv (by omega) (by decide)
    have hmod : ((i : Int).tmod SIZE) = (i : Int) % 3 :=
      Int.tmod_eq_emod (by omega) (by decide)
    refine ⟨(i : Int) / 3, (i : Int) % 3, ?_, by omega, by omega, by omega, by omega, ?_⟩
    · simp only [findBestMove, h1, if_neg hne, rc, hdiv, hmod]
    · have : idx ((i : Int) / 3) ((i : Int) % 3) = (i : Int) := by
        simp only [idx, SIZE]
        omega
      rw [this, Int.toNat_ofNat]
      exact hie
  · intro i hi he
    obtain ⟨s, hs, h1, h2⟩ := minimax_spec b player i hlen hi he
    exact ⟨s, hs, by simp only [INF]; omega, by simp only [INF]; omega⟩

/-- C39 at a concrete input: the board after X in the middle and O in a corner, with X
to move. -/
theorem C39_findBestMove_returns_empty_cell_witness :
    twoMoves.length = 9 ∧ (∃ i, i < 9 ∧ twoMoves.getD i 0 = EMPTY) ∧
    (∃ r c, findBestMove twoMoves X = some ((r, c), twoMoves) ∧
      0 ≤ r ∧ r < 3 ∧ 0 ≤ c ∧ c < 3 ∧ twoMoves.getD (idx r c).toNat 0 = EMPTY) ∧
    ∀ i, i < 9 → twoMoves.getD i 0 = EMPTY →
      ∃ s, minimax (CELLS + 1) (twoMoves.set i X) (otherPlayer X) X 1 (-INF) INF
          = some (s, twoMoves.set i X) ∧ -INF < s ∧ s < INF :=
  ⟨rfl, ⟨1, by decide, rfl⟩,
    C39_findBestMove_returns_empty_cell twoMoves X rfl ⟨1, by decide, rfl⟩⟩

/-- Two evaluations of `findBestMove`: on a board with one empty cell X completes the
first row, and on a board with three empty cells O takes the cell that blocks X; both
boards come back unchanged. -/
theorem findBestMove_examples :
    findBestMove lastMove X = some ((0, 2), lastMove) ∧
    findBestMove [X, X, EMPTY, O, O, X, X, EMPTY, EMPTY] O
      = some ((0, 2), [X, X, EMPTY, O, O, X, X, EMPTY, EMPTY]) := by
  decide!

end TicTacToe
